import Mathlib

/-!
# Verification development for `src/backend/main.go`

The program is one `main` function: it loads `creator_data.csv` into `Post` values,
sorts them by an engagement score, keeps the first five, renders a prompt, sends it
to a completion endpoint and writes the answer to `creator_analysis.txt`.

The embedding follows `main` segment by segment.  Go's `int` is 64 bits wide; it is
embedded as `Int` with an explicit reduction into the signed 64-bit range wherever
the machine operation can wrap.  Calls into Go's standard library (`strconv.Atoi`,
`csv.Reader.Read`, `sort.Slice`, `json.Decoder.Decode`) are embedded after their
documented behaviour; the body of a response is the stream that `Decode` reads, its
first JSON value and what follows it.  `sort.Slice` is embedded as the
pattern-defeating quicksort of Go's package `sort`, which is shown to terminate and
to return a sorted permutation; the statements about the ranker hold in addition of
every result that the contract of `sort.Slice` allows.
-/

namespace XhsCreator

/-! ## Machine integers -/

/-- Reduction of an integer into the signed 64-bit range (two's complement). -/
def wrap64 (x : Int) : Int := (x + 2 ^ 63) % 2 ^ 64 - 2 ^ 63

/-- Go's `+` on `int` (64-bit, wrapping). -/
def add64 (a b : Int) : Int := wrap64 (a + b)

/-- Largest `int`. -/
def maxInt : Int := 2 ^ 63 - 1

/-- Smallest `int`. -/
def minInt : Int := -(2 ^ 63)

/-! ## `strconv.Atoi` (base 10, `int` of 64 bits) -/

/-- The two error kinds of a `*strconv.NumError`. -/
inductive NumError where
  | ErrSyntax
  | ErrRange
deriving DecidableEq, Repr

/-- The test `'0' <= c && c <= '9'`. -/
def isDigitByte (c : Char) : Bool := decide (48 ≤ c.toNat ∧ c.toNat ≤ 57)

/-- The loop of `strconv.ParseUint(s, 10, 0)` with `n` the value read so far:
any character that is not a decimal digit is a syntax error (letters are digits of
value at least 10, which base 10 rejects; `_` is accepted in base 0 only); once
`n * 10` or `n * 10 + d` leaves the `uint64` range the loop stops with a range
error and the value `1<<64 - 1`, without looking at the characters that follow. -/
def parseUintLoop : List Char → Nat → Nat × Option NumError
  | [], n => (n, none)
  | c :: cs, n =>
    if isDigitByte c then
      let d := c.toNat - 48
      if n ≥ (2 ^ 64 - 1) / 10 + 1 then (2 ^ 64 - 1, some NumError.ErrRange)
      else
        let n10 := n * 10
        let n1 := (n10 + d) % 2 ^ 64
        if n1 < n10 ∨ n1 > 2 ^ 64 - 1 then (2 ^ 64 - 1, some NumError.ErrRange)
        else parseUintLoop cs n1
    else (0, some NumError.ErrSyntax)

/-- Go's `strconv.ParseUint(s, 10, 0)`. -/
def ParseUint (s : List Char) : Nat × Option NumError :=
  match s with
  | [] => (0, some NumError.ErrSyntax)
  | _ => parseUintLoop s 0

/-- Go's `strconv.ParseInt(s, 10, 0)`: an optional sign, then `ParseUint`; a syntax
error gives 0, a value outside the `int64` range gives the nearest bound together
with a range error. -/
def ParseInt (s : List Char) : Int × Option NumError :=
  match s with
  | [] => (0, some NumError.ErrSyntax)
  | c :: cs =>
    let neg := decide (c = '-')
    let body := if c = '+' ∨ c = '-' then cs else c :: cs
    match ParseUint body with
    | (_, some NumError.ErrSyntax) => (0, some NumError.ErrSyntax)
    | (un, _) =>
      if ¬ neg ∧ un ≥ 2 ^ 63 then (2 ^ 63 - 1, some NumError.ErrRange)
      else if neg ∧ un > 2 ^ 63 then (-(2 ^ 63), some NumError.ErrRange)
      else
        let n := wrap64 (un : Int)
        (if neg then wrap64 (-n) else n, none)

/-- The digit loop of the fast path of `strconv.Atoi`. -/
def atoiFastLoop : List Char → Int → Option Int
  | [], n => some n
  | c :: cs, n =>
    if isDigitByte c then atoiFastLoop cs (n * 10 + ((c.toNat - 48 : Nat) : Int))
    else none

/-- Go's `strconv.Atoi`: strings of 1 to 18 bytes take the fast path (no overflow is
possible there), every other string goes through `ParseInt(s, 10, 0)`. -/
def Atoi (s : String) : Int × Option NumError :=
  let sLen := s.utf8ByteSize
  if 0 < sLen ∧ sLen < 19 then
    match s.data with
    | [] => (0, some NumError.ErrSyntax)
    | c :: cs =>
      let signed := decide (c = '-' ∨ c = '+')
      let body := if signed then cs else c :: cs
      if signed ∧ body.length < 1 then (0, some NumError.ErrSyntax)
      else
        match atoiFastLoop body 0 with
        | none => (0, some NumError.ErrSyntax)
        | some n => (if c = '-' then -n else n, none)
  else ParseInt s.data

/-! ## The data model and the loader -/

/-- The struct `Post`. -/
structure Post where
  PostTitle : String
  Format : String
  ReleaseTime : String
  Tags : String
  RadarChart : String
  Views : Int
  Likes : Int
  Collects : Int
  Comments : Int
  GrowFollowers : Int
  Shared : Int
  TrafficSource : String
  FemalePercentage : String
  Age2534Percentage : String
  Age1824Percentage : String
  OverseasPercentage : String
  InterestDistribution : String
  GrowthStrategy : String
deriving DecidableEq, Repr

/-- One record of the file as the csv tokenizer yields it, before the reader's
field-count check: its fields, or a parse error (a bare quote, say). -/
inductive RawRecord where
  | fields (fs : List String)
  | parseError
deriving DecidableEq, Repr

/-- The part of a `csv.Reader` that `main` relies on: `FieldsPerRecord`, 0 in a new
reader. -/
structure Reader where
  FieldsPerRecord : Nat
deriving DecidableEq, Repr

/-- What `reader.Read()` returns. -/
inductive ReadResult where
  | record (fs : List String)
  | err
  | eof
deriving DecidableEq, Repr

/-- The method `(*csv.Reader).Read` on the next raw record (`none` at the end of
the file): with `FieldsPerRecord` 0 the first record sets it to its number of
fields; afterwards a record with another number of fields is returned with
`ErrFieldCount`. -/
def Reader.Read (r : Reader) : Option RawRecord → Reader × ReadResult
  | none => (r, ReadResult.eof)
  | some RawRecord.parseError => (r, ReadResult.err)
  | some (RawRecord.fields fs) =>
    if r.FieldsPerRecord > 0 then
      if fs.length ≠ r.FieldsPerRecord then (r, ReadResult.err)
      else (r, ReadResult.record fs)
    else ({ FieldsPerRecord := fs.length }, ReadResult.record fs)

/-- Lines 76-103: the `Post` built from one record.  `none` is the run-time panic of
an index expression `record[i]` out of range. -/
def mkPost (record : List String) : Option Post :=
  match record[5]? with
  | none => none
  | some c5 =>
  match record[6]? with
  | none => none
  | some c6 =>
  match record[7]? with
  | none => none
  | some c7 =>
  match record[8]? with
  | none => none
  | some c8 =>
  match record[9]? with
  | none => none
  | some c9 =>
  match record[10]? with
  | none => none
  | some c10 =>
  match record[0]? with
  | none => none
  | some c0 =>
  match record[1]? with
  | none => none
  | some c1 =>
  match record[2]? with
  | none => none
  | some c2 =>
  match record[3]? with
  | none => none
  | some c3 =>
  match record[4]? with
  | none => none
  | some c4 =>
  match record[11]? with
  | none => none
  | some c11 =>
  match record[12]? with
  | none => none
  | some c12 =>
  match record[13]? with
  | none => none
  | some c13 =>
  match record[14]? with
  | none => none
  | some c14 =>
  match record[15]? with
  | none => none
  | some c15 =>
  match record[16]? with
  | none => none
  | some c16 =>
  match record[17]? with
  | none => none
  | some c17 =>
  some
    { PostTitle := c0, Format := c1, ReleaseTime := c2, Tags := c3, RadarChart := c4,
      Views := (Atoi c5).1, Likes := (Atoi c6).1, Collects := (Atoi c7).1,
      Comments := (Atoi c8).1, GrowFollowers := (Atoi c9).1, Shared := (Atoi c10).1,
      TrafficSource := c11, FemalePercentage := c12, Age2534Percentage := c13,
      Age1824Percentage := c14, OverseasPercentage := c15,
      InterestDistribution := c16, GrowthStrategy := c17 }

/-- Lines 66-105: the loop over the data rows.  A read error is reported and the
loop continues; `none` is a panic, which ends the run. -/
def readRows : Reader → List Post → List RawRecord → Option (List Post)
  | _, posts, [] => some posts
  | r, posts, raw :: rest =>
    match r.Read (some raw) with
    | (r1, ReadResult.record fs) =>
      match mkPost fs with
      | none => none
      | some post => readRows r1 (posts ++ [post]) rest
    | (r1, _) => readRows r1 posts rest

/-- How the loading stage (lines 55-105) ends. -/
inductive LoadResult where
  | headerError
  | panicked
  | loaded (posts : List Post)
deriving DecidableEq, Repr

/-- Lines 55-105 on the raw records of the opened file: the header is read and
dropped, then the data rows are read. -/
def loadPosts (file : List RawRecord) : LoadResult :=
  match (Reader.mk 0).Read file.head? with
  | (r, ReadResult.record _) =>
    match readRows r [] file.tail with
    | none => LoadResult.panicked
    | some posts => LoadResult.loaded posts
  | _ => LoadResult.headerError

/-! ## The ranker -/

/-- Lines 109-110: `Views + Likes + Comments + Collects` as the comparator computes
it, three 64-bit additions from left to right. -/
def engagement (p : Post) : Int :=
  add64 (add64 (add64 p.Views p.Likes) p.Comments) p.Collects

/-- Lines 108-112: the comparator handed to `sort.Slice`, on the two elements the
indices `i` and `j` denote. -/
def less (pi pj : Post) : Bool := decide (engagement pi > engagement pj)

/-- Lines 114-118: `topPosts`. -/
def topPosts (posts : List Post) : List Post :=
  if posts.length > 5 then posts.take 5 else posts

/-- The exact sum of the four counters the score is made of. -/
def exactScore (p : Post) : Int := p.Views + p.Likes + p.Comments + p.Collects

/-- What the documentation of `sort.Slice` promises of its result `sorted` on the
slice `posts`: the same elements, and no element that `less` puts before an earlier
one. -/
def SliceContract (posts sorted : List Post) : Prop :=
  sorted.Perm posts ∧ sorted.Pairwise (fun x y => less y x = false)

/-! ## `sort.Slice` as Go's library implements it (pattern-defeating quicksort)

The functions below follow `pdqsort_func` and its helpers of Go's package `sort`
(Go 1.19 and later) on a list that stands for the slice; `data.Less(i, j)` is `lessAt less data i j`
and `data.Swap(i, j)` is `swap data i j`.  Loops carry a fuel argument that bounds
the number of their iterations.

The statements about the ranker take three things from these functions: that they
return a sorted permutation of the slice (`Slice_spec`), that a slice of at most 12
elements goes through `insertionSort_func` alone, and the run on the thirteen posts
of `posts13`, which is one `choosePivot_func`, one `partialInsertionSort_func`, one
`partition_func` and the `insertionSort_func` of the two sides. -/

section Pdqsort

variable {α : Type}

/-- `data.Swap(i, j)`. -/
def swap (data : List α) (i j : Nat) : List α :=
  match data[i]?, data[j]? with
  | some x, some y => (data.set i y).set j x
  | _, _ => data

/-- `data.Less(i, j)`. -/
def lessAt (less : α → α → Bool) (data : List α) (i j : Nat) : Bool :=
  match data[i]?, data[j]? with
  | some x, some y => less x y
  | _, _ => false

/-- Inner loop of `insertionSort_func`: `for j := i; j > a && Less(j, j-1); j--`. -/
def insertionInner (less : α → α → Bool) (a : Nat) : Nat → List α → List α
  | 0, data => data
  | j + 1, data =>
    if j + 1 > a ∧ lessAt less data (j + 1) j then
      insertionInner less a j (swap data (j + 1) j)
    else data

/-- Outer loop of `insertionSort_func`: `for i := a + 1; i < b; i++`. -/
def insertionOuter (less : α → α → Bool) (a b : Nat) : Nat → Nat → List α → List α
  | 0, _, data => data
  | fuel + 1, i, data =>
    if i < b then insertionOuter less a b fuel (i + 1) (insertionInner less a i data)
    else data

/-- Go's `insertionSort_func(data, a, b)`. -/
def insertionSort_func (less : α → α → Bool) (data : List α) (a b : Nat) : List α :=
  insertionOuter less a b (b - a) (a + 1) data

/-- Go's `siftDown_func(data, lo, hi, first)`, `root` starting at `lo`. -/
def siftDown_func (less : α → α → Bool) (hi first : Nat) : Nat → Nat → List α → List α
  | 0, _, data => data
  | fuel + 1, root, data =>
    let child := 2 * root + 1
    if child ≥ hi then data
    else
      let child :=
        if child + 1 < hi ∧ lessAt less data (first + child) (first + child + 1) then child + 1
        else child
      if lessAt less data (first + root) (first + child) then
        siftDown_func less hi first fuel child (swap data (first + root) (first + child))
      else data

/-- First loop of `heapSort_func`, run for `i = n - 1, ..., 0`. -/
def heapBuild (less : α → α → Bool) (hi first : Nat) : Nat → List α → List α
  | 0, data => data
  | i + 1, data => heapBuild less hi first i (siftDown_func less hi first hi i data)

/-- Second loop of `heapSort_func`, run for `i = n - 1, ..., 0`. -/
def heapPop (less : α → α → Bool) (first : Nat) : Nat → List α → List α
  | 0, data => data
  | i + 1, data =>
    heapPop less first i (siftDown_func less i first i 0 (swap data first (first + i)))

/-- Go's `heapSort_func(data, a, b)`. -/
def heapSort_func (less : α → α → Bool) (data : List α) (a b : Nat) : List α :=
  let first := a
  let hi := b - a
  heapPop less first hi (heapBuild less hi first ((hi - 1) / 2 + 1) data)

/-- The loop `for i <= j && data.Less(i, a) { i++ }`; the result is the final `i`. -/
def skipLess (less : α → α → Bool) (data : List α) (a : Nat) : Nat → Nat → Nat → Nat
  | 0, i, _ => i
  | fuel + 1, i, j =>
    if i ≤ j ∧ lessAt less data i a then skipLess less data a fuel (i + 1) j else i

/-- The loop `for i <= j && !data.Less(j, a) { j-- }`; the result is the final `j`. -/
def skipNotLess (less : α → α → Bool) (data : List α) (a : Nat) : Nat → Nat → Nat → Nat
  | 0, _, j => j
  | fuel + 1, i, j =>
    if i ≤ j ∧ lessAt less data j a = false then skipNotLess less data a fuel i (j - 1) else j

/-- The unconditional loop of `partition_func`; the result is the slice and the
final `j`. -/
def partitionLoop (less : α → α → Bool) (a : Nat) : Nat → List α → Nat → Nat → List α × Nat
  | 0, data, _, j => (data, j)
  | fuel + 1, data, i, j =>
    let i := skipLess less data a (j + 1) i j
    let j := skipNotLess less data a (j + 1) i j
    if i > j then (data, j)
    else partitionLoop less a fuel (swap data i j) (i + 1) (j - 1)

/-- Go's `partition_func(data, a, b, pivot)`: the slice, `newpivot` and
`alreadyPartitioned`. -/
def partition_func (less : α → α → Bool) (data : List α) (a b pivot : Nat) :
    List α × Nat × Bool :=
  let data := swap data a pivot
  let i := a + 1
  let j := b - 1
  let i := skipLess less data a (b - a) i j
  let j := skipNotLess less data a (b - a) i j
  if i > j then (swap data j a, j, true)
  else
    let data := swap data i j
    let r := partitionLoop less a (b - a) data (i + 1) (j - 1)
    (swap r.1 r.2 a, r.2, false)

/-- The loop `for i <= j && !data.Less(a, i) { i++ }` of `partitionEqual_func`. -/
def skipNotGreater (less : α → α → Bool) (data : List α) (a : Nat) : Nat → Nat → Nat → Nat
  | 0, i, _ => i
  | fuel + 1, i, j =>
    if i ≤ j ∧ lessAt less data a i = false then skipNotGreater less data a fuel (i + 1) j
    else i

/-- The loop `for i <= j && data.Less(a, j) { j-- }` of `partitionEqual_func`. -/
def skipGreater (less : α → α → Bool) (data : List α) (a : Nat) : Nat → Nat → Nat → Nat
  | 0, _, j => j
  | fuel + 1, i, j =>
    if i ≤ j ∧ lessAt less data a j then skipGreater less data a fuel i (j - 1) else j

/-- The outer loop of `partitionEqual_func`; the result is the slice and the final
`i`. -/
def partitionEqualLoop (less : α → α → Bool) (a : Nat) :
    Nat → List α → Nat → Nat → List α × Nat
  | 0, data, i, _ => (data, i)
  | fuel + 1, data, i, j =>
    let i := skipNotGreater less data a (j + 1) i j
    let j := skipGreater less data a (j + 1) i j
    if i > j then (data, i)
    else partitionEqualLoop less a fuel (swap data i j) (i + 1) (j - 1)

/-- Go's `partitionEqual_func(data, a, b, pivot)`. -/
def partitionEqual_func (less : α → α → Bool) (data : List α) (a b pivot : Nat) :
    List α × Nat :=
  partitionEqualLoop less a (b - a + 1) (swap data a pivot) (a + 1) (b - 1)

/-- The loop `for i < b && !data.Less(i, i-1) { i++ }` of `partialInsertionSort_func`. -/
def skipOrdered (less : α → α → Bool) (data : List α) (b : Nat) : Nat → Nat → Nat
  | 0, i => i
  | fuel + 1, i =>
    if i < b ∧ lessAt less data i (i - 1) = false then skipOrdered less data b fuel (i + 1)
    else i

/-- The loop `for j := i - 1; j >= 1; j--` of `partialInsertionSort_func`, which
shifts the smaller element to the left. -/
def shiftLeft (less : α → α → Bool) : Nat → List α → List α
  | 0, data => data
  | j + 1, data =>
    if lessAt less data (j + 1) j then shiftLeft less j (swap data (j + 1) j) else data

/-- The loop `for j := i + 1; j < b; j++` of `partialInsertionSort_func`, which
shifts the greater element to the right. -/
def shiftRight (less : α → α → Bool) (b : Nat) : Nat → Nat → List α → List α
  | 0, _, data => data
  | fuel + 1, j, data =>
    if j < b then
      if lessAt less data j (j - 1) then shiftRight less b fuel (j + 1) (swap data j (j - 1))
      else data
    else data

/-- The loop `for j := 0; j < maxSteps; j++` of `partialInsertionSort_func`, with
`steps` iterations left. -/
def partialInsertionLoop (less : α → α → Bool) (a b : Nat) :
    Nat → Nat → List α → List α × Bool
  | 0, _, data => (data, false)
  | steps + 1, i, data =>
    let i := skipOrdered less data b (b - a) i
    if i = b then (data, true)
    else if b - a < 50 then (data, false)
    else
      let data := swap data i (i - 1)
      let data := if i - a ≥ 2 then shiftLeft less (i - 1) data else data
      let data := if b - i ≥ 2 then shiftRight less b (b - a) (i + 1) data else data
      partialInsertionLoop less a b steps i data

/-- Go's `partialInsertionSort_func(data, a, b)`. -/
def partialInsertionSort_func (less : α → α → Bool) (data : List α) (a b : Nat) :
    List α × Bool :=
  partialInsertionLoop less a b 5 (a + 1) data

/-- The type `sortedHint`. -/
inductive sortedHint where
  | unknownHint
  | increasingHint
  | decreasingHint
deriving DecidableEq, Repr

/-- Go's `order2_func(data, a, b, swaps)`; the third component is the new value of
`*swaps`. -/
def order2_func (less : α → α → Bool) (data : List α) (a b swaps : Nat) : Nat × Nat × Nat :=
  if lessAt less data b a then (b, a, swaps + 1) else (a, b, swaps)

/-- Go's `median_func(data, a, b, c, swaps)`; the second component is the new value
of `*swaps`. -/
def median_func (less : α → α → Bool) (data : List α) (a b c swaps : Nat) : Nat × Nat :=
  let r1 := order2_func less data a b swaps
  let r2 := order2_func less data r1.2.1 c r1.2.2
  let r3 := order2_func less data r1.1 r2.1 r2.2.2
  (r3.2.1, r3.2.2)

/-- Go's `medianAdjacent_func(data, a, swaps)`. -/
def medianAdjacent_func (less : α → α → Bool) (data : List α) (a swaps : Nat) : Nat × Nat :=
  median_func less data (a - 1) a (a + 1) swaps

/-- Go's `choosePivot_func(data, a, b)`. -/
def choosePivot_func (less : α → α → Bool) (data : List α) (a b : Nat) : Nat × sortedHint :=
  let l := b - a
  let i := a + l / 4 * 1
  let j := a + l / 4 * 2
  let k := a + l / 4 * 3
  let r :=
    if l ≥ 8 then
      if l ≥ 50 then
        let ri := medianAdjacent_func less data i 0
        let rj := medianAdjacent_func less data j ri.2
        let rk := medianAdjacent_func less data k rj.2
        median_func less data ri.1 rj.1 rk.1 rk.2
      else median_func less data i j k 0
    else (j, 0)
  if r.2 = 0 then (r.1, sortedHint.increasingHint)
  else if r.2 = 12 then (r.1, sortedHint.decreasingHint)
  else (r.1, sortedHint.unknownHint)

/-- Go's `reverseRange_func(data, a, b)`: the loop `for i < j`. -/
def reverseLoop : Nat → List α → Nat → Nat → List α
  | 0, data, _, _ => data
  | fuel + 1, data, i, j =>
    if i < j then reverseLoop fuel (swap data i j) (i + 1) (j - 1) else data

/-- Go's `reverseRange_func(data, a, b)`. -/
def reverseRange_func (data : List α) (a b : Nat) : List α :=
  reverseLoop (b - a) data a (b - 1)

/-- Go's `bits.Len`. -/
def bitsLen (n : Nat) : Nat := if n = 0 then 0 else Nat.log2 n + 1

/-- The method `Next` of Go's `xorshift`, on a 64-bit state. -/
def xorshiftNext (r : Nat) : Nat :=
  let r := r ^^^ ((r <<< 13) % 2 ^ 64)
  let r := r ^^^ (r >>> 7)
  r ^^^ ((r <<< 17) % 2 ^ 64)

/-- The loop `for i := 0; i < 3; i++` of `breakPatterns_func`, whose body ends with
`data.Swap(idx-1+i, a+other)`. -/
def breakLoop (a length modulus idx : Nat) : Nat → Nat → Nat → List α → List α
  | 0, _, _, data => data
  | fuel + 1, i, random, data =>
    let random := xorshiftNext random
    let other := random &&& (modulus - 1)
    let other := if other ≥ length then other - length else other
    breakLoop a length modulus idx fuel (i + 1) random (swap data (idx - 1 + i) (a + other))

/-- Go's `breakPatterns_func(data, a, b)`, with `idx := a + (length/4)*2 - 1`.
`pdqsort_func` calls it on the range that an unbalanced partition has left, never on
the whole slice: on 14 elements whose first partition ends at `mid = 0` the range
goes from `a = 1` to `b = 14`, its length is 13, `idx` is 6 and the three swaps are
at the positions 5, 6 and 7. -/
def breakPatterns_func (data : List α) (a b : Nat) : List α :=
  let length := b - a
  if length ≥ 8 then
    breakLoop a length (2 ^ bitsLen length) (a + (length / 4) * 2 - 1) 3 0 length data
  else data

/-- Go's `pdqsort_func(data, a, b, limit)`; `wasBalanced` and `wasPartitioned` are
the two local variables of its loop, both true on entry.  Every iteration and every
recursive call takes one unit of fuel; `none` means the fuel ran out. -/
def pdqsortLoop (less : α → α → Bool) :
    Nat → List α → Nat → Nat → Nat → Bool → Bool → Option (List α)
  | 0, _, _, _, _, _, _ => none
  | fuel + 1, data, a, b, limit, wasBalanced, wasPartitioned =>
    let length := b - a
    if length ≤ 12 then some (insertionSort_func less data a b)
    else if limit = 0 then some (heapSort_func less data a b)
    else
      let data := if wasBalanced then data else breakPatterns_func data a b
      let limit := if wasBalanced then limit else limit - 1
      let ph := choosePivot_func less data a b
      let reversed := decide (ph.2 = sortedHint.decreasingHint)
      let data := if reversed then reverseRange_func data a b else data
      let pivot := if reversed then (b - 1) - (ph.1 - a) else ph.1
      let hint := if reversed then sortedHint.increasingHint else ph.2
      let pis :=
        if wasBalanced ∧ wasPartitioned ∧ hint = sortedHint.increasingHint then
          partialInsertionSort_func less data a b
        else (data, false)
      if pis.2 then some pis.1
      else
        let data := pis.1
        if a > 0 ∧ lessAt less data (a - 1) pivot = false then
          let pe := partitionEqual_func less data a b pivot
          pdqsortLoop less fuel pe.1 pe.2 b limit wasBalanced wasPartitioned
        else
          let pt := partition_func less data a b pivot
          let mid := pt.2.1
          let leftLen := mid - a
          let rightLen := b - mid
          let balanceThreshold := length / 8
          if leftLen < rightLen then
            match pdqsortLoop less fuel pt.1 a mid limit true true with
            | none => none
            | some data =>
              pdqsortLoop less fuel data (mid + 1) b limit
                (decide (leftLen ≥ balanceThreshold)) pt.2.2
          else
            match pdqsortLoop less fuel pt.1 (mid + 1) b limit true true with
            | none => none
            | some data =>
              pdqsortLoop less fuel data a mid limit
                (decide (rightLen ≥ balanceThreshold)) pt.2.2

/-- Go's `sort.Slice(x, less)`: `pdqsort_func(data, 0, length, bits.Len(length))`. -/
def Slice (less : α → α → Bool) (x : List α) : Option (List α) :=
  pdqsortLoop less (2 * x.length + 2) x 0 x.length (bitsLen x.length) true true

/-- The slice after the call `sort.Slice(x, less)`.  The fuel of `Slice` suffices on
every slice (theorem `Slice_spec`), so the alternative `x` is never taken. -/
def sortSlice (less : α → α → Bool) (x : List α) : List α :=
  (Slice less x).getD x

end Pdqsort

/-! ## The prompt builder -/

/-- The verb `%d` of `fmt.Sprintf` on an `int`: decimal digits, `-` in front of a
negative number. -/
def fmtInt (x : Int) : String := toString x

/-- Lines 132-149: the eighteen `WriteString` calls of one iteration of the loop
over `topPosts`, `i` the loop index. -/
def writePost (analysisText : String) (i : Nat) (post : Post) : String :=
  let sb := analysisText ++ ("Post #" ++ fmtInt ((i : Int) + 1) ++ ":\n")
  let sb := sb ++ ("Title: " ++ post.PostTitle ++ "\n")
  let sb := sb ++ ("Format: " ++ post.Format ++ "\n")
  let sb := sb ++ ("Release Time: " ++ post.ReleaseTime ++ "\n")
  let sb := sb ++ ("Tags: " ++ post.Tags ++ "\n")
  let sb := sb ++ ("Views: " ++ fmtInt post.Views ++ "\n")
  let sb := sb ++ ("Likes: " ++ fmtInt post.Likes ++ "\n")
  let sb := sb ++ ("Comments: " ++ fmtInt post.Comments ++ "\n")
  let sb := sb ++ ("Collects: " ++ fmtInt post.Collects ++ "\n")
  let sb := sb ++ ("Growth in Followers: " ++ fmtInt post.GrowFollowers ++ "\n")
  let sb := sb ++ ("Shares: " ++ fmtInt post.Shared ++ "\n")
  let sb := sb ++ ("Traffic Source: " ++ post.TrafficSource ++ "\n")
  let sb := sb ++ ("Female Percentage: " ++ post.FemalePercentage ++ "\n")
  let sb := sb ++ ("Age 25-34 Percentage: " ++ post.Age2534Percentage ++ "\n")
  let sb := sb ++ ("Age 18-24 Percentage: " ++ post.Age1824Percentage ++ "\n")
  let sb := sb ++ ("Overseas Percentage: " ++ post.OverseasPercentage ++ "\n")
  let sb := sb ++ ("Interest Distribution: " ++ post.InterestDistribution ++ "\n")
  sb ++ ("Growth Strategy: " ++ post.GrowthStrategy ++ "\n\n")

/-- Lines 131-150: the loop `for i, post := range topPosts`, from index `i` on. -/
def writePosts : String → Nat → List Post → String
  | analysisText, _, [] => analysisText
  | analysisText, i, post :: rest => writePosts (writePost analysisText i post) (i + 1) rest

/-- The first string written to the builder (line 129). -/
def preamble : String :=
  "Perform post analysis of the following top 5 high engagement posts:\n\n"

/-- Lines 128-150: the text of `analysisText` once the loop is over. -/
def analysisText (topPosts : List Post) : String :=
  writePosts preamble 0 topPosts

/-- The seventeen labelled lines of one block of the prompt, one per field, in the
order of the specification: title, format, release time, tags, views, likes,
comments, collects, follower growth, shares, traffic source, female percentage, age
25-34 percentage, age 18-24 percentage, overseas percentage, interest distribution,
growth strategy. -/
def fieldLines (post : Post) : List String :=
  [ "Title: " ++ post.PostTitle ++ "\n",
    "Format: " ++ post.Format ++ "\n",
    "Release Time: " ++ post.ReleaseTime ++ "\n",
    "Tags: " ++ post.Tags ++ "\n",
    "Views: " ++ fmtInt post.Views ++ "\n",
    "Likes: " ++ fmtInt post.Likes ++ "\n",
    "Comments: " ++ fmtInt post.Comments ++ "\n",
    "Collects: " ++ fmtInt post.Collects ++ "\n",
    "Growth in Followers: " ++ fmtInt post.GrowFollowers ++ "\n",
    "Shares: " ++ fmtInt post.Shared ++ "\n",
    "Traffic Source: " ++ post.TrafficSource ++ "\n",
    "Female Percentage: " ++ post.FemalePercentage ++ "\n",
    "Age 25-34 Percentage: " ++ post.Age2534Percentage ++ "\n",
    "Age 18-24 Percentage: " ++ post.Age1824Percentage ++ "\n",
    "Overseas Percentage: " ++ post.OverseasPercentage ++ "\n",
    "Interest Distribution: " ++ post.InterestDistribution ++ "\n",
    "Growth Strategy: " ++ post.GrowthStrategy ++ "\n" ]

/-- One block of the prompt as the specification describes it: the heading of the
post at position `i` (counted from 0), its labelled lines, and the blank line that
ends the block. -/
def promptBlock (i : Nat) (post : Post) : String :=
  "Post #" ++ fmtInt ((i : Int) + 1) ++ ":\n" ++ String.join (fieldLines post) ++ "\n"

/-- The blocks of the posts of a selection, the first one at position `i`. -/
def promptBlocks : Nat → List Post → List String
  | _, [] => []
  | i, post :: rest => promptBlock i post :: promptBlocks (i + 1) rest

/-! ## The completion client and the writer -/

/-- A JSON value that `encoding/json` has read and can store in an `interface{}`:
`null` (stored as `nil`), a boolean, a number (given by the `float64` it is stored
as, a rational number), a string, an array (stored as a `[]interface{}`), or an
object, given by its members in the order of the text and stored as the map that
`decodeObject` builds from them. -/
inductive JSONValue where
  | null
  | bool (b : Bool)
  | number (float64 : Rat)
  | string (s : String)
  | array (elems : List JSONValue)
  | object (members : List (String × JSONValue))

/-- The assignment `m[key] = value` on a Go map, kept as a list of entries with
distinct keys. -/
def mapAssign : List (String × JSONValue) → String → JSONValue → List (String × JSONValue)
  | [], key, value => [(key, value)]
  | (k, v) :: rest, key, value =>
    if k = key then (key, value) :: rest else (k, v) :: mapAssign rest key value

/-- The `map[string]interface{}` that `encoding/json` builds from an object: one
assignment per member, in the order of the text. -/
def decodeObject (members : List (String × JSONValue)) : List (String × JSONValue) :=
  members.foldl (fun m kv => mapAssign m kv.1 kv.2) []

/-- The index expression `m[key]` on a Go map (`none` for the nil interface that an
absent key gives). -/
def mapIndex : List (String × JSONValue) → String → Option JSONValue
  | [], _ => none
  | (k, v) :: rest, key => if k = key then some v else mapIndex rest key

/-- The request handed to `client.Do` (lines 153-178). -/
structure Request where
  method : String
  url : String
  contentType : String
  authorization : String
  model : String
  role : String
  content : String
deriving DecidableEq, Repr

/-- The stream `resp.Body` as `json.Decoder` meets it.  `value` is the first JSON
value of the stream, which is all that `Decode` reads; it is `none` when the stream
has no first JSON value that `encoding/json` can store (the stream is empty or
blank, does not begin with a JSON value or breaks off inside it, or the value holds
a number beyond `float64` or is nested deeper than the decoder allows), which makes
`Decode` return an error.  `rest` is what the stream holds after that value;
`Decode` returns without examining it. -/
structure ResponseBody where
  value : Option JSONValue
  rest : String

/-- The response of the server: the status code and the body. -/
structure Response where
  StatusCode : Int
  Body : ResponseBody

/-- Line 190: `json.NewDecoder(resp.Body).Decode(&result)` with `result` a
`map[string]interface{}`, `none` when `Decode` returns an error.  `Decode` reads the
first JSON value of the stream: an object is stored as a map, `null` leaves the map
nil (which reads like an empty one), any other value is an error, and so is a
stream without a first value.  What follows the first value plays no part. -/
def decodeResult (body : ResponseBody) : Option (List (String × JSONValue)) :=
  match body.value with
  | some (JSONValue.object members) => some (decodeObject members)
  | some JSONValue.null => some []
  | _ => none

/-- Lines 188-226: from the response to `analysis`, or to the fixed text of the
line that reports why the run stops. -/
def handleResponse (resp : Response) : Except String String :=
  match decodeResult resp.Body with
  | none => Except.error "Error decoding response:"
  | some result =>
    if resp.StatusCode ≠ 200 then Except.error "Error from API:"
    else
      match mapIndex result "choices" with
      | some (JSONValue.array (first :: _)) =>
        match first with
        | JSONValue.object firstChoice =>
          match mapIndex (decodeObject firstChoice) "message" with
          | some (JSONValue.object message) =>
            match mapIndex (decodeObject message) "content" with
            | some (JSONValue.string content) => Except.ok content
            | _ => Except.error "Invalid content format"
          | _ => Except.error "Invalid message format"
        | _ => Except.error "Invalid choice format"
      | _ => Except.error "No choices in response"

/-- What `main` finds around it: the records of `creator_data.csv` (`none` when the
file cannot be opened), the value of `os.Getenv("OPENAI_API_KEY")` at line 121, the
answer of the network to a request (`none` for a transport error) and whether
`os.WriteFile` succeeds. -/
structure World where
  file : Option (List RawRecord)
  apiKey : String
  Do : Request → Option Response
  writeOk : Bool

/-- What a run of `main` does to the world: the requests handed to `client.Do`, the
text handed to `os.WriteFile` for `creator_analysis.txt` (`none` when it is not
called), and the fixed text of the line that ends the run. -/
structure Run where
  requests : List Request
  written : Option String
  message : String
deriving DecidableEq, Repr

/-- Lines 153-178: the request built from the credential and the prompt. -/
def newRequest (apiKey : String) (prompt : String) : Request :=
  { method := "POST", url := "https://api.openai.com/v1/chat/completions",
    contentType := "application/json", authorization := "Bearer " ++ apiKey,
    model := "gpt-3.5-turbo", role := "user", content := prompt }

/-- The function `main`.  `json.Marshal` of two strings and `http.NewRequest` with a
constant URL do not fail, so their error branches are left out. -/
def main (w : World) : Run :=
  match w.file with
  | none => { requests := [], written := none, message := "Error opening file:" }
  | some file =>
    match loadPosts file with
    | LoadResult.headerError =>
      { requests := [], written := none, message := "Error reading header:" }
    | LoadResult.panicked =>
      { requests := [], written := none, message := "panic: runtime error: index out of range" }
    | LoadResult.loaded posts =>
      let posts := sortSlice less posts
      let top := topPosts posts
      if w.apiKey = "" then
        { requests := [], written := none, message := "Warning: OPENAI_API_KEY is empty" }
      else
        let req := newRequest w.apiKey (analysisText top)
        match w.Do req with
        | none => { requests := [req], written := none, message := "Error making request:" }
        | some resp =>
          match handleResponse resp with
          | Except.error msg => { requests := [req], written := none, message := msg }
          | Except.ok analysis =>
            if w.writeOk then
              { requests := [req], written := some analysis,
                message := "Analysis of top 5 posts completed and saved to creator_analysis.txt" }
            else
              { requests := [req], written := some analysis,
                message := "Error writing analysis to file:" }

/-! ## Vocabulary of the statements -/

/-- The cell at position `i` of a record (the empty string past its end). -/
def cell (record : List String) (i : Nat) : String := record.getD i ""

/-- The `Post` whose text fields are the cells 0-4 and 11-17 of the record and whose
counters are the values `Atoi` gives for the cells 5-10. -/
def postOfRecord (record : List String) : Post :=
  { PostTitle := cell record 0, Format := cell record 1, ReleaseTime := cell record 2,
    Tags := cell record 3, RadarChart := cell record 4,
    Views := (Atoi (cell record 5)).1, Likes := (Atoi (cell record 6)).1,
    Collects := (Atoi (cell record 7)).1, Comments := (Atoi (cell record 8)).1,
    GrowFollowers := (Atoi (cell record 9)).1, Shared := (Atoi (cell record 10)).1,
    TrafficSource := cell record 11, FemalePercentage := cell record 12,
    Age2534Percentage := cell record 13, Age1824Percentage := cell record 14,
    OverseasPercentage := cell record 15, InterestDistribution := cell record 16,
    GrowthStrategy := cell record 17 }

/-- The six counters of a `Post`, in the order of the cells 5-10 they are read from. -/
def counters (p : Post) : List Int :=
  [p.Views, p.Likes, p.Collects, p.Comments, p.GrowFollowers, p.Shared]

/-- A data row of eighteen cells whose counter cells 5-10 are the given texts. -/
def sampleRow (title c5 c6 c7 c8 c9 c10 : String) : List String :=
  [title, "video", "2024-01-01", "tags", "radar", c5, c6, c7, c8, c9, c10,
    "search", "60%", "40%", "30%", "5%", "food", "post daily"]

/-- A `Post` with the given title and views, every other counter 0. -/
def samplePost (title : String) (views : Int) : Post :=
  { PostTitle := title, Format := "video", ReleaseTime := "2024-01-01", Tags := "tags",
    RadarChart := "radar", Views := views, Likes := 0, Collects := 0, Comments := 0,
    GrowFollowers := 0, Shared := 0, TrafficSource := "search", FemalePercentage := "60%",
    Age2534Percentage := "40%", Age1824Percentage := "30%", OverseasPercentage := "5%",
    InterestDistribution := "food", GrowthStrategy := "post daily" }

/-- The posts of a loading stage that ended normally. -/
def loadedPosts : LoadResult → Option (List Post)
  | LoadResult.loaded posts => some posts
  | _ => none

/-- A header row of eighteen column names. -/
def headerRow : List String :=
  ["title", "format", "release time", "tags", "radar chart", "views", "likes", "collects",
    "comments", "grow followers", "shared", "traffic source", "female", "age 25-34",
    "age 18-24", "overseas", "interest", "growth strategy"]

/-- A data row whose `Views` cell is `N/A`, with further counter cells that are
empty or not numeric. -/
def naRow : List String := sampleRow "a" "N/A" "3" "" "x1" "7" "8"

/-- A data row whose `Views` cell is a negative number. -/
def negativeRow : List String := sampleRow "a" "-5" "0" "0" "0" "0" "0"

/-- A data row whose `Views` cell is the largest `int` and whose `Likes` cell is 1. -/
def overflowRow : List String := sampleRow "a" "9223372036854775807" "1" "0" "0" "0" "0"

/-- `a` is not put before `b` by the comparator. -/
def notLess {α : Type} (less : α → α → Bool) (a b : α) : Prop := less a b = false

instance notLess_decidable {α : Type} (less : α → α → Bool) : DecidableRel (notLess less) :=
  fun a b => inferInstanceAs (Decidable (less a b = false))

/-- Insertion of `p` into a list in ranking order, behind every element it is not
put before by the comparator (so behind the elements it ties with). -/
def insertBehind {α : Type} (less : α → α → Bool) (p : α) : List α → List α
  | [] => [p]
  | q :: s => if less p q then p :: q :: s else q :: insertBehind less p s

/-- The stable sort by a comparator: the elements are inserted one after the other,
in the order of the input. -/
def stableSort {α : Type} (less : α → α → Bool) (l : List α) : List α :=
  l.foldl (fun s p => insertBehind less p s) []

/-- The stable sort the specification speaks of: descending by engagement score,
Records of equal score in the order of the input. -/
def stableSorted (posts : List Post) : List Post := stableSort less posts

/-- Seven posts whose scores are 50, 200, 10, 300, 75, 5, 120. -/
def posts7 : List Post :=
  [samplePost "a" 50, samplePost "b" 200, samplePost "c" 10, samplePost "d" 300,
    samplePost "e" 75, samplePost "f" 5, samplePost "g" 120]

/-- The seven posts in descending order of their scores. -/
def sorted7 : List Post :=
  [samplePost "d" 300, samplePost "b" 200, samplePost "g" 120, samplePost "e" 75,
    samplePost "a" 50, samplePost "c" 10, samplePost "f" 5]

/-- Thirteen posts `p0`, ..., `p12`: `p1` has score 2, the twelve others score 1. -/
def posts13 : List Post :=
  [samplePost "p0" 1, samplePost "p1" 2, samplePost "p2" 1, samplePost "p3" 1,
    samplePost "p4" 1, samplePost "p5" 1, samplePost "p6" 1, samplePost "p7" 1,
    samplePost "p8" 1, samplePost "p9" 1, samplePost "p10" 1, samplePost "p11" 1,
    samplePost "p12" 1]

/-- The order in which `sort.Slice` leaves the thirteen posts. -/
def sorted13 : List Post :=
  [samplePost "p1" 2, samplePost "p6" 1, samplePost "p2" 1, samplePost "p3" 1,
    samplePost "p4" 1, samplePost "p5" 1, samplePost "p0" 1, samplePost "p7" 1,
    samplePost "p8" 1, samplePost "p9" 1, samplePost "p10" 1, samplePost "p11" 1,
    samplePost "p12" 1]

/-- A `Post` with the given title and, in this order, views, likes, comments,
collects, follower growth and shares. -/
def scoredPost (title : String) (views likes comments collects grow shared : Int) : Post :=
  { PostTitle := title, Format := "video", ReleaseTime := "2024-01-01", Tags := "tags",
    RadarChart := "radar", Views := views, Likes := likes, Collects := collects,
    Comments := comments, GrowFollowers := grow, Shared := shared, TrafficSource := "search",
    FemalePercentage := "60%", Age2534Percentage := "40%", Age1824Percentage := "30%",
    OverseasPercentage := "5%", InterestDistribution := "food", GrowthStrategy := "post daily" }

/-- Seven posts whose scores are 50, 200, 10, 300, 75, 5, 120, each made of four
counters that are not zero.  The order of their views alone is another one (`b`,
`e`, `g`, `a`, `d`, `c`, `f`), and so is the order of their follower growth and of
their shares. -/
def ranked7 : List Post :=
  [scoredPost "a" 20 15 10 5 900 1, scoredPost "b" 100 50 30 20 0 2,
    scoredPost "c" 4 3 2 1 5000 3, scoredPost "d" 10 90 100 100 7 4,
    scoredPost "e" 70 2 2 1 60 9000, scoredPost "f" 2 1 1 1 100000 100000,
    scoredPost "g" 30 30 30 30 3 5]

/-- The seven posts in descending order of their scores. -/
def rankedSorted7 : List Post :=
  [scoredPost "d" 10 90 100 100 7 4, scoredPost "b" 100 50 30 20 0 2,
    scoredPost "g" 30 30 30 30 3 5, scoredPost "e" 70 2 2 1 60 9000,
    scoredPost "a" 20 15 10 5 900 1, scoredPost "c" 4 3 2 1 5000 3,
    scoredPost "f" 2 1 1 1 100000 100000]

/-- The prompt as the specification describes it: the preamble line, then one block
per Record of the selection, in its order; a block is the seventeen labelled lines
of the Record and is followed by a blank line; nothing else. -/
def claimedPrompt (selection : List Post) : String :=
  "Perform post analysis of the following top 5 high engagement posts:\n" ++
    String.join (selection.map (fun post => String.join (fieldLines post) ++ "\n"))

/-- A Record whose fields all differ, with a negative and a zero counter and text
fields that hold a quote, a backslash, a percent sign and a line break. -/
def promptPost : Post :=
  { PostTitle := "Tea \"time\"", Format := "video", ReleaseTime := "2024-01-01 08:00",
    Tags := "#tea,#home", RadarChart := "radar", Views := 1234, Likes := 56, Collects := 8,
    Comments := 7, GrowFollowers := -5, Shared := 0, TrafficSource := "search\\feed",
    FemalePercentage := "60%", Age2534Percentage := "40%", Age1824Percentage := "30%",
    OverseasPercentage := "5%", InterestDistribution := "food\ndrink",
    GrowthStrategy := "post %d daily" }

/-- Seven posts `t0`, ..., `t6`: `t1` has score 2, the six others score 1. -/
def ties7 : List Post :=
  [samplePost "t0" 1, samplePost "t1" 2, samplePost "t2" 1, samplePost "t3" 1,
    samplePost "t4" 1, samplePost "t5" 1, samplePost "t6" 1]

/-- The member named `key` of a JSON object, in the words of the specification; of
several members of that name it is the last one of the text. -/
def member : List (String × JSONValue) → String → Option JSONValue
  | [], _ => none
  | (k, v) :: rest, key =>
    match member rest key with
    | some later => some later
    | none => if k = key then some v else none

/-- The shape of a successful completion in the words of the specification: a JSON
object whose `choices` is a non-empty array whose element 0 is an object whose
`message` is an object whose `content` is the string `content`. -/
def successShape (value : JSONValue) (content : String) : Prop :=
  ∃ (members : List (String × JSONValue)) (rest : List JSONValue)
    (firstChoice message : List (String × JSONValue)),
    value = JSONValue.object members ∧
    member members "choices" =
      some (JSONValue.array (JSONValue.object firstChoice :: rest)) ∧
    member firstChoice "message" = some (JSONValue.object message) ∧
    member message "content" = some (JSONValue.string content)

/-- The JSON values that `Decode` stores in a `map[string]interface{}` without an
error: the objects and `null`. -/
def storable : JSONValue → Bool
  | JSONValue.object _ => true
  | JSONValue.null => true
  | _ => false

/-- White space of JSON only: space, tab, line feed, carriage return. -/
def isBlank (s : String) : Bool :=
  s.data.all (fun c => " \t\n\r".data.contains c)

/-- The body is a JSON text that is the value `v`: the stream holds `v`, which
`encoding/json` can store, and after it white space at most. -/
def bodyIs (body : ResponseBody) (v : JSONValue) : Prop :=
  body.value = some v ∧ isBlank body.rest = true

/-- The condition of the specification for reaching the Writing stage: the status is
200 and the body is a JSON object of the successful shape. -/
def claimedSuccess (resp : Response) (content : String) : Prop :=
  resp.StatusCode = 200 ∧ ∃ v, bodyIs resp.Body v ∧ successShape v content

/-- A completion of the expected shape whose content is `text`, as the text
`{"id":"chatcmpl-1","choices":[{"index":0,"message":{"role":"assistant",
"content":text,"refusal":null},"finish_reason":"stop"}],"usage":{"total_tokens":9}}`. -/
def successBody (text : String) : JSONValue :=
  JSONValue.object
    [("id", JSONValue.string "chatcmpl-1"),
      ("choices", JSONValue.array
        [JSONValue.object
          [("index", JSONValue.number 0),
            ("message", JSONValue.object
              [("role", JSONValue.string "assistant"), ("content", JSONValue.string text),
                ("refusal", JSONValue.null)]),
            ("finish_reason", JSONValue.string "stop")]]),
      ("usage", JSONValue.object [("total_tokens", JSONValue.number 9)])]

/-- A world in which the file holds the header and one row, the credential is `key`
and the server answers every request with `resp`. -/
def sampleWorld (key : String) (resp : Response) : World :=
  { file := some [RawRecord.fields headerRow, RawRecord.fields naRow], apiKey := key,
    Do := fun _ => some resp, writeOk := true }

/-- The text `{"error":{"message":"bad key"}}`, as the server sends it with status 401. -/
def errorBody : JSONValue :=
  JSONValue.object [("error", JSONValue.object [("message", JSONValue.string "bad key")])]

/-- The text `{"id":"chatcmpl-1","choices":[],"usage":{"total_tokens":9}}`. -/
def emptyChoicesBody : JSONValue :=
  JSONValue.object
    [("id", JSONValue.string "chatcmpl-1"), ("choices", JSONValue.array []),
      ("usage", JSONValue.object [("total_tokens", JSONValue.number 9)])]

/-- A well-formed completion under another name: the text
`{"data":[{"message":{"content":text}}],"choices":null}`. -/
def misnamedBody (text : String) : JSONValue :=
  JSONValue.object
    [("data", JSONValue.array
        [JSONValue.object
          [("message", JSONValue.object [("content", JSONValue.string text)])]]),
      ("choices", JSONValue.null)]

/-! ## Vocabulary of the correctness of `sort.Slice` -/

/-- The index at which the element of index `k` stands after `Swap(i, j)`. -/
def tr (i j k : Nat) : Nat := if k = j then i else if k = i then j else k

/-- The slice `d'` arises from `d` by rearranging the elements of the indices
`a ≤ k < b`: it is a permutation of `d`, equal to it outside the range, and every
element of its range is an element of the range of `d`. -/
def Rearranged {α : Type} (a b : Nat) (d d' : List α) : Prop :=
  d'.Perm d ∧ (∀ k, k < a ∨ b ≤ k → d'[k]? = d[k]?) ∧
  (∀ k, a ≤ k → k < b → ∃ k', a ≤ k' ∧ k' < b ∧ d'[k]? = d[k']?)

/-- The slice is sorted on the indices `a ≤ k < b`: no element is put by the
comparator before an earlier one. -/
def SortedOn {α : Type} (less : α → α → Bool) (d : List α) (a b : Nat) : Prop :=
  ∀ i j, a ≤ i → i < j → j < b → lessAt less d j i = false

/-- No element of the indices `a ≤ k < b` is put by the comparator before the element
just left of the range (there is none when `a = 0`). -/
def AfterPred {α : Type} (less : α → α → Bool) (d : List α) (a b : Nat) : Prop :=
  0 < a → ∀ k, a ≤ k → k < b → lessAt less d k (a - 1) = false

/-- The requirements of `sort.Slice` on its comparator (a strict weak ordering). -/
structure StrictWeak {α : Type} (less : α → α → Bool) : Prop where
  trans : ∀ a b c, less a b = false → less b c = false → less a c = false
  total : ∀ a b, less a b = false ∨ less b a = false

/-! # Theorems -/

/-! ## Facts about the machine integers and `Atoi` -/

theorem wrap64_range (x : Int) : minInt ≤ wrap64 x ∧ wrap64 x ≤ maxInt := by
  unfold wrap64 minInt maxInt
  omega

theorem wrap64_of_range (x : Int) (h1 : minInt ≤ x) (h2 : x ≤ maxInt) : wrap64 x = x := by
  unfold wrap64
  unfold minInt at h1
  unfold maxInt at h2
  omega

theorem wrap64_add_left (a b : Int) : wrap64 (wrap64 a + b) = wrap64 (a + b) := by
  unfold wrap64
  omega

theorem parseUintLoop_spec (cs : List Char) (n : Nat) (hn : n < 2 ^ 64) :
    ((parseUintLoop cs n).2 = none → (parseUintLoop cs n).1 < 2 ^ 64) ∧
    ((parseUintLoop cs n).2 = some NumError.ErrSyntax → (parseUintLoop cs n).1 = 0) ∧
    ((parseUintLoop cs n).2 = some NumError.ErrRange → (parseUintLoop cs n).1 = 2 ^ 64 - 1) := by
  induction cs generalizing n with
  | nil =>
    simp only [parseUintLoop]
    exact ⟨fun _ => hn, by simp, by simp⟩
  | cons c cs ih =>
    unfold parseUintLoop
    split
    · split
      · simp
      · simp only []
        split
        · simp
        · apply ih
          apply Nat.mod_lt
          norm_num
    · simp

theorem ParseUint_spec (cs : List Char) :
    ((ParseUint cs).2 = none → (ParseUint cs).1 < 2 ^ 64) ∧
    ((ParseUint cs).2 = some NumError.ErrSyntax → (ParseUint cs).1 = 0) ∧
    ((ParseUint cs).2 = some NumError.ErrRange → (ParseUint cs).1 = 2 ^ 64 - 1) := by
  cases cs with
  | nil => simp [ParseUint]
  | cons c cs => exact parseUintLoop_spec (c :: cs) 0 (by norm_num)

theorem ParseInt_spec (s : List Char) :
    (minInt ≤ (ParseInt s).1 ∧ (ParseInt s).1 ≤ maxInt) ∧
    ((ParseInt s).2 = some NumError.ErrSyntax → (ParseInt s).1 = 0) ∧
    (s.head? ≠ some '-' → 0 ≤ (ParseInt s).1) := by
  cases s with
  | nil => simp [ParseInt, minInt, maxInt]
  | cons c cs =>
    unfold ParseInt
    simp only []
    split
    · simp [minInt, maxInt]
    · rename_i un e hne heq
      split
      · simp [minInt, maxInt]
      · split
        · rename_i h1 h2
          simp only [decide_eq_true_eq] at h2
          simp [minInt, maxInt, h2.1]
        · rename_i h1 h2
          refine ⟨?_, by simp, ?_⟩
          · split
            · exact wrap64_range _
            · exact wrap64_range _
          · intro hc
            have hc' : ¬ c = '-' := by simpa using hc
            simp only [decide_eq_true_eq, hc', not_false_eq_true, true_and, false_and,
              not_le] at h1 h2
            simp only [decide_eq_true_eq, hc', if_false]
            have : wrap64 (un : Int) = (un : Int) := by
              apply wrap64_of_range <;> simp only [minInt, maxInt] <;> omega
            simp only [List.head?_cons, ite_false, this]
            omega

theorem isDigitByte_le (c : Char) (h : isDigitByte c = true) : c.toNat - 48 ≤ 9 := by
  simp only [isDigitByte, decide_eq_true_eq] at h
  omega

theorem atoiFastLoop_bounds (cs : List Char) (n m : Int) (hn : 0 ≤ n)
    (h : atoiFastLoop cs n = some m) :
    n * 10 ^ cs.length ≤ m ∧ m < (n + 1) * 10 ^ cs.length := by
  induction cs generalizing n with
  | nil =>
    simp only [atoiFastLoop, Option.some.injEq] at h
    subst h
    simp
  | cons c cs ih =>
    unfold atoiFastLoop at h
    split at h
    · rename_i hd
      have hd9 := isDigitByte_le c hd
      have hd9' : ((c.toNat - 48 : Nat) : Int) ≤ 9 := by exact_mod_cast hd9
      have hd0 : (0 : Int) ≤ ((c.toNat - 48 : Nat) : Int) := Int.natCast_nonneg _
      have := ih (n * 10 + ((c.toNat - 48 : Nat) : Int)) (by omega) h
      have hP : (0 : Int) < 10 ^ cs.length := by positivity
      simp only [List.length_cons, pow_succ]
      constructor
      · nlinarith [this.1, mul_nonneg hd0 hP.le]
      · nlinarith [this.2, mul_nonneg (sub_nonneg.mpr hd9') hP.le]
    · simp at h

theorem length_le_utf8ByteSize_go (cs : List Char) : cs.length ≤ String.utf8ByteSize.go cs := by
  induction cs with
  | nil => simp [String.utf8ByteSize.go]
  | cons c cs ih =>
    have := c.utf8Size_pos
    simp only [String.utf8ByteSize.go, List.length_cons]
    omega

theorem length_le_utf8ByteSize (s : String) : s.data.length ≤ s.utf8ByteSize := by
  cases s with
  | mk cs => exact length_le_utf8ByteSize_go cs

theorem atoiFast_result (body : List Char) (hlen : body.length ≤ 18) (n : Int)
    (hloop : atoiFastLoop body 0 = some n) : 0 ≤ n ∧ n < 10 ^ 18 := by
  have hb := atoiFastLoop_bounds body 0 n (le_refl 0) hloop
  have hpow : (10 : Int) ^ body.length ≤ 10 ^ 18 := pow_le_pow_right₀ (by norm_num) hlen
  simp only [zero_mul, zero_add, one_mul] at hb
  exact ⟨hb.1, lt_of_lt_of_le hb.2 hpow⟩

theorem atoiFast_spec (c : Char) (body : List Char) (hlen : body.length ≤ 18) :
    let r : Int × Option NumError :=
      match atoiFastLoop body 0 with
      | none => (0, some NumError.ErrSyntax)
      | some n => (if c = '-' then -n else n, none)
    (minInt ≤ r.1 ∧ r.1 ≤ maxInt) ∧ (r.2 = some NumError.ErrSyntax → r.1 = 0) ∧
    (c ≠ '-' → 0 ≤ r.1) ∧ (r.2 ≠ none → r.1 = 0) ∧ -(10 ^ 18) < r.1 ∧ r.1 < 10 ^ 18 := by
  intro r
  cases hloop : atoiFastLoop body 0 with
  | none => simp [r, hloop, minInt, maxInt]
  | some n =>
    have hn := atoiFast_result body hlen n hloop
    simp only [r, hloop, minInt, maxInt]
    refine ⟨?_, by simp, ?_, by simp, ?_, ?_⟩
    · split <;> constructor <;> omega
    · intro hc
      simp only [hc, if_false]
      exact hn.1
    · split <;> omega
    · split <;> omega

/-- The result of `Atoi` is an `int`; a syntax error comes with the value 0; a string
that does not begin with `-` gives no negative value; a string of fewer than 19
bytes gives 0 whenever parsing fails and a value of at most 18 digits otherwise. -/
theorem Atoi_spec (s : String) :
    (minInt ≤ (Atoi s).1 ∧ (Atoi s).1 ≤ maxInt) ∧
    ((Atoi s).2 = some NumError.ErrSyntax → (Atoi s).1 = 0) ∧
    (s.data.head? ≠ some '-' → 0 ≤ (Atoi s).1) ∧
    (s.utf8ByteSize < 19 →
      ((Atoi s).2 ≠ none → (Atoi s).1 = 0) ∧
      -(10 ^ 18) < (Atoi s).1 ∧ (Atoi s).1 < 10 ^ 18) := by
  have hlen := length_le_utf8ByteSize s
  unfold Atoi
  simp only []
  split
  · rename_i hfast
    split
    · simp [minInt, maxInt]
    · rename_i c cs hdata
      rw [hdata] at hlen ⊢
      simp only [List.length_cons] at hlen
      by_cases hs : (c = '-' ∨ c = '+')
      · simp only [hs, decide_True, if_true, true_and]
        by_cases hcs : cs.length < 1
        · simp [hcs, minInt, maxInt]
        · simp only [hcs, if_false]
          have h := atoiFast_spec c cs (by omega)
          simp only [List.head?_cons, ne_eq, Option.some.injEq] at h ⊢
          exact ⟨h.1, h.2.1, h.2.2.1, fun _ => h.2.2.2⟩
      · simp only [hs, decide_False, if_false, false_and]
        have h := atoiFast_spec c (c :: cs) (by simp only [List.length_cons]; omega)
        simp only [List.head?_cons, ne_eq, Option.some.injEq] at h ⊢
        exact ⟨h.1, h.2.1, h.2.2.1, fun _ => h.2.2.2⟩
  · rename_i hslow
    have hp := ParseInt_spec s.data
    refine ⟨hp.1, hp.2.1, hp.2.2, fun h19 => ?_⟩
    have h0 : s.utf8ByteSize = 0 := by omega
    have hd : s.data = [] := by
      have : s.data.length = 0 := by omega
      exact List.length_eq_zero.mp this
    rw [hd]
    simp [ParseInt]

/-! ## Facts about the loader -/

theorem getElem?_eq_cell (record : List String) (i : Nat) (h : i < record.length) :
    record[i]? = some (cell record i) := by
  simp [cell, List.getD_eq_getElem?_getD, List.getElem?_eq_getElem h]

theorem mkPost_of_length (record : List String) (h : 18 ≤ record.length) :
    mkPost record = some (postOfRecord record) := by
  unfold mkPost
  rw [getElem?_eq_cell record 5 (by omega), getElem?_eq_cell record 6 (by omega),
    getElem?_eq_cell record 7 (by omega), getElem?_eq_cell record 8 (by omega),
    getElem?_eq_cell record 9 (by omega), getElem?_eq_cell record 10 (by omega),
    getElem?_eq_cell record 0 (by omega), getElem?_eq_cell record 1 (by omega),
    getElem?_eq_cell record 2 (by omega), getElem?_eq_cell record 3 (by omega),
    getElem?_eq_cell record 4 (by omega), getElem?_eq_cell record 11 (by omega),
    getElem?_eq_cell record 12 (by omega), getElem?_eq_cell record 13 (by omega),
    getElem?_eq_cell record 14 (by omega), getElem?_eq_cell record 15 (by omega),
    getElem?_eq_cell record 16 (by omega), getElem?_eq_cell record 17 (by omega)]
  rfl

theorem mkPost_of_short (record : List String) (h : record.length < 18) :
    mkPost record = none := by
  have h17 : record[17]? = none := List.getElem?_eq_none (by omega)
  unfold mkPost
  repeat' split
  all_goals first
    | rfl
    | (rename_i h17'; rw [h17] at h17'; exact absurd h17' (by simp))

theorem counters_postOfRecord (record : List String) :
    counters (postOfRecord record) = [5, 6, 7, 8, 9, 10].map (fun i => (Atoi (cell record i)).1) :=
  rfl

/-- C6, as amended.  Every `Post` built from a row of at least 18 fields has its six
counters in the range of `int` (-2^63 up to 2^63 - 1), and a counter whose cell does
not begin with `-` is greater than or equal to 0. -/
theorem counters_range (record : List String) (post : Post) (hlen : 18 ≤ record.length)
    (hpost : mkPost record = some post) :
    counters post = [5, 6, 7, 8, 9, 10].map (fun i => (Atoi (cell record i)).1) ∧
    (∀ x ∈ counters post, minInt ≤ x ∧ x ≤ maxInt) ∧
    (∀ i, (cell record i).data.head? ≠ some '-' → 0 ≤ (Atoi (cell record i)).1) := by
  rw [mkPost_of_length record hlen, Option.some.injEq] at hpost
  subst hpost
  refine ⟨counters_postOfRecord record, ?_, fun i => (Atoi_spec (cell record i)).2.2.1⟩
  intro x hx
  rw [counters_postOfRecord, List.mem_map] at hx
  obtain ⟨i, _, rfl⟩ := hx
  exact (Atoi_spec (cell record i)).1

/-- Witness of C6 as amended: the row whose `Views` cell is `N/A`. -/
theorem counters_range_witness :
    counters (postOfRecord naRow) = [5, 6, 7, 8, 9, 10].map (fun i => (Atoi (cell naRow i)).1) ∧
    (∀ x ∈ counters (postOfRecord naRow), minInt ≤ x ∧ x ≤ maxInt) ∧
    (∀ i, (cell naRow i).data.head? ≠ some '-' → 0 ≤ (Atoi (cell naRow i)).1) :=
  counters_range naRow (postOfRecord naRow) (by decide) (mkPost_of_length naRow (by decide))

/-- C6 as stated fails: the row whose `Views` cell is `-5` has 18 fields and is
loaded with `Views = -5`. -/
theorem counters_range_counterexample :
    18 ≤ negativeRow.length ∧
    (loadedPosts (loadPosts [RawRecord.fields headerRow, RawRecord.fields negativeRow])).map
      (List.map Post.Views) = some [-5] ∧
    ¬ ((0 : Int) ≤ -5) := by
  decide

theorem engagement_eq_wrap64 (p : Post) : engagement p = wrap64 (exactScore p) := by
  unfold engagement exactScore add64 wrap64
  omega

theorem exactScore_postOfRecord (record : List String) :
    exactScore (postOfRecord record) =
      (Atoi (cell record 5)).1 + (Atoi (cell record 6)).1 + (Atoi (cell record 8)).1 +
        (Atoi (cell record 7)).1 :=
  rfl

/-- C10, as amended.  For every `Post` built from a data row the score the comparator
computes is the exact sum `Views + Likes + Comments + Collects` reduced into the
signed 64-bit range; it is the exact sum whenever that sum lies in the range, which
is the case whenever the four cells 5-8 have fewer than 19 bytes each. -/
theorem engagement_exact (record : List String) (post : Post) (hlen : 18 ≤ record.length)
    (hpost : mkPost record = some post) :
    engagement post = wrap64 (exactScore post) ∧
    (minInt ≤ exactScore post ∧ exactScore post ≤ maxInt → engagement post = exactScore post) ∧
    ((∀ i, 5 ≤ i → i ≤ 8 → (cell record i).utf8ByteSize < 19) →
      engagement post = exactScore post) := by
  rw [mkPost_of_length record hlen, Option.some.injEq] at hpost
  subst hpost
  refine ⟨engagement_eq_wrap64 _, fun h => ?_, fun h => ?_⟩
  · rw [engagement_eq_wrap64]
    exact wrap64_of_range _ h.1 h.2
  · rw [engagement_eq_wrap64, exactScore_postOfRecord]
    have h5 := ((Atoi_spec (cell record 5)).2.2.2 (h 5 (by omega) (by omega))).2
    have h6 := ((Atoi_spec (cell record 6)).2.2.2 (h 6 (by omega) (by omega))).2
    have h7 := ((Atoi_spec (cell record 7)).2.2.2 (h 7 (by omega) (by omega))).2
    have h8 := ((Atoi_spec (cell record 8)).2.2.2 (h 8 (by omega) (by omega))).2
    apply wrap64_of_range <;> simp only [minInt, maxInt] <;> omega

/-- Witness of C10 as amended: the row whose `Views` cell is `N/A`. -/
theorem engagement_exact_witness :
    engagement (postOfRecord naRow) = wrap64 (exactScore (postOfRecord naRow)) ∧
    (minInt ≤ exactScore (postOfRecord naRow) ∧ exactScore (postOfRecord naRow) ≤ maxInt →
      engagement (postOfRecord naRow) = exactScore (postOfRecord naRow)) ∧
    ((∀ i, 5 ≤ i → i ≤ 8 → (cell naRow i).utf8ByteSize < 19) →
      engagement (postOfRecord naRow) = exactScore (postOfRecord naRow)) :=
  engagement_exact naRow (postOfRecord naRow) (by decide) (mkPost_of_length naRow (by decide))

/-- C10 as stated fails: the row with `Views` 9223372036854775807 and `Likes` 1 is
loaded, its exact sum is 9223372036854775808, and the comparator computes
-9223372036854775808. -/
theorem engagement_exact_counterexample :
    (loadedPosts (loadPosts [RawRecord.fields headerRow, RawRecord.fields overflowRow])).map
      (List.map (fun p => (exactScore p, engagement p))) =
      some [(9223372036854775808, -9223372036854775808)] := by
  decide

/-- C5 at the failing input: a file whose header has three fields and whose data row
has three fields as well.  `Read` accepts the row, the index expression `record[5]`
is out of range, and the run ends in a panic. -/
theorem loader_short_row_panics :
    loadPosts [RawRecord.fields ["title", "views", "likes"], RawRecord.fields ["a", "1", "2"],
      RawRecord.fields ["b", "3", "4"]] = LoadResult.panicked := by
  decide

/-! ## Swaps, comparisons by index, rearrangements of a range -/

section Basics

variable {α : Type}

@[simp] theorem swap_length (data : List α) (i j : Nat) : (swap data i j).length = data.length := by
  unfold swap
  split <;> simp

theorem swap_of_lt (d : List α) (i j : Nat) (hi : i < d.length) (hj : j < d.length) :
    swap d i j = (d.set i d[j]).set j d[i] := by
  unfold swap
  rw [List.getElem?_eq_getElem hi, List.getElem?_eq_getElem hj]

theorem getElem?_swap (d : List α) (i j k : Nat) (hi : i < d.length) (hj : j < d.length) :
    (swap d i j)[k]? = d[tr i j k]? := by
  rw [swap_of_lt d i j hi hj, tr]
  by_cases hkj : k = j
  · subst hkj
    rw [if_pos rfl, List.getElem?_set_self (by simpa using hj), List.getElem?_eq_getElem hi]
  · rw [if_neg hkj, List.getElem?_set_ne (Ne.symm hkj)]
    by_cases hki : k = i
    · subst hki
      rw [if_pos rfl, List.getElem?_set_self hi, List.getElem?_eq_getElem hj]
    · rw [if_neg hki, List.getElem?_set_ne (Ne.symm hki)]

theorem swap_perm (d : List α) (i j : Nat) : (swap d i j).Perm d := by
  by_cases hi : i < d.length
  · by_cases hj : j < d.length
    · classical
      rw [swap_of_lt d i j hi hj, List.perm_iff_count]
      intro x
      rw [List.count_set _ _ _ _ (by simpa using hj), List.count_set _ _ _ _ hi]
      by_cases hij : i = j
      · subst hij
        simp only [List.getElem_set_self]
        have hci : 0 < d.count d[i] := List.count_pos_iff.mpr (List.getElem_mem hi)
        by_cases h1 : d[i] = x
        · subst h1
          simp only [beq_self_eq_true, if_true]
          omega
        · simp [h1]
      · rw [List.getElem_set_ne hij]
        have hci : 0 < d.count d[i] := List.count_pos_iff.mpr (List.getElem_mem hi)
        have hcj : 0 < d.count d[j] := List.count_pos_iff.mpr (List.getElem_mem hj)
        by_cases h1 : d[i] = x <;> by_cases h2 : d[j] = x <;> simp_all
    · unfold swap
      rw [List.getElem?_eq_none (by omega : d.length ≤ j)]
      split <;> simp_all
  · unfold swap
    rw [List.getElem?_eq_none (by omega : d.length ≤ i)]

theorem lessAt_congr (less : α → α → Bool) (d d' : List α) (i j i' j' : Nat)
    (hi : d'[i]? = d[i']?) (hj : d'[j]? = d[j']?) :
    lessAt less d' i j = lessAt less d i' j' := by
  unfold lessAt
  rw [hi, hj]

theorem lessAt_of_lt (less : α → α → Bool) (d : List α) (i j : Nat) (hi : i < d.length)
    (hj : j < d.length) : lessAt less d i j = less d[i] d[j] := by
  unfold lessAt
  rw [List.getElem?_eq_getElem hi, List.getElem?_eq_getElem hj]

theorem lessAt_swap (less : α → α → Bool) (d : List α) (i j k l : Nat) (hi : i < d.length)
    (hj : j < d.length) :
    lessAt less (swap d i j) k l = lessAt less d (tr i j k) (tr i j l) :=
  lessAt_congr less d _ k l _ _ (getElem?_swap d i j k hi hj) (getElem?_swap d i j l hi hj)

theorem lessAt_lt_of_true (less : α → α → Bool) (d : List α) (i j : Nat)
    (h : lessAt less d i j = true) : i < d.length ∧ j < d.length := by
  unfold lessAt at h
  split at h
  · rename_i x y hx hy
    exact ⟨(List.getElem?_eq_some.mp hx).1, (List.getElem?_eq_some.mp hy).1⟩
  · simp at h

theorem lessAt_total (less : α → α → Bool) (sw : StrictWeak less) (d : List α) (i j : Nat) :
    lessAt less d i j = false ∨ lessAt less d j i = false := by
  unfold lessAt
  cases hi : d[i]? <;> cases hj : d[j]? <;> simp
  exact sw.total _ _

theorem lessAt_irrefl (less : α → α → Bool) (sw : StrictWeak less) (d : List α) (i : Nat) :
    lessAt less d i i = false := by
  rcases lessAt_total less sw d i i with h | h <;> exact h

/-- Negative transitivity on the indices of a slice. -/
theorem lessAt_trans_false (less : α → α → Bool) (sw : StrictWeak less) (d : List α)
    (i j k : Nat) (hj : j < d.length) (h1 : lessAt less d i j = false)
    (h2 : lessAt less d j k = false) : lessAt less d i k = false := by
  by_cases hi : i < d.length
  · by_cases hk : k < d.length
    · rw [lessAt_of_lt less d _ _ hi hj] at h1
      rw [lessAt_of_lt less d _ _ hj hk] at h2
      rw [lessAt_of_lt less d _ _ hi hk]
      exact sw.trans _ _ _ h1 h2
    · unfold lessAt
      rw [List.getElem?_eq_none (by omega : d.length ≤ k)]
      split <;> simp_all
  · unfold lessAt
    rw [List.getElem?_eq_none (by omega : d.length ≤ i)]

theorem lessAt_trans (less : α → α → Bool) (sw : StrictWeak less) (d : List α)
    (i j k : Nat) (h1 : lessAt less d i j = true) (h2 : lessAt less d j k = true) :
    lessAt less d i k = true := by
  have hi := (lessAt_lt_of_true less d i j h1).1
  have hj := (lessAt_lt_of_true less d i j h1).2
  have hk := (lessAt_lt_of_true less d j k h2).2
  by_contra hnot
  have hik : lessAt less d i k = false := by simpa using hnot
  have hkj : lessAt less d k j = false := by
    rcases lessAt_total less sw d k j with h | h
    · exact h
    · rw [h2] at h
      exact absurd h (by simp)
  have := lessAt_trans_false less sw d i k j hk hik hkj
  rw [h1] at this
  exact absurd this (by simp)

/-- From `i` before `j` and `k` not before `j`: `i` before `k`. -/
theorem lessAt_of_lt_of_not (less : α → α → Bool) (sw : StrictWeak less) (d : List α)
    (i j k : Nat) (hk : k < d.length) (h1 : lessAt less d i j = true)
    (h2 : lessAt less d k j = false) : lessAt less d i k = true := by
  by_contra hnot
  have hik : lessAt less d i k = false := by simpa using hnot
  have := lessAt_trans_false less sw d i k j hk hik h2
  rw [h1] at this
  exact absurd this (by simp)

/-- From `j` not before `i` and `j` before `k`: `i` before `k`. -/
theorem lessAt_of_not_of_lt (less : α → α → Bool) (sw : StrictWeak less) (d : List α)
    (i j k : Nat) (hi : i < d.length) (h1 : lessAt less d j i = false)
    (h2 : lessAt less d j k = true) : lessAt less d i k = true := by
  have hj := (lessAt_lt_of_true less d j k h2).1
  by_contra hnot
  have hik : lessAt less d i k = false := by simpa using hnot
  have := lessAt_trans_false less sw d j i k hi h1 hik
  rw [h2] at this
  exact absurd this (by simp)

end Basics

section RearrangedFacts

variable {α : Type}

theorem Rearranged.refl (a b : Nat) (d : List α) : Rearranged a b d d :=
  ⟨List.Perm.refl d, fun _ _ => rfl, fun k hk1 hk2 => ⟨k, hk1, hk2, rfl⟩⟩

theorem Rearranged.length_eq {a b : Nat} {d d' : List α} (h : Rearranged a b d d') :
    d'.length = d.length :=
  h.1.length_eq

theorem Rearranged.trans {a b : Nat} {d1 d2 d3 : List α} (h12 : Rearranged a b d1 d2)
    (h23 : Rearranged a b d2 d3) : Rearranged a b d1 d3 := by
  refine ⟨h23.1.trans h12.1, fun k hk => (h23.2.1 k hk).trans (h12.2.1 k hk), ?_⟩
  intro k hk1 hk2
  obtain ⟨k', hk1', hk2', he⟩ := h23.2.2 k hk1 hk2
  obtain ⟨k'', hk1'', hk2'', he'⟩ := h12.2.2 k' hk1' hk2'
  exact ⟨k'', hk1'', hk2'', he.trans he'⟩

theorem Rearranged.mono {a b a' b' : Nat} {d d' : List α} (h : Rearranged a b d d')
    (ha : a' ≤ a) (hb : b ≤ b') : Rearranged a' b' d d' := by
  refine ⟨h.1, fun k hk => h.2.1 k (by omega), ?_⟩
  intro k hk1 hk2
  by_cases hin : a ≤ k ∧ k < b
  · obtain ⟨k', h1, h2, he⟩ := h.2.2 k hin.1 hin.2
    exact ⟨k', by omega, by omega, he⟩
  · exact ⟨k, hk1, hk2, h.2.1 k (by omega)⟩

theorem Rearranged.swap (a b : Nat) (d : List α) (i j : Nat) (hb : b ≤ d.length)
    (hi1 : a ≤ i) (hi2 : i < b) (hj1 : a ≤ j) (hj2 : j < b) :
    Rearranged a b d (swap d i j) := by
  have hi : i < d.length := by omega
  have hj : j < d.length := by omega
  refine ⟨swap_perm d i j, ?_, ?_⟩
  · intro k hk
    rw [getElem?_swap d i j k hi hj, tr, if_neg (by omega), if_neg (by omega)]
  · intro k hk1 hk2
    refine ⟨tr i j k, ?_, ?_, getElem?_swap d i j k hi hj⟩
    · unfold tr
      split_ifs <;> omega
    · unfold tr
      split_ifs <;> omega

/-- The value of `Less` between an index of the range and an index outside of it,
after a rearrangement. -/
theorem Rearranged.lessAt_left {a b : Nat} {d d' : List α} (less : α → α → Bool)
    (h : Rearranged a b d d') (k m : Nat) (hk1 : a ≤ k) (hk2 : k < b) (hm : m < a ∨ b ≤ m) :
    ∃ k', a ≤ k' ∧ k' < b ∧ lessAt less d' k m = lessAt less d k' m ∧
      lessAt less d' m k = lessAt less d m k' := by
  obtain ⟨k', h1, h2, he⟩ := h.2.2 k hk1 hk2
  exact ⟨k', h1, h2, lessAt_congr less d d' k m k' m he (h.2.1 m hm),
    lessAt_congr less d d' m k m k' (h.2.1 m hm) he⟩

/-- The value of `Less` between two indices of the range, after a rearrangement. -/
theorem Rearranged.lessAt_both {a b : Nat} {d d' : List α} (less : α → α → Bool)
    (h : Rearranged a b d d') (k m : Nat) (hk1 : a ≤ k) (hk2 : k < b) (hm1 : a ≤ m)
    (hm2 : m < b) :
    ∃ k' m', a ≤ k' ∧ k' < b ∧ a ≤ m' ∧ m' < b ∧ lessAt less d' k m = lessAt less d k' m' := by
  obtain ⟨k', h1, h2, he⟩ := h.2.2 k hk1 hk2
  obtain ⟨m', h3, h4, he'⟩ := h.2.2 m hm1 hm2
  exact ⟨k', m', h1, h2, h3, h4, lessAt_congr less d d' k m k' m' he he'⟩

end RearrangedFacts

/-! ## `partition_func` -/

section Partition

variable {α : Type}

theorem tr_left (i j : Nat) : tr i j i = j := by
  unfold tr
  split_ifs <;> omega

theorem tr_right (i j : Nat) : tr i j j = i := by
  unfold tr
  split_ifs <;> omega

theorem tr_of_ne (i j k : Nat) (hi : k ≠ i) (hj : k ≠ j) : tr i j k = k := by
  unfold tr
  split_ifs <;> omega

theorem tr_eq (i j k r : Nat)
    (h : (k = j ∧ r = i) ∨ (k ≠ j ∧ k = i ∧ r = j) ∨ (k ≠ j ∧ k ≠ i ∧ r = k)) :
    tr i j k = r := by
  unfold tr
  split_ifs <;> omega

theorem skipLess_spec (less : α → α → Bool) (d : List α) (a fuel i j : Nat)
    (hf : j + 1 ≤ fuel + i) :
    i ≤ skipLess less d a fuel i j ∧ skipLess less d a fuel i j ≤ max i (j + 1) ∧
    (∀ k, i ≤ k → k < skipLess less d a fuel i j → lessAt less d k a = true) ∧
    (skipLess less d a fuel i j ≤ j → lessAt less d (skipLess less d a fuel i j) a = false) := by
  induction fuel generalizing i with
  | zero =>
    simp only [skipLess]
    refine ⟨le_refl _, by omega, fun k h1 h2 => by omega, fun h => by omega⟩
  | succ f ih =>
    rw [skipLess]
    split
    · rename_i hc
      obtain ⟨h1, h2, h3, h4⟩ := ih (i + 1) (by omega)
      refine ⟨by omega, by omega, ?_, h4⟩
      intro k hk1 hk2
      by_cases hki : k = i
      · subst hki
        exact hc.2
      · exact h3 k (by omega) hk2
    · rename_i hc
      refine ⟨le_refl _, by omega, fun k h1 h2 => by omega, fun h => ?_⟩
      by_contra hne
      exact hc ⟨h, by simpa using hne⟩

theorem skipNotLess_spec (less : α → α → Bool) (d : List α) (a fuel i j : Nat)
    (hi : 1 ≤ i) (hf : j + 1 ≤ fuel + i) :
    skipNotLess less d a fuel i j ≤ j ∧ (i ≤ j + 1 → i ≤ skipNotLess less d a fuel i j + 1) ∧
    (∀ k, skipNotLess less d a fuel i j < k → k ≤ j → lessAt less d k a = false) ∧
    (i ≤ skipNotLess less d a fuel i j →
      lessAt less d (skipNotLess less d a fuel i j) a = true) := by
  induction fuel generalizing j with
  | zero =>
    simp only [skipNotLess]
    refine ⟨le_refl _, fun h => by omega, fun k h1 h2 => by omega, fun h => by omega⟩
  | succ f ih =>
    rw [skipNotLess]
    split
    · rename_i hc
      obtain ⟨h1, h2, h3, h4⟩ := ih (j - 1) (by omega)
      refine ⟨by omega, fun _ => by omega, ?_, h4⟩
      intro k hk1 hk2
      by_cases hkj : k = j
      · subst hkj
        exact hc.2
      · exact h3 k hk1 (by omega)
    · rename_i hc
      refine ⟨le_refl _, fun h => by omega, fun k h1 h2 => by omega, fun h => ?_⟩
      by_contra hne
      exact hc ⟨h, by simpa using hne⟩

theorem partitionLoop_spec (less : α → α → Bool) (a b fuel : Nat) (d : List α) (i j : Nat)
    (hb : b ≤ d.length) (ha : a < i) (hij : i ≤ j + 1) (hj : j < b)
    (hfuel : j + 2 ≤ fuel + i)
    (hL : ∀ k, a < k → k < i → lessAt less d k a = true)
    (hR : ∀ k, j < k → k < b → lessAt less d k a = false) :
    Rearranged (a + 1) b d (partitionLoop less a fuel d i j).1 ∧
    a ≤ (partitionLoop less a fuel d i j).2 ∧ (partitionLoop less a fuel d i j).2 < b ∧
    (∀ k, a < k → k ≤ (partitionLoop less a fuel d i j).2 →
      lessAt less (partitionLoop less a fuel d i j).1 k a = true) ∧
    (∀ k, (partitionLoop less a fuel d i j).2 < k → k < b →
      lessAt less (partitionLoop less a fuel d i j).1 k a = false) := by
  induction fuel generalizing d i j with
  | zero => omega
  | succ f ih =>
    rw [partitionLoop]
    obtain ⟨s1, s2, s3, s4⟩ := skipLess_spec less d a (j + 1) i j (by omega)
    generalize skipLess less d a (j + 1) i j = i' at s1 s2 s3 s4 ⊢
    obtain ⟨t1, t2, t3, t4⟩ := skipNotLess_spec less d a (j + 1) i' j (by omega) (by omega)
    generalize skipNotLess less d a (j + 1) i' j = j' at t1 t2 t3 t4 ⊢
    have hi'le : i' ≤ j + 1 := by omega
    split
    · rename_i hgt
      refine ⟨Rearranged.refl _ _ _, by omega, by omega, ?_, ?_⟩
      · intro k hk1 hk2
        by_cases hki : k < i
        · exact hL k hk1 hki
        · exact s3 k (by omega) (by omega)
      · intro k hk1 hk2
        by_cases hkj : j < k
        · exact hR k hkj hk2
        · exact t3 k hk1 (by omega)
    · rename_i hle
      have hle' : i' ≤ j' := by omega
      have hfalse := s4 (by omega)
      have htrue := t4 hle'
      have hne : i' ≠ j' := by
        intro h
        rw [h, htrue] at hfalse
        exact absurd hfalse (by simp)
      have hi'len : i' < d.length := by omega
      have hj'len : j' < d.length := by omega
      have hsw : ∀ k l, lessAt less (swap d i' j') k l = lessAt less d (tr i' j' k) (tr i' j' l) :=
        fun k l => lessAt_swap less d i' j' k l hi'len hj'len
      have hra : tr i' j' a = a := tr_of_ne _ _ _ (by omega) (by omega)
      have hrec := ih (swap d i' j') (i' + 1) (j' - 1) (by simpa using hb) (by omega) (by omega)
        (by omega) (by omega)
        (by
          intro k hk1 hk2
          rw [hsw, hra]
          by_cases hki : k = i'
          · subst hki
            rw [tr_left]
            exact htrue
          · rw [tr_of_ne _ _ _ hki (by omega)]
            by_cases hki2 : k < i
            · exact hL k hk1 hki2
            · exact s3 k (by omega) (by omega))
        (by
          intro k hk1 hk2
          rw [hsw, hra]
          by_cases hkj : k = j'
          · subst hkj
            rw [tr_right]
            exact hfalse
          · rw [tr_of_ne _ _ _ (by omega) hkj]
            by_cases hkj2 : j < k
            · exact hR k hkj2 hk2
            · exact t3 k (by omega) (by omega))
      obtain ⟨r1, r2, r3, r4, r5⟩ := hrec
      exact ⟨(Rearranged.swap (a + 1) b d i' j' hb (by omega) (by omega) (by omega)
        (by omega)).trans r1, r2, r3, r4, r5⟩

/-- The last step of `partition_func`: `Swap(j, a)` puts the pivot at `j`. -/
theorem partition_final (less : α → α → Bool) (a b j : Nat) (d : List α) (hb : b ≤ d.length)
    (hj1 : a ≤ j) (hj2 : j < b)
    (hL : ∀ k, a < k → k ≤ j → lessAt less d k a = true)
    (hR : ∀ k, j < k → k < b → lessAt less d k a = false) :
    Rearranged a b d (swap d j a) ∧
    (∀ k, a ≤ k → k < j → lessAt less (swap d j a) k j = true) ∧
    (∀ k, j < k → k < b → lessAt less (swap d j a) k j = false) := by
  have hjlen : j < d.length := by omega
  have halen : a < d.length := by omega
  have hsw : ∀ k l, lessAt less (swap d j a) k l = lessAt less d (tr j a k) (tr j a l) :=
    fun k l => lessAt_swap less d j a k l hjlen halen
  refine ⟨Rearranged.swap a b d j a hb hj1 hj2 (le_refl a) (by omega), ?_, ?_⟩
  · intro k hk1 hk2
    rw [hsw, tr_left]
    by_cases hka : k = a
    · subst hka
      rw [tr_right]
      exact hL j (by omega) (le_refl j)
    · rw [tr_of_ne _ _ _ (by omega) hka]
      exact hL k (by omega) (by omega)
  · intro k hk1 hk2
    rw [hsw, tr_left, tr_of_ne _ _ _ (by omega) (by omega)]
    exact hR k hk1 hk2

theorem partition_func_spec (less : α → α → Bool) (d : List α) (a b pivot : Nat)
    (hb : b ≤ d.length) (hp1 : a ≤ pivot) (hp2 : pivot < b) :
    Rearranged a b d (partition_func less d a b pivot).1 ∧
    a ≤ (partition_func less d a b pivot).2.1 ∧ (partition_func less d a b pivot).2.1 < b ∧
    (∀ k, a ≤ k → k < (partition_func less d a b pivot).2.1 →
      lessAt less (partition_func less d a b pivot).1 k (partition_func less d a b pivot).2.1
        = true) ∧
    (∀ k, (partition_func less d a b pivot).2.1 < k → k < b →
      lessAt less (partition_func less d a b pivot).1 k (partition_func less d a b pivot).2.1
        = false) := by
  unfold partition_func
  dsimp only
  have hr1 : Rearranged a b d (swap d a pivot) :=
    Rearranged.swap a b d a pivot hb (le_refl a) (by omega) hp1 hp2
  have hlen1 : (swap d a pivot).length = d.length := swap_length d a pivot
  generalize swap d a pivot = d1 at hr1 hlen1 ⊢
  obtain ⟨s1, s2, s3, s4⟩ := skipLess_spec less d1 a (b - a) (a + 1) (b - 1) (by omega)
  generalize skipLess less d1 a (b - a) (a + 1) (b - 1) = i1 at s1 s2 s3 s4 ⊢
  obtain ⟨t1, t2, t3, t4⟩ := skipNotLess_spec less d1 a (b - a) i1 (b - 1) (by omega) (by omega)
  generalize skipNotLess less d1 a (b - a) i1 (b - 1) = j1 at t1 t2 t3 t4 ⊢
  have hi1 : i1 ≤ b := by omega
  split
  · rename_i hgt
    have hfin := partition_final less a b j1 d1 (by omega) (by omega) (by omega)
      (fun k hk1 hk2 => s3 k (by omega) (by omega))
      (fun k hk1 hk2 => t3 k hk1 (by omega))
    dsimp only
    exact ⟨hr1.trans hfin.1, by omega, by omega, hfin.2.1, hfin.2.2⟩
  · rename_i hle
    have hle' : i1 ≤ j1 := by omega
    have hfalse := s4 (by omega)
    have htrue := t4 hle'
    have hne : i1 ≠ j1 := by
      intro h
      rw [h, htrue] at hfalse
      exact absurd hfalse (by simp)
    have hsw : ∀ k l, lessAt less (swap d1 i1 j1) k l =
        lessAt less d1 (tr i1 j1 k) (tr i1 j1 l) :=
      fun k l => lessAt_swap less d1 i1 j1 k l (by omega) (by omega)
    have hra : tr i1 j1 a = a := tr_of_ne _ _ _ (by omega) (by omega)
    have hr2 : Rearranged a b d1 (swap d1 i1 j1) :=
      Rearranged.swap a b d1 i1 j1 (by omega) (by omega) (by omega) (by omega) (by omega)
    have hloop := partitionLoop_spec less a b (b - a) (swap d1 i1 j1) (i1 + 1) (j1 - 1)
      (by rw [swap_length]; omega) (by omega) (by omega) (by omega) (by omega)
      (by
        intro k hk1 hk2
        rw [hsw, hra]
        by_cases hki : k = i1
        · subst hki
          rw [tr_left]
          exact htrue
        · rw [tr_of_ne _ _ _ hki (by omega)]
          exact s3 k (by omega) (by omega))
      (by
        intro k hk1 hk2
        rw [hsw, hra]
        by_cases hkj : k = j1
        · subst hkj
          rw [tr_right]
          exact hfalse
        · rw [tr_of_ne _ _ _ (by omega) hkj]
          exact t3 k (by omega) (by omega))
    obtain ⟨r1, r2, r3, r4, r5⟩ := hloop
    generalize partitionLoop less a (b - a) (swap d1 i1 j1) (i1 + 1) (j1 - 1) = r at r1 r2 r3 r4 r5 ⊢
    have hlenr : r.1.length = d.length := by
      rw [r1.length_eq, swap_length, hlen1]
    have hfin := partition_final less a b r.2 r.1 (by omega) r2 r3 r4 r5
    dsimp only
    exact ⟨hr1.trans (hr2.trans ((r1.mono (by omega) (le_refl b)).trans hfin.1)), r2, r3,
      hfin.2.1, hfin.2.2⟩

end Partition

/-! ## `partitionEqual_func` -/

section PartitionEqual

variable {α : Type}

theorem skipNotGreater_spec (less : α → α → Bool) (d : List α) (a fuel i j : Nat)
    (hf : j + 1 ≤ fuel + i) :
    i ≤ skipNotGreater less d a fuel i j ∧ skipNotGreater less d a fuel i j ≤ max i (j + 1) ∧
    (∀ k, i ≤ k → k < skipNotGreater less d a fuel i j → lessAt less d a k = false) ∧
    (skipNotGreater less d a fuel i j ≤ j →
      lessAt less d a (skipNotGreater less d a fuel i j) = true) := by
  induction fuel generalizing i with
  | zero =>
    simp only [skipNotGreater]
    refine ⟨le_refl _, by omega, fun k h1 h2 => by omega, fun h => by omega⟩
  | succ f ih =>
    rw [skipNotGreater]
    split
    · rename_i hc
      obtain ⟨h1, h2, h3, h4⟩ := ih (i + 1) (by omega)
      refine ⟨by omega, by omega, ?_, h4⟩
      intro k hk1 hk2
      by_cases hki : k = i
      · subst hki
        exact hc.2
      · exact h3 k (by omega) hk2
    · rename_i hc
      refine ⟨le_refl _, by omega, fun k h1 h2 => by omega, fun h => ?_⟩
      by_contra hne
      exact hc ⟨h, by simpa using hne⟩

theorem skipGreater_spec (less : α → α → Bool) (d : List α) (a fuel i j : Nat)
    (hi : 1 ≤ i) (hf : j + 1 ≤ fuel + i) :
    skipGreater less d a fuel i j ≤ j ∧ (i ≤ j + 1 → i ≤ skipGreater less d a fuel i j + 1) ∧
    (∀ k, skipGreater less d a fuel i j < k → k ≤ j → lessAt less d a k = true) ∧
    (i ≤ skipGreater less d a fuel i j →
      lessAt less d a (skipGreater less d a fuel i j) = false) := by
  induction fuel generalizing j with
  | zero =>
    simp only [skipGreater]
    refine ⟨le_refl _, fun h => by omega, fun k h1 h2 => by omega, fun h => by omega⟩
  | succ f ih =>
    rw [skipGreater]
    split
    · rename_i hc
      obtain ⟨h1, h2, h3, h4⟩ := ih (j - 1) (by omega)
      refine ⟨by omega, fun _ => by omega, ?_, h4⟩
      intro k hk1 hk2
      by_cases hkj : k = j
      · subst hkj
        exact hc.2
      · exact h3 k hk1 (by omega)
    · rename_i hc
      refine ⟨le_refl _, fun h => by omega, fun k h1 h2 => by omega, fun h => ?_⟩
      by_contra hne
      exact hc ⟨h, by simpa using hne⟩

theorem partitionEqualLoop_spec (less : α → α → Bool) (a b fuel : Nat) (d : List α) (i j : Nat)
    (hb : b ≤ d.length) (ha : a < i) (hij : i ≤ j + 1) (hj : j < b)
    (hfuel : j + 2 ≤ fuel + i)
    (hL : ∀ k, a < k → k < i → lessAt less d a k = false)
    (hR : ∀ k, j < k → k < b → lessAt less d a k = true) :
    Rearranged (a + 1) b d (partitionEqualLoop less a fuel d i j).1 ∧
    a < (partitionEqualLoop less a fuel d i j).2 ∧ (partitionEqualLoop less a fuel d i j).2 ≤ b ∧
    (∀ k, a < k → k < (partitionEqualLoop less a fuel d i j).2 →
      lessAt less (partitionEqualLoop less a fuel d i j).1 a k = false) ∧
    (∀ k, (partitionEqualLoop less a fuel d i j).2 ≤ k → k < b →
      lessAt less (partitionEqualLoop less a fuel d i j).1 a k = true) := by
  induction fuel generalizing d i j with
  | zero => omega
  | succ f ih =>
    rw [partitionEqualLoop]
    obtain ⟨s1, s2, s3, s4⟩ := skipNotGreater_spec less d a (j + 1) i j (by omega)
    generalize skipNotGreater less d a (j + 1) i j = i' at s1 s2 s3 s4 ⊢
    obtain ⟨t1, t2, t3, t4⟩ := skipGreater_spec less d a (j + 1) i' j (by omega) (by omega)
    generalize skipGreater less d a (j + 1) i' j = j' at t1 t2 t3 t4 ⊢
    have hi'le : i' ≤ j + 1 := by omega
    split
    · rename_i hgt
      refine ⟨Rearranged.refl _ _ _, by omega, by omega, ?_, ?_⟩
      · intro k hk1 hk2
        by_cases hki : k < i
        · exact hL k hk1 hki
        · exact s3 k (by omega) (by omega)
      · intro k hk1 hk2
        by_cases hkj : j < k
        · exact hR k hkj hk2
        · exact t3 k (by omega) (by omega)
    · rename_i hle
      have hle' : i' ≤ j' := by omega
      have htrue := s4 (by omega)
      have hfalse := t4 hle'
      have hne : i' ≠ j' := by
        intro h
        rw [h, hfalse] at htrue
        exact absurd htrue (by simp)
      have hi'len : i' < d.length := by omega
      have hj'len : j' < d.length := by omega
      have hsw : ∀ k l, lessAt less (swap d i' j') k l = lessAt less d (tr i' j' k) (tr i' j' l) :=
        fun k l => lessAt_swap less d i' j' k l hi'len hj'len
      have hra : tr i' j' a = a := tr_of_ne _ _ _ (by omega) (by omega)
      have hrec := ih (swap d i' j') (i' + 1) (j' - 1) (by rw [swap_length]; exact hb)
        (by omega) (by omega) (by omega) (by omega)
        (by
          intro k hk1 hk2
          rw [hsw, hra]
          by_cases hki : k = i'
          · subst hki
            rw [tr_left]
            exact hfalse
          · rw [tr_of_ne _ _ _ hki (by omega)]
            by_cases hki2 : k < i
            · exact hL k hk1 hki2
            · exact s3 k (by omega) (by omega))
        (by
          intro k hk1 hk2
          rw [hsw, hra]
          by_cases hkj : k = j'
          · subst hkj
            rw [tr_right]
            exact htrue
          · rw [tr_of_ne _ _ _ (by omega) hkj]
            by_cases hkj2 : j < k
            · exact hR k hkj2 hk2
            · exact t3 k (by omega) (by omega))
      obtain ⟨r1, r2, r3, r4, r5⟩ := hrec
      exact ⟨(Rearranged.swap (a + 1) b d i' j' hb (by omega) (by omega) (by omega)
        (by omega)).trans r1, r2, r3, r4, r5⟩

theorem partitionEqual_func_spec (less : α → α → Bool) (d : List α) (a b pivot : Nat)
    (hb : b ≤ d.length) (hp1 : a ≤ pivot) (hp2 : pivot < b) :
    Rearranged a b d (partitionEqual_func less d a b pivot).1 ∧
    a < (partitionEqual_func less d a b pivot).2 ∧ (partitionEqual_func less d a b pivot).2 ≤ b ∧
    (partitionEqual_func less d a b pivot).1[a]? = d[pivot]? ∧
    (∀ k, a < k → k < (partitionEqual_func less d a b pivot).2 →
      lessAt less (partitionEqual_func less d a b pivot).1 a k = false) ∧
    (∀ k, (partitionEqual_func less d a b pivot).2 ≤ k → k < b →
      lessAt less (partitionEqual_func less d a b pivot).1 a k = true) := by
  unfold partitionEqual_func
  have hr1 : Rearranged a b d (swap d a pivot) :=
    Rearranged.swap a b d a pivot hb (le_refl a) (by omega) hp1 hp2
  have hlen1 : (swap d a pivot).length = d.length := swap_length d a pivot
  have hpiv : (swap d a pivot)[a]? = d[pivot]? := by
    rw [getElem?_swap d a pivot a (by omega) (by omega), tr_left]
  generalize swap d a pivot = d1 at hr1 hlen1 hpiv ⊢
  obtain ⟨r1, r2, r3, r4, r5⟩ := partitionEqualLoop_spec less a b (b - a + 1) d1 (a + 1) (b - 1)
    (by omega) (by omega) (by omega) (by omega) (by omega) (fun k h1 h2 => by omega)
    (fun k h1 h2 => by omega)
  refine ⟨hr1.trans (r1.mono (by omega) (le_refl b)), r2, r3, ?_, r4, r5⟩
  rw [r1.2.1 a (by omega)]
  exact hpiv

end PartitionEqual

/-! ## `choosePivot_func`, `reverseRange_func`, `breakPatterns_func` -/

section PivotAndPatterns

variable {α : Type}

theorem order2_func_mem (less : α → α → Bool) (d : List α) (x y s : Nat) :
    ((order2_func less d x y s).1 = x ∧ (order2_func less d x y s).2.1 = y) ∨
    ((order2_func less d x y s).1 = y ∧ (order2_func less d x y s).2.1 = x) := by
  unfold order2_func
  split
  · exact Or.inr ⟨rfl, rfl⟩
  · exact Or.inl ⟨rfl, rfl⟩

theorem median_func_mem (less : α → α → Bool) (d : List α) (x y z s : Nat) :
    (median_func less d x y z s).1 = x ∨ (median_func less d x y z s).1 = y ∨
    (median_func less d x y z s).1 = z := by
  unfold median_func
  dsimp only
  have h1 := order2_func_mem less d x y s
  generalize order2_func less d x y s = r1 at h1 ⊢
  have h2 := order2_func_mem less d r1.2.1 z r1.2.2
  generalize order2_func less d r1.2.1 z r1.2.2 = r2 at h2 ⊢
  have h3 := order2_func_mem less d r1.1 r2.1 r2.2.2
  generalize order2_func less d r1.1 r2.1 r2.2.2 = r3 at h3 ⊢
  rcases h1 with ⟨a1, a2⟩ | ⟨a1, a2⟩ <;> rcases h2 with ⟨b1, b2⟩ | ⟨b1, b2⟩ <;>
    rcases h3 with ⟨c1, c2⟩ | ⟨c1, c2⟩ <;> simp_all

theorem median_func_range (less : α → α → Bool) (d : List α) (x y z s lo hi : Nat)
    (hx : lo ≤ x ∧ x < hi) (hy : lo ≤ y ∧ y < hi) (hz : lo ≤ z ∧ z < hi) :
    lo ≤ (median_func less d x y z s).1 ∧ (median_func less d x y z s).1 < hi := by
  rcases median_func_mem less d x y z s with h | h | h <;> rw [h] <;> assumption

theorem choosePivot_func_range (less : α → α → Bool) (d : List α) (a b : Nat)
    (h : 8 ≤ b - a) :
    a ≤ (choosePivot_func less d a b).1 ∧ (choosePivot_func less d a b).1 < b := by
  have hq : (b - a) / 4 * 4 ≤ b - a := Nat.div_mul_le_self (b - a) 4
  have hq2 : 2 ≤ (b - a) / 4 := by omega
  unfold choosePivot_func
  dsimp only
  split_ifs <;> dsimp only <;>
    first
    | (apply median_func_range <;> omega)
    | (apply median_func_range <;> unfold medianAdjacent_func <;>
        apply median_func_range <;> omega)

theorem reverseLoop_spec (a b fuel : Nat) (d : List α) (i j : Nat) (hb : b ≤ d.length)
    (hi : a ≤ i) (hj : j < b) : Rearranged a b d (reverseLoop fuel d i j) := by
  induction fuel generalizing d i j with
  | zero => exact Rearranged.refl _ _ _
  | succ f ih =>
    rw [reverseLoop]
    split
    · rename_i hlt
      exact (Rearranged.swap a b d i j hb hi (by omega) (by omega) hj).trans
        (ih (swap d i j) (i + 1) (j - 1) (by rw [swap_length]; exact hb) (by omega) (by omega))
    · exact Rearranged.refl _ _ _

theorem reverseRange_func_spec (d : List α) (a b : Nat) (hb : b ≤ d.length) (hab : a < b) :
    Rearranged a b d (reverseRange_func d a b) :=
  reverseLoop_spec a b _ d a (b - 1) hb (le_refl a) (by omega)

theorem bitsLen_pow (n : Nat) (h : n ≠ 0) : 2 ^ bitsLen n ≤ 2 * n := by
  unfold bitsLen
  rw [if_neg h, pow_succ]
  have := Nat.log2_self_le h
  omega

theorem breakLoop_spec (a b length modulus idx fuel i random : Nat) (d : List α)
    (hb : b ≤ d.length) (hlen : a + length = b) (hmod : modulus ≤ 2 * length)
    (hmod0 : ∃ n, modulus = 2 ^ n)
    (hidx1 : a + 1 ≤ idx) (hidx2 : idx + 2 ≤ b) (hfi : fuel + i ≤ 3) :
    Rearranged a b d (breakLoop a length modulus idx fuel i random d) := by
  induction fuel generalizing i random d with
  | zero => exact Rearranged.refl _ _ _
  | succ f ih =>
    rw [breakLoop]
    generalize xorshiftNext random = rnd
    obtain ⟨n, hn⟩ := hmod0
    have hand : rnd &&& (modulus - 1) < modulus := by
      rw [hn]
      exact Nat.and_lt_two_pow rnd (by have := Nat.two_pow_pos n; omega)
    generalize rnd &&& (modulus - 1) = other at hand ⊢
    have hother : (if other ≥ length then other - length else other) < length := by
      split <;> omega
    generalize (if other ≥ length then other - length else other) = other' at hother ⊢
    exact (Rearranged.swap a b d (idx - 1 + i) (a + other') hb (by omega) (by omega) (by omega)
      (by omega)).trans
      (ih (i + 1) rnd (swap d (idx - 1 + i) (a + other')) (by rw [swap_length]; exact hb)
        (by omega))

theorem breakPatterns_func_spec (d : List α) (a b : Nat) (hb : b ≤ d.length) (hab : a ≤ b) :
    Rearranged a b d (breakPatterns_func d a b) := by
  unfold breakPatterns_func
  dsimp only
  split
  · rename_i h8
    have hq : (b - a) / 4 * 4 ≤ b - a := Nat.div_mul_le_self (b - a) 4
    have hq2 : 2 ≤ (b - a) / 4 := by omega
    exact breakLoop_spec a b (b - a) (2 ^ bitsLen (b - a)) (a + (b - a) / 4 * 2 - 1) 3 0 (b - a) d
      hb (by omega) (bitsLen_pow _ (by omega)) ⟨_, rfl⟩ (by omega) (by omega)
      (by omega)
  · exact Rearranged.refl _ _ _

end PivotAndPatterns

/-! ## `insertionSort_func` on a range -/

section InsertionRange

variable {α : Type}

theorem SortedOn.of_frame (less : α → α → Bool) (d d' : List α) (a b : Nat)
    (h : SortedOn less d a b) (hsame : ∀ k, a ≤ k → k < b → d'[k]? = d[k]?) :
    SortedOn less d' a b := by
  intro i j hi hij hj
  rw [lessAt_congr less d d' j i j i (hsame j (by omega) hj) (hsame i hi (by omega))]
  exact h i j hi hij hj

theorem insertionInner_spec (less : α → α → Bool) (sw : StrictWeak less) (a J j : Nat)
    (d : List α) (hJ : J < d.length) (haj : a ≤ j) (hjJ : j ≤ J)
    (h1 : SortedOn less d a j) (h2 : SortedOn less d j (J + 1))
    (h3 : ∀ i k, a ≤ i → i < j → j < k → k ≤ J → lessAt less d k i = false) :
    Rearranged a (J + 1) d (insertionInner less a j d) ∧
    SortedOn less (insertionInner less a j d) a (J + 1) := by
  induction j generalizing d with
  | zero =>
    rw [insertionInner]
    refine ⟨Rearranged.refl _ _ _, ?_⟩
    have : a = 0 := by omega
    subst this
    exact h2
  | succ j ih =>
    rw [insertionInner]
    split
    · rename_i hc
      have hlt := hc.2
      have hsw : ∀ k l, lessAt less (swap d (j + 1) j) k l =
          lessAt less d (tr (j + 1) j k) (tr (j + 1) j l) :=
        fun k l => lessAt_swap less d (j + 1) j k l (by omega) (by omega)
      have hrec := ih (swap d (j + 1) j) (by rw [swap_length]; exact hJ) (by omega) (by omega)
        (by
          intro i k hi hik hk
          rw [hsw, tr_eq (j + 1) j k k (by omega), tr_eq (j + 1) j i i (by omega)]
          exact h1 i k hi hik (by omega))
        (by
          intro i k hi hik hk
          rw [hsw]
          by_cases hij : i = j
          · by_cases hkj : k = j + 1
            · rw [tr_eq (j + 1) j k j (by omega), tr_eq (j + 1) j i (j + 1) (by omega)]
              rcases lessAt_total less sw d (j + 1) j with h | h
              · rw [hlt] at h
                exact absurd h (by simp)
              · exact h
            · rw [tr_eq (j + 1) j k k (by omega), tr_eq (j + 1) j i (j + 1) (by omega)]
              exact h2 (j + 1) k (le_refl _) (by omega) hk
          · by_cases hij1 : i = j + 1
            · rw [tr_eq (j + 1) j k k (by omega), tr_eq (j + 1) j i j (by omega)]
              exact h3 j k (by omega) (by omega) (by omega) (by omega)
            · rw [tr_eq (j + 1) j k k (by omega), tr_eq (j + 1) j i i (by omega)]
              exact h2 i k (by omega) hik hk)
        (by
          intro i k hi hij hjk hk
          rw [hsw]
          by_cases hkj : k = j + 1
          · rw [tr_eq (j + 1) j k j (by omega), tr_eq (j + 1) j i i (by omega)]
            exact h1 i j hi hij (by omega)
          · rw [tr_eq (j + 1) j k k (by omega), tr_eq (j + 1) j i i (by omega)]
            exact h3 i k hi (by omega) (by omega) hk)
      exact ⟨(Rearranged.swap a (J + 1) d (j + 1) j (by omega) (by omega) (by omega) (by omega)
        (by omega)).trans hrec.1, hrec.2⟩
    · rename_i hc
      refine ⟨Rearranged.refl _ _ _, ?_⟩
      intro i k hi hik hk
      by_cases hk1 : k < j + 1
      · exact h1 i k hi hik hk1
      · by_cases hi1 : j + 1 ≤ i
        · exact h2 i k hi1 hik hk
        · by_cases hkj : k = j + 1
          · subst hkj
            have hstop : lessAt less d (j + 1) j = false := by
              by_contra hne
              exact hc ⟨by omega, by simpa using hne⟩
            by_cases hij : i = j
            · subst hij
              exact hstop
            · exact lessAt_trans_false less sw d (j + 1) j i (by omega) hstop
                (h1 i j hi (by omega) (by omega))
          · exact h3 i k hi (by omega) (by omega) (by omega)

theorem insertionOuter_spec (less : α → α → Bool) (sw : StrictWeak less) (a b fuel i : Nat)
    (d : List α) (hb : b ≤ d.length) (hai : a < i) (hfuel : b ≤ fuel + i)
    (h1 : SortedOn less d a i) :
    Rearranged a b d (insertionOuter less a b fuel i d) ∧
    SortedOn less (insertionOuter less a b fuel i d) a b := by
  induction fuel generalizing i d with
  | zero =>
    rw [insertionOuter]
    refine ⟨Rearranged.refl _ _ _, ?_⟩
    intro x y hx hxy hy
    exact h1 x y hx hxy (by omega)
  | succ f ih =>
    rw [insertionOuter]
    split
    · rename_i hlt
      have hin := insertionInner_spec less sw a i i d (by omega) (by omega) (le_refl i) h1
        (fun x y hx hxy hy => by omega) (fun x y hx hxi hiy hy => by omega)
      have hrec := ih (i + 1) (insertionInner less a i d)
        (by rw [hin.1.length_eq]; exact hb) (by omega) (by omega) hin.2
      exact ⟨(hin.1.mono (le_refl a) (by omega)).trans hrec.1, hrec.2⟩
    · refine ⟨Rearranged.refl _ _ _, ?_⟩
      intro x y hx hxy hy
      exact h1 x y hx hxy (by omega)

theorem insertionSort_func_spec (less : α → α → Bool) (sw : StrictWeak less) (d : List α)
    (a b : Nat) (hb : b ≤ d.length) :
    Rearranged a b d (insertionSort_func less d a b) ∧
    SortedOn less (insertionSort_func less d a b) a b :=
  insertionOuter_spec less sw a b (b - a) (a + 1) d hb (by omega) (by omega)
    (fun x y hx hxy hy => by omega)

end InsertionRange

/-! ## `partialInsertionSort_func` -/

section PartialInsertion

variable {α : Type}

theorem AfterPred.of_rearranged (less : α → α → Bool) (d d' : List α) (a b : Nat)
    (h : AfterPred less d a b) (hr : Rearranged a b d d') : AfterPred less d' a b := by
  intro ha k hk1 hk2
  obtain ⟨k', h1, h2, he, _⟩ := hr.lessAt_left less k (a - 1) hk1 hk2 (Or.inl (by omega))
  rw [he]
  exact h ha k' h1 h2

theorem AfterPred.sub (less : α → α → Bool) (d : List α) (a b b' : Nat)
    (h : AfterPred less d a b) (hb : b' ≤ b) : AfterPred less d a b' :=
  fun ha k hk1 hk2 => h ha k hk1 (by omega)

theorem skipOrdered_spec (less : α → α → Bool) (d : List α) (b fuel i : Nat)
    (hf : b ≤ fuel + i) :
    i ≤ skipOrdered less d b fuel i ∧ skipOrdered less d b fuel i ≤ max i b ∧
    (∀ k, i ≤ k → k < skipOrdered less d b fuel i → lessAt less d k (k - 1) = false) ∧
    (skipOrdered less d b fuel i < b →
      lessAt less d (skipOrdered less d b fuel i) (skipOrdered less d b fuel i - 1) = true) := by
  induction fuel generalizing i with
  | zero =>
    simp only [skipOrdered]
    refine ⟨le_refl _, by omega, fun k h1 h2 => by omega, fun h => by omega⟩
  | succ f ih =>
    rw [skipOrdered]
    split
    · rename_i hc
      obtain ⟨h1, h2, h3, h4⟩ := ih (i + 1) (by omega)
      refine ⟨by omega, by omega, ?_, h4⟩
      intro k hk1 hk2
      by_cases hki : k = i
      · subst hki
        exact hc.2
      · exact h3 k (by omega) hk2
    · rename_i hc
      refine ⟨le_refl _, by omega, fun k h1 h2 => by omega, fun h => ?_⟩
      by_contra hne
      exact hc ⟨h, by simpa using hne⟩

theorem SortedOn.extend (less : α → α → Bool) (sw : StrictWeak less) (d : List α)
    (a i r : Nat) (hr : r ≤ d.length) (h : SortedOn less d a i)
    (hadj : ∀ k, i ≤ k → k < r → lessAt less d k (k - 1) = false) : SortedOn less d a r := by
  have key : ∀ y, y < r → ∀ x, a ≤ x → x < y → lessAt less d y x = false := by
    intro y
    induction y with
    | zero => intro _ x _ hx; omega
    | succ y ih =>
      intro hy x hx hxy
      by_cases hyi : y + 1 < i
      · exact h x (y + 1) hx hxy hyi
      · have h1 := hadj (y + 1) (by omega) hy
        simp only [Nat.add_sub_cancel] at h1
        by_cases hxy' : x = y
        · subst hxy'
          exact h1
        · exact lessAt_trans_false less sw d (y + 1) y x (by omega) h1
            (ih (by omega) x hx (by omega))
  intro x y hx hxy hy
  exact key y hy x hx hxy

theorem shiftLeft_eq (less : α → α → Bool) (a j : Nat) (d : List α) (hj : j + 1 < d.length)
    (haj : a ≤ j) (hpred : 0 < a → lessAt less d j (a - 1) = false) :
    shiftLeft less j d = insertionInner less a j d := by
  induction j generalizing d with
  | zero => rfl
  | succ j ih =>
    rw [shiftLeft, insertionInner]
    by_cases hja : j + 1 > a
    · by_cases hc : lessAt less d (j + 1) j = true
      · rw [if_pos hc, if_pos ⟨hja, hc⟩]
        apply ih _ (by rw [swap_length]; omega) (by omega)
        intro ha
        rw [lessAt_swap less d (j + 1) j _ _ (by omega) (by omega),
          tr_eq (j + 1) j j (j + 1) (by omega), tr_eq (j + 1) j (a - 1) (a - 1) (by omega)]
        exact hpred ha
      · rw [if_neg hc, if_neg (fun h => hc h.2)]
    · have hja' : a = j + 1 := by omega
      have := hpred (by omega)
      rw [hja'] at this
      simp only [Nat.add_sub_cancel] at this
      rw [if_neg (by rw [this]; simp), if_neg (fun h => hja h.1)]

theorem shiftRight_spec (less : α → α → Bool) (a b fuel j : Nat) (d : List α)
    (hb : b ≤ d.length) (haj : a < j) : Rearranged a b d (shiftRight less b fuel j d) := by
  induction fuel generalizing j d with
  | zero => exact Rearranged.refl _ _ _
  | succ f ih =>
    rw [shiftRight]
    split
    · split
      · exact (Rearranged.swap a b d j (j - 1) hb (by omega) (by omega) (by omega)
          (by omega)).trans
          (ih (j + 1) (swap d j (j - 1)) (by rw [swap_length]; exact hb) (by omega))
      · exact Rearranged.refl _ _ _
    · exact Rearranged.refl _ _ _

theorem partialInsertionLoop_spec (less : α → α → Bool) (sw : StrictWeak less)
    (a b steps i : Nat) (d : List α) (hb : b ≤ d.length) (hai : a < i) (hib : i ≤ b)
    (hsorted : SortedOn less d a i) (hpred : AfterPred less d a b) :
    Rearranged a b d (partialInsertionLoop less a b steps i d).1 ∧
    ((partialInsertionLoop less a b steps i d).2 = true →
      SortedOn less (partialInsertionLoop less a b steps i d).1 a b) := by
  induction steps generalizing i d with
  | zero =>
    rw [partialInsertionLoop]
    exact ⟨Rearranged.refl _ _ _, fun h => by simp at h⟩
  | succ n ih =>
    rw [partialInsertionLoop]
    obtain ⟨s1, s2, s3, s4⟩ := skipOrdered_spec less d b (b - a) i (by omega)
    generalize skipOrdered less d b (b - a) i = r at s1 s2 s3 s4 ⊢
    have hrb : r ≤ b := by omega
    have hsr : SortedOn less d a r := SortedOn.extend less sw d a i r (by omega) hsorted s3
    dsimp only
    split
    · rename_i hrb'
      subst hrb'
      exact ⟨Rearranged.refl _ _ _, fun _ => hsr⟩
    · rename_i hne
      split
      · exact ⟨Rearranged.refl _ _ _, fun h => by simp at h⟩
      · have hrlt : r < b := by omega
        -- the swap of the pair that is out of order
        have hr1 : Rearranged a b d (swap d r (r - 1)) :=
          Rearranged.swap a b d r (r - 1) hb (by omega) hrlt (by omega) (by omega)
        have hlen1 : (swap d r (r - 1)).length = d.length := swap_length _ _ _
        have hs1 : SortedOn less (swap d r (r - 1)) a (r - 1) := by
          intro x y hx hxy hy
          rw [lessAt_swap less d r (r - 1) _ _ (by omega) (by omega),
            tr_eq r (r - 1) y y (by omega), tr_eq r (r - 1) x x (by omega)]
          exact hsr x y hx hxy (by omega)
        have hp1 : AfterPred less (swap d r (r - 1)) a b :=
          AfterPred.of_rearranged less d _ a b hpred hr1
        generalize swap d r (r - 1) = d1 at hr1 hlen1 hs1 hp1 ⊢
        -- the smaller element is shifted to the left
        have hleft : Rearranged a r d1 (if r - a ≥ 2 then shiftLeft less (r - 1) d1 else d1) ∧
            SortedOn less (if r - a ≥ 2 then shiftLeft less (r - 1) d1 else d1) a r := by
          split
          · rw [shiftLeft_eq less a (r - 1) d1 (by omega) (by omega)
              (fun ha => hp1 ha (r - 1) (by omega) (by omega))]
            have := insertionInner_spec less sw a (r - 1) (r - 1) d1 (by omega) (by omega)
              (le_refl _) hs1 (fun x y hx hxy hy => by omega)
              (fun x y hx hxi hiy hy => by omega)
            rw [show r - 1 + 1 = r by omega] at this
            exact this
          · refine ⟨Rearranged.refl _ _ _, ?_⟩
            intro x y hx hxy hy
            omega
        generalize (if r - a ≥ 2 then shiftLeft less (r - 1) d1 else d1) = d2 at hleft ⊢
        have hlen2 : d2.length = d.length := by rw [hleft.1.length_eq, hlen1]
        -- the greater element is shifted to the right
        have hright : Rearranged r b d2
            (if b - r ≥ 2 then shiftRight less b (b - a) (r + 1) d2 else d2) := by
          split
          · exact shiftRight_spec less r b (b - a) (r + 1) d2 (by omega) (by omega)
          · exact Rearranged.refl _ _ _
        generalize (if b - r ≥ 2 then shiftRight less b (b - a) (r + 1) d2 else d2) = d3
          at hright ⊢
        have hr13 : Rearranged a b d d3 :=
          hr1.trans ((hleft.1.mono (le_refl a) (by omega)).trans
            (hright.mono (by omega) (le_refl b)))
        have hs3 : SortedOn less d3 a r :=
          SortedOn.of_frame less d2 d3 a r hleft.2
            (fun k hk1 hk2 => hright.2.1 k (Or.inl hk2))
        have hrec := ih r d3 (by rw [hr13.length_eq]; exact hb) (by omega) hrb hs3
          (AfterPred.of_rearranged less d d3 a b hpred hr13)
        exact ⟨hr13.trans hrec.1, hrec.2⟩

theorem partialInsertionSort_func_spec (less : α → α → Bool) (sw : StrictWeak less)
    (d : List α) (a b : Nat) (hb : b ≤ d.length) (hab : a < b)
    (hpred : AfterPred less d a b) :
    Rearranged a b d (partialInsertionSort_func less d a b).1 ∧
    ((partialInsertionSort_func less d a b).2 = true →
      SortedOn less (partialInsertionSort_func less d a b).1 a b) :=
  partialInsertionLoop_spec less sw a b 5 (a + 1) d hb (by omega) (by omega)
    (fun x y hx hxy hy => by omega) hpred

end PartialInsertion

/-! ## `heapSort_func` -/

section HeapSort

variable {α : Type}

/-- The child that `siftDown_func` compares the root with is not before the other
child. -/
theorem siftDown_child (less : α → α → Bool) (sw : StrictWeak less) (hi first root : Nat)
    (d : List α) (hc : 2 * root + 1 < hi) :
    ∃ child, (if 2 * root + 1 + 1 < hi ∧
          lessAt less d (first + (2 * root + 1)) (first + (2 * root + 1) + 1) = true
        then 2 * root + 1 + 1 else 2 * root + 1) = child ∧
      (child = 2 * root + 1 ∨ child = 2 * root + 2) ∧ child < hi ∧
      ∀ c, c < hi → (c = 2 * root + 1 ∨ c = 2 * root + 2) →
        lessAt less d (first + child) (first + c) = false := by
  by_cases hcond : 2 * root + 1 + 1 < hi ∧
      lessAt less d (first + (2 * root + 1)) (first + (2 * root + 1) + 1) = true
  · refine ⟨2 * root + 2, by rw [if_pos hcond], Or.inr rfl, by omega, ?_⟩
    intro c hc1 hc2
    rcases hc2 with h | h
    · subst h
      rcases lessAt_total less sw d (first + (2 * root + 1)) (first + (2 * root + 1) + 1)
        with h' | h'
      · rw [hcond.2] at h'
        exact absurd h' (by simp)
      · exact h'
    · subst h
      exact lessAt_irrefl less sw d _
  · refine ⟨2 * root + 1, by rw [if_neg hcond], Or.inl rfl, hc, ?_⟩
    intro c hc1 hc2
    rcases hc2 with h | h
    · subst h
      exact lessAt_irrefl less sw d _
    · subst h
      by_contra hne
      exact hcond ⟨by omega, by
        have : lessAt less d (first + (2 * root + 1)) (first + (2 * root + 2)) = true := by
          simpa using hne
        exact this⟩

theorem siftDown_func_spec (less : α → α → Bool) (sw : StrictWeak less)
    (hi first lo fuel root : Nat) (d : List α) (hlen : first + hi ≤ d.length)
    (hlo : lo ≤ root) (hfuel : hi ≤ fuel + root)
    (hA : ∀ p c, lo ≤ p → p ≠ root → c < hi → (c = 2 * p + 1 ∨ c = 2 * p + 2) →
      lessAt less d (first + p) (first + c) = false)
    (hB : ∀ q c, lo ≤ q → (root = 2 * q + 1 ∨ root = 2 * q + 2) → c < hi →
      (c = 2 * root + 1 ∨ c = 2 * root + 2) → lessAt less d (first + q) (first + c) = false) :
    Rearranged (first + root) (first + hi) d (siftDown_func less hi first fuel root d) ∧
    (∀ p c, lo ≤ p → c < hi → (c = 2 * p + 1 ∨ c = 2 * p + 2) →
      lessAt less (siftDown_func less hi first fuel root d) (first + p) (first + c) = false) := by
  induction fuel generalizing root d with
  | zero =>
    rw [siftDown_func]
    refine ⟨Rearranged.refl _ _ _, ?_⟩
    intro p c hp hc hpc
    exact hA p c hp (by omega) hc hpc
  | succ f ih =>
    rw [siftDown_func]
    dsimp only
    split
    · rename_i hge
      refine ⟨Rearranged.refl _ _ _, ?_⟩
      intro p c hp hc hpc
      exact hA p c hp (by omega) hc hpc
    · rename_i hlt
      obtain ⟨child, hchild, hch1, hch2, hch3⟩ :=
        siftDown_child less sw hi first root d (by omega)
      rw [hchild]
      split
      · rename_i hless
        have hsw : ∀ k l, lessAt less (swap d (first + root) (first + child)) k l =
            lessAt less d (tr (first + root) (first + child) k)
              (tr (first + root) (first + child) l) :=
          fun k l => lessAt_swap less d _ _ k l (by omega) (by omega)
        have hrec := ih child (swap d (first + root) (first + child))
          (by rw [swap_length]; exact hlen) (by omega) (by omega)
          (by
            intro p c hp hpne hc hpc
            rw [hsw]
            by_cases hpr : p = root
            · subst hpr
              by_cases hcc : c = child
              · subst hcc
                rw [tr_eq _ _ (first + p) (first + c) (by omega),
                  tr_eq _ _ (first + c) (first + p) (by omega)]
                rcases lessAt_total less sw d (first + p) (first + c) with h | h
                · rw [hless] at h
                  exact absurd h (by simp)
                · exact h
              · rw [tr_eq _ _ (first + p) (first + child) (by omega),
                  tr_eq _ _ (first + c) (first + c) (by omega)]
                exact hch3 c hc hpc
            · by_cases hcr : c = root
              · subst hcr
                rw [tr_eq _ _ (first + p) (first + p) (by omega),
                  tr_eq _ _ (first + c) (first + child) (by omega)]
                exact hB p child hp (by omega) hch2 hch1
              · rw [tr_eq _ _ (first + p) (first + p) (by omega),
                  tr_eq _ _ (first + c) (first + c) (by omega)]
                exact hA p c hp hpr hc hpc)
          (by
            intro q c hq hqc hc hcc
            have hqr : q = root := by omega
            subst hqr
            rw [hsw, tr_eq _ _ (first + q) (first + child) (by omega),
              tr_eq _ _ (first + c) (first + c) (by omega)]
            exact hA child c (by omega) (by omega) hc hcc)
        exact ⟨(Rearranged.swap (first + root) (first + hi) d (first + root) (first + child)
          hlen (le_refl _) (by omega) (by omega) (by omega)).trans
          (hrec.1.mono (by omega) (le_refl _)), hrec.2⟩
      · rename_i hnot
        have hnot' : lessAt less d (first + root) (first + child) = false := by
          simpa using hnot
        refine ⟨Rearranged.refl _ _ _, ?_⟩
        intro p c hp hc hpc
        by_cases hpr : p = root
        · subst hpr
          exact lessAt_trans_false less sw d (first + p) (first + child) (first + c) (by omega)
            hnot' (hch3 c hc hpc)
        · exact hA p c hp hpr hc hpc

theorem heapBuild_spec (less : α → α → Bool) (sw : StrictWeak less) (hi first n : Nat)
    (d : List α) (hlen : first + hi ≤ d.length)
    (hheap : ∀ p c, n ≤ p → c < hi → (c = 2 * p + 1 ∨ c = 2 * p + 2) →
      lessAt less d (first + p) (first + c) = false) :
    Rearranged first (first + hi) d (heapBuild less hi first n d) ∧
    (∀ p c, c < hi → (c = 2 * p + 1 ∨ c = 2 * p + 2) →
      lessAt less (heapBuild less hi first n d) (first + p) (first + c) = false) := by
  induction n generalizing d with
  | zero =>
    rw [heapBuild]
    exact ⟨Rearranged.refl _ _ _, fun p c hc hpc => hheap p c (Nat.zero_le _) hc hpc⟩
  | succ i ih =>
    rw [heapBuild]
    have hs := siftDown_func_spec less sw hi first i hi i d hlen (le_refl i) (by omega)
      (fun p c hp hpne hc hpc => hheap p c (by omega) hc hpc)
      (fun q c hq hqc hc hcc => by omega)
    have hrec := ih (siftDown_func less hi first hi i d)
      (by rw [hs.1.length_eq]; exact hlen) hs.2
    exact ⟨(hs.1.mono (by omega) (le_refl _)).trans hrec.1, hrec.2⟩

/-- The root of a heap is not before any of its elements. -/
theorem heap_root_max (less : α → α → Bool) (sw : StrictWeak less) (first m : Nat)
    (d : List α) (hlen : first + m ≤ d.length)
    (hheap : ∀ p c, c < m → (c = 2 * p + 1 ∨ c = 2 * p + 2) →
      lessAt less d (first + p) (first + c) = false) :
    ∀ k, k < m → lessAt less d first (first + k) = false := by
  intro k
  induction k using Nat.strong_induction_on with
  | _ k ih =>
    intro hk
    by_cases hk0 : k = 0
    · subst hk0
      exact lessAt_irrefl less sw d _
    · have hpar := hheap ((k - 1) / 2) k hk (by omega)
      have hrec := ih ((k - 1) / 2) (by omega) (by omega)
      exact lessAt_trans_false less sw d first (first + (k - 1) / 2) (first + k) (by omega)
        hrec hpar

theorem heapPop_spec (less : α → α → Bool) (sw : StrictWeak less) (first hi m : Nat)
    (d : List α) (hlen : first + hi ≤ d.length) (hm : m ≤ hi)
    (hheap : ∀ p c, c < m → (c = 2 * p + 1 ∨ c = 2 * p + 2) →
      lessAt less d (first + p) (first + c) = false)
    (hsorted : SortedOn less d (first + m) (first + hi))
    (hcross : ∀ x y, x < m → m ≤ y → y < hi → lessAt less d (first + y) (first + x) = false) :
    Rearranged first (first + hi) d (heapPop less first m d) ∧
    SortedOn less (heapPop less first m d) first (first + hi) := by
  induction m generalizing d with
  | zero =>
    rw [heapPop]
    exact ⟨Rearranged.refl _ _ _, hsorted⟩
  | succ i ih =>
    rw [heapPop]
    have hmax := heap_root_max less sw first (i + 1) d (by omega) hheap
    have hr1 : Rearranged first (first + (i + 1)) d (swap d first (first + i)) :=
      Rearranged.swap _ _ d first (first + i) (by omega) (le_refl _) (by omega) (by omega)
        (by omega)
    have hsw : ∀ k l, lessAt less (swap d first (first + i)) k l =
        lessAt less d (tr first (first + i) k) (tr first (first + i) l) :=
      fun k l => lessAt_swap less d _ _ k l (by omega) (by omega)
    have hlen1 : (swap d first (first + i)).length = d.length := swap_length _ _ _
    have hs := siftDown_func_spec less sw i first 0 i 0 (swap d first (first + i))
      (by omega) (le_refl 0) (by omega)
      (by
        intro p c hp hpne hc hpc
        rw [hsw, tr_eq _ _ (first + p) (first + p) (by omega),
          tr_eq _ _ (first + c) (first + c) (by omega)]
        exact hheap p c (by omega) hpc)
      (fun q c hq hqc hc hcc => by omega)
    generalize hd2 : siftDown_func less i first i 0 (swap d first (first + i)) = d2 at hs ⊢
    have hr2 : Rearranged first (first + i) (swap d first (first + i)) d2 := by
      have := hs.1
      simpa using this
    have hr12 : Rearranged first (first + (i + 1)) d d2 :=
      hr1.trans (hr2.mono (le_refl _) (by omega))
    have hrec := ih d2 (by rw [hr12.length_eq]; exact hlen) (by omega)
      (fun p c hc hpc => hs.2 p c (Nat.zero_le _) hc hpc)
      (by
        intro x y hx hxy hy
        -- positions from `first + i` on are those of the swapped slice
        have ey : d2[y]? = (swap d first (first + i))[y]? := hr2.2.1 y (Or.inr (by omega))
        have ex : d2[x]? = (swap d first (first + i))[x]? := hr2.2.1 x (Or.inr (by omega))
        rw [lessAt_congr less _ d2 y x y x ey ex, hsw]
        by_cases hxi : x = first + i
        · rw [tr_eq _ _ y y (by omega), tr_eq _ _ x first (by omega)]
          have := hcross 0 (y - first) (by omega) (by omega) (by omega)
          rw [show first + (y - first) = y by omega, Nat.add_zero] at this
          exact this
        · rw [tr_eq _ _ y y (by omega), tr_eq _ _ x x (by omega)]
          have := hsorted x y (by omega) hxy hy
          exact this)
      (by
        intro x y hx hiy hy
        obtain ⟨x', hx1, hx2, hex⟩ := hr2.2.2 (first + x) (by omega) (by omega)
        have ey : d2[first + y]? = (swap d first (first + i))[first + y]? :=
          hr2.2.1 (first + y) (Or.inr (by omega))
        rw [lessAt_congr less _ d2 (first + y) (first + x) (first + y) x' ey hex, hsw]
        by_cases hyi : y = i
        · -- the element at `first + i` is the old root
          rw [tr_eq _ _ (first + y) first (by omega)]
          by_cases hx0 : x' = first
          · rw [tr_eq _ _ x' (first + i) (by omega)]
            exact hmax i (by omega)
          · rw [tr_eq _ _ x' x' (by omega)]
            have := hmax (x' - first) (by omega)
            rw [show first + (x' - first) = x' by omega] at this
            exact this
        · rw [tr_eq _ _ (first + y) (first + y) (by omega)]
          by_cases hx0 : x' = first
          · rw [tr_eq _ _ x' (first + i) (by omega)]
            exact hcross i y (by omega) (by omega) hy
          · rw [tr_eq _ _ x' x' (by omega)]
            have := hcross (x' - first) y (by omega) (by omega) hy
            rw [show first + (x' - first) = x' by omega] at this
            exact this)
    exact ⟨(hr12.mono (le_refl _) (by omega)).trans hrec.1, hrec.2⟩

theorem heapSort_func_spec (less : α → α → Bool) (sw : StrictWeak less) (d : List α)
    (a b : Nat) (hb : b ≤ d.length) (hab : a ≤ b) :
    Rearranged a b d (heapSort_func less d a b) ∧
    SortedOn less (heapSort_func less d a b) a b := by
  unfold heapSort_func
  dsimp only
  have hbuild := heapBuild_spec less sw (b - a) a ((b - a - 1) / 2 + 1) d (by omega)
    (fun p c hp hc hpc => by omega)
  generalize heapBuild less (b - a) a ((b - a - 1) / 2 + 1) d = d1 at hbuild ⊢
  have hpop := heapPop_spec less sw a (b - a) (b - a) d1
    (by rw [hbuild.1.length_eq]; omega) (le_refl _) hbuild.2
    (fun x y hx hxy hy => by omega) (fun x y hx hy1 hy2 => by omega)
  rw [show a + (b - a) = b by omega] at hbuild hpop
  exact ⟨hbuild.1.trans hpop.1, hpop.2⟩

end HeapSort

/-! ## Sorted sides make a sorted range -/

section Assembly

variable {α : Type}

/-- A slice partitioned at `mid` whose two sides are sorted is sorted. -/
theorem sorted_of_partition (less : α → α → Bool) (sw : StrictWeak less) (pt out : List α)
    (a b mid : Nat) (hmid : mid < b)
    (hL : ∀ k, a ≤ k → k < mid → lessAt less pt k mid = true)
    (hR : ∀ k, mid < k → k < b → lessAt less pt k mid = false)
    (hsame : out[mid]? = pt[mid]?)
    (hleft : ∀ k, a ≤ k → k < mid → ∃ k', a ≤ k' ∧ k' < mid ∧ out[k]? = pt[k']?)
    (hright : ∀ k, mid < k → k < b → ∃ k', mid < k' ∧ k' < b ∧ out[k]? = pt[k']?)
    (hs1 : SortedOn less out a mid) (hs2 : SortedOn less out (mid + 1) b) :
    SortedOn less out a b := by
  intro i j hi hij hj
  by_cases hjm : j < mid
  · exact hs1 i j hi hij hjm
  · by_cases him : mid < i
    · exact hs2 i j (by omega) hij hj
    · by_cases hjmid : j = mid
      · subst hjmid
        obtain ⟨i', hi1, hi2, hei⟩ := hleft i hi (by omega)
        rw [lessAt_congr less pt out j i j i' hsame hei]
        rcases lessAt_total less sw pt j i' with h | h
        · exact h
        · rw [hL i' hi1 hi2] at h
          exact absurd h (by simp)
      · obtain ⟨j', hj1, hj2, hej⟩ := hright j (by omega) hj
        by_cases himid : i = mid
        · subst himid
          rw [lessAt_congr less pt out j i j' i hej hsame]
          exact hR j' hj1 hj2
        · obtain ⟨i', hi1, hi2, hei⟩ := hleft i hi (by omega)
          rw [lessAt_congr less pt out j i j' i' hej hei]
          by_contra hne
          have htrue : lessAt less pt j' i' = true := by simpa using hne
          have := lessAt_trans less sw pt j' i' mid htrue (hL i' hi1 hi2)
          rw [hR j' hj1 hj2] at this
          exact absurd this (by simp)

/-- A slice whose left part holds elements equivalent to the pivot at `a`, whose
right part holds elements the pivot is before, and whose right part is sorted, is
sorted. -/
theorem sorted_of_partitionEqual (less : α → α → Bool) (sw : StrictWeak less)
    (pe out : List α) (a b mid : Nat) (hb : b ≤ pe.length)
    (hL : ∀ k, a ≤ k → k < mid → lessAt less pe a k = false)
    (hL' : ∀ k, a ≤ k → k < mid → lessAt less pe k a = false)
    (hR : ∀ k, mid ≤ k → k < b → lessAt less pe a k = true)
    (hleft : ∀ k, k < mid → out[k]? = pe[k]?)
    (hright : ∀ k, mid ≤ k → k < b → ∃ k', mid ≤ k' ∧ k' < b ∧ out[k]? = pe[k']?)
    (hs2 : SortedOn less out mid b) : SortedOn less out a b := by
  intro i j hi hij hj
  by_cases him : mid ≤ i
  · exact hs2 i j him hij hj
  · by_cases hjm : j < mid
    · rw [lessAt_congr less pe out j i j i (hleft j hjm) (hleft i (by omega))]
      exact lessAt_trans_false less sw pe j a i (by omega) (hL' j (by omega) hjm)
        (hL i hi (by omega))
    · obtain ⟨j', hj1, hj2, hej⟩ := hright j (by omega) hj
      rw [lessAt_congr less pe out j i j' i hej (hleft i (by omega))]
      by_contra hne
      have htrue : lessAt less pe j' i = true := by simpa using hne
      have := lessAt_trans less sw pe a j' i (hR j' hj1 hj2) htrue
      rw [hL i hi (by omega)] at this
      exact absurd this (by simp)

end Assembly

/-! ## `pdqsort_func` -/

section Main

variable {α : Type}

theorem pdqsortLoop_spec (less : α → α → Bool) (sw : StrictWeak less) (fuel : Nat)
    (d : List α) (a b limit : Nat) (wb wp : Bool) (hb : b ≤ d.length) (hab : a ≤ b)
    (hfuel : b - a < fuel) (hpred : AfterPred less d a b) :
    ∃ out, pdqsortLoop less fuel d a b limit wb wp = some out ∧ Rearranged a b d out ∧
      SortedOn less out a b := by
  induction fuel generalizing d a b limit wb wp with
  | zero => omega
  | succ f ih =>
    rw [pdqsortLoop]
    by_cases h12 : b - a ≤ 12
    · rw [if_pos h12]
      exact ⟨_, rfl, insertionSort_func_spec less sw d a b hb⟩
    · rw [if_neg h12]
      by_cases hlim : limit = 0
      · rw [if_pos hlim]
        exact ⟨_, rfl, heapSort_func_spec less sw d a b hb hab⟩
      · rw [if_neg hlim]
        lift_lets
        intro d1 limit1 ph reversed d2 pivot hint pis d3 pe pt mid leftLen rightLen
          balanceThreshold
        -- the slice after `breakPatterns_func`
        have h1 : Rearranged a b d d1 := by
          simp only [d1]
          split
          · exact Rearranged.refl _ _ _
          · exact breakPatterns_func_spec d a b hb hab
        have hlen1 : d1.length = d.length := h1.length_eq
        -- the pivot
        have hph : a ≤ ph.1 ∧ ph.1 < b := choosePivot_func_range less d1 a b (by omega)
        have h2 : Rearranged a b d1 d2 := by
          simp only [d2]
          split
          · exact reverseRange_func_spec d1 a b (by omega) (by omega)
          · exact Rearranged.refl _ _ _
        have hpiv : a ≤ pivot ∧ pivot < b := by
          simp only [pivot]
          split <;> omega
        have h12' : Rearranged a b d d2 := h1.trans h2
        have hlen2 : d2.length = d.length := h12'.length_eq
        have hpred2 : AfterPred less d2 a b := AfterPred.of_rearranged less d d2 a b hpred h12'
        -- the partial insertion sort
        have h3 : Rearranged a b d2 pis.1 ∧ (pis.2 = true → SortedOn less pis.1 a b) := by
          simp only [pis]
          split
          · exact partialInsertionSort_func_spec less sw d2 a b (by omega) (by omega) hpred2
          · exact ⟨Rearranged.refl _ _ _, fun h => by simp at h⟩
        have h123 : Rearranged a b d d3 := h12'.trans h3.1
        have hlen3 : d3.length = d.length := h123.length_eq
        have hpred3 : AfterPred less d3 a b :=
          AfterPred.of_rearranged less d d3 a b hpred h123
        have hdone : pis.2 = true → SortedOn less d3 a b := h3.2
        obtain ⟨e1, e2, e3, e4, e5, e6⟩ :=
          partitionEqual_func_spec less d3 a b pivot (by omega) hpiv.1 hpiv.2
        obtain ⟨q1, q2, q3, q4, q5⟩ :=
          partition_func_spec less d3 a b pivot (by omega) hpiv.1 hpiv.2
        have hpe : pe = partitionEqual_func less d3 a b pivot := rfl
        have hpt : pt = partition_func less d3 a b pivot := rfl
        have hmid : mid = pt.2.1 := rfl
        have hleftLen : leftLen = mid - a := rfl
        have hrightLen : rightLen = b - mid := rfl
        rw [← hpe] at e1 e2 e3 e4 e5 e6
        rw [← hpt] at q1 q2 q3 q4 q5
        rw [← hmid] at q2 q3 q4 q5
        clear_value leftLen rightLen balanceThreshold mid pt pe d3 pis hint pivot d2 reversed ph
          limit1 d1
        split
        · rename_i hdone'
          exact ⟨_, rfl, h12'.trans h3.1, h3.2 hdone'⟩
        · split
          · -- elements equal to the pivot are split off
            rename_i hcond
            have hlenpe : pe.1.length = d.length := by rw [e1.length_eq, hlen3]
            have hL : ∀ k, a ≤ k → k < pe.2 → lessAt less pe.1 a k = false := by
              intro k hk1 hk2
              by_cases hka : k = a
              · subst hka
                exact lessAt_irrefl less sw pe.1 k
              · exact e5 k (by omega) hk2
            have hL' : ∀ k, a ≤ k → k < b → lessAt less pe.1 k a = false := by
              intro k hk1 hk2
              obtain ⟨k', hk1', hk2', hek⟩ := e1.2.2 k hk1 hk2
              rw [lessAt_congr less d3 pe.1 k a k' pivot hek e4]
              exact lessAt_trans_false less sw d3 k' (a - 1) pivot (by omega)
                (hpred3 hcond.1 k' hk1' hk2') hcond.2
            obtain ⟨out, ho1, ho2, ho3⟩ := ih pe.1 pe.2 b limit1 wb wp (by omega) e3 (by omega)
              (by
                intro hpos k hk1 hk2
                by_contra hne
                have htrue : lessAt less pe.1 k (pe.2 - 1) = true := by simpa using hne
                have := lessAt_trans less sw pe.1 a k (pe.2 - 1) (e6 k hk1 hk2) htrue
                rw [hL (pe.2 - 1) (by omega) (by omega)] at this
                exact absurd this (by simp))
            refine ⟨out, ho1, h123.trans (e1.trans (ho2.mono (by omega) (le_refl b))), ?_⟩
            exact sorted_of_partitionEqual less sw pe.1 out a b pe.2 (by omega) hL
              (fun k hk1 hk2 => hL' k hk1 (by omega)) e6
              (fun k hk => ho2.2.1 k (Or.inl hk)) ho2.2.2 ho3
          · -- one quicksort partition
            have hlenpt : pt.1.length = d.length := by rw [q1.length_eq, hlen3]
            have hpredpt : AfterPred less pt.1 a b :=
              AfterPred.of_rearranged less d3 pt.1 a b hpred3 q1
            split
            · -- the left side first
              obtain ⟨o1, ho1, hr1, hs1⟩ := ih pt.1 a mid limit1 true true (by omega) q2
                (by omega) (AfterPred.sub less pt.1 a b mid hpredpt (by omega))
              rw [ho1]
              dsimp only
              obtain ⟨o2, ho2, hr2, hs2⟩ := ih o1 (mid + 1) b limit1
                (decide (leftLen ≥ balanceThreshold)) pt.2.2 (by rw [hr1.length_eq]; omega)
                (by omega) (by omega)
                (by
                  intro hpos k hk1 hk2
                  simp only [Nat.add_sub_cancel]
                  rw [lessAt_congr less pt.1 o1 k mid k mid
                    (hr1.2.1 k (Or.inr (by omega))) (hr1.2.1 mid (Or.inr (le_refl _)))]
                  exact q5 k (by omega) hk2)
              refine ⟨o2, ho2, h123.trans (q1.trans ((hr1.mono (le_refl a) (by omega)).trans
                (hr2.mono (by omega) (le_refl b)))), ?_⟩
              apply sorted_of_partition less sw pt.1 o2 a b mid q3 q4 q5
              · rw [hr2.2.1 mid (Or.inl (by omega)), hr1.2.1 mid (Or.inr (le_refl _))]
              · intro k hk1 hk2
                obtain ⟨k', h1', h2', he⟩ := hr1.2.2 k hk1 hk2
                exact ⟨k', h1', h2', by rw [hr2.2.1 k (Or.inl (by omega))]; exact he⟩
              · intro k hk1 hk2
                obtain ⟨k', h1', h2', he⟩ := hr2.2.2 k (by omega) hk2
                exact ⟨k', by omega, h2', by rw [he]; exact hr1.2.1 k' (Or.inr (by omega))⟩
              · exact SortedOn.of_frame less o1 o2 a mid hs1
                  (fun k hk1 hk2 => hr2.2.1 k (Or.inl (by omega)))
              · exact hs2
            · -- the right side first
              obtain ⟨o1, ho1, hr1, hs1⟩ := ih pt.1 (mid + 1) b limit1 true true (by omega)
                (by omega) (by omega)
                (by
                  intro hpos k hk1 hk2
                  simp only [Nat.add_sub_cancel]
                  exact q5 k (by omega) hk2)
              rw [ho1]
              dsimp only
              obtain ⟨o2, ho2, hr2, hs2⟩ := ih o1 a mid limit1
                (decide (rightLen ≥ balanceThreshold)) pt.2.2 (by rw [hr1.length_eq]; omega)
                q2 (by omega)
                (AfterPred.sub less o1 a b mid
                  (AfterPred.of_rearranged less pt.1 o1 a b hpredpt
                    (hr1.mono (by omega) (le_refl b))) (by omega))
              refine ⟨o2, ho2, h123.trans (q1.trans ((hr1.mono (by omega) (le_refl b)).trans
                (hr2.mono (le_refl a) (by omega)))), ?_⟩
              apply sorted_of_partition less sw pt.1 o2 a b mid q3 q4 q5
              · rw [hr2.2.1 mid (Or.inr (le_refl _)), hr1.2.1 mid (Or.inl (by omega))]
              · intro k hk1 hk2
                obtain ⟨k', h1', h2', he⟩ := hr2.2.2 k hk1 hk2
                exact ⟨k', h1', h2', by rw [he]; exact hr1.2.1 k' (Or.inl (by omega))⟩
              · intro k hk1 hk2
                obtain ⟨k', h1', h2', he⟩ := hr1.2.2 k (by omega) hk2
                exact ⟨k', by omega, h2', by rw [hr2.2.1 k (Or.inr (by omega))]; exact he⟩
              · exact hs2
              · exact SortedOn.of_frame less o1 o2 (mid + 1) b hs1
                  (fun k hk1 hk2 => hr2.2.1 k (Or.inr (by omega)))

end Main

/-! ## `sort.Slice` returns a sorted permutation -/

theorem pairwise_of_sortedOn {α : Type} (less : α → α → Bool) (d : List α)
    (h : SortedOn less d 0 d.length) : d.Pairwise (fun x y => less y x = false) := by
  rw [List.pairwise_iff_getElem]
  intro i j hi hj hij
  have := h i j (Nat.zero_le _) hij hj
  rw [lessAt_of_lt less d j i hj hi] at this
  exact this

/-- Go's `sort.Slice` terminates on every slice, for every comparator that is a strict
weak ordering, and leaves a permutation of the slice in which no element is put by
the comparator before an earlier one. -/
theorem Slice_spec {α : Type} (less : α → α → Bool) (sw : StrictWeak less) (x : List α) :
    ∃ out, Slice less x = some out ∧ out.Perm x ∧
      out.Pairwise (fun a b => less b a = false) := by
  obtain ⟨out, h1, h2, h3⟩ := pdqsortLoop_spec less sw (2 * x.length + 2) x 0 x.length
    (bitsLen x.length) true true (le_refl _) (Nat.zero_le _) (by omega)
    (fun h => absurd h (by omega))
  refine ⟨out, h1, h2.1, pairwise_of_sortedOn less out ?_⟩
  rw [h2.length_eq]
  exact h3

/-! ## The insertion sort of `sort.Slice` and the stable sort -/

theorem getElem?_append_mid {α : Type} (l1 l2 : List α) (x : α) :
    (l1 ++ x :: l2)[l1.length]? = some x := by
  rw [List.getElem?_append_right (le_refl _)]
  simp

theorem getElem?_append_mid_succ {α : Type} (l1 l2 : List α) (y x : α) :
    (l1 ++ y :: x :: l2)[l1.length + 1]? = some x := by
  rw [List.getElem?_append_right (by omega)]
  simp

theorem swap_adjacent {α : Type} (l1 l2 : List α) (y x : α) :
    swap (l1 ++ y :: x :: l2) (l1.length + 1) l1.length = l1 ++ x :: y :: l2 := by
  unfold swap
  rw [getElem?_append_mid_succ, getElem?_append_mid]
  simp only []
  rw [List.set_append_right _ _ (by omega)]
  simp

theorem lessAt_adjacent {α : Type} (less : α → α → Bool) (l1 l2 : List α) (y x : α) :
    lessAt less (l1 ++ y :: x :: l2) (l1.length + 1) l1.length = less x y := by
  unfold lessAt
  rw [getElem?_append_mid_succ, getElem?_append_mid]

theorem insertionInner_eq {α : Type} (less : α → α → Bool) (rp suf : List α) (x : α) :
    insertionInner less 0 rp.length (rp.reverse ++ x :: suf) =
      (List.orderedInsert (notLess less) x rp).reverse ++ suf := by
  induction rp generalizing suf with
  | nil => simp [insertionInner]
  | cons y rp ih =>
    have hdata : (y :: rp).reverse ++ x :: suf = rp.reverse ++ y :: x :: suf := by simp
    have hlen : rp.length = rp.reverse.length := by simp
    rw [hdata, List.length_cons, insertionInner]
    conv_lhs => rw [hlen, lessAt_adjacent, swap_adjacent, ← hlen]
    simp only [Nat.succ_pos, gt_iff_lt, true_and, List.orderedInsert, notLess]
    by_cases hless : less x y = true
    · simp only [hless, if_true, Bool.true_eq_false, if_false, List.reverse_cons,
        List.append_assoc, List.singleton_append]
      exact ih (y :: suf)
    · simp [hless]

theorem insertionOuter_eq {α : Type} (less : α → α → Bool) (rest rp : List α) (fuel : Nat)
    (hfuel : rest.length ≤ fuel) :
    insertionOuter less 0 (rp.length + rest.length) fuel rp.length (rp.reverse ++ rest) =
      (rest.foldl (fun acc x => List.orderedInsert (notLess less) x acc) rp).reverse := by
  induction rest generalizing rp fuel with
  | nil =>
    cases fuel with
    | zero => simp [insertionOuter]
    | succ f => simp [insertionOuter]
  | cons x rest ih =>
    cases fuel with
    | zero => simp at hfuel
    | succ f =>
      rw [insertionOuter, if_pos (by simp), insertionInner_eq, List.foldl_cons]
      have := ih (List.orderedInsert (notLess less) x rp) f (by simpa using hfuel)
      rw [List.orderedInsert_length] at this
      rw [← this]
      congr 1
      simp only [List.length_cons]
      omega

theorem insertionSort_func_eq {α : Type} (less : α → α → Bool) (data : List α) :
    insertionSort_func less data 0 data.length =
      (data.foldl (fun acc x => List.orderedInsert (notLess less) x acc) []).reverse := by
  cases data with
  | nil => simp [insertionSort_func, insertionOuter]
  | cons x rest =>
    have := insertionOuter_eq less rest [x] (rest.length + 1) (by omega)
    simp only [List.length_singleton, List.reverse_singleton, List.singleton_append] at this
    simp only [insertionSort_func, List.length_cons, Nat.sub_zero, Nat.zero_add, List.foldl_cons,
      List.orderedInsert]
    rw [← this]
    congr 1
    omega

theorem Slice_of_short {α : Type} (less : α → α → Bool) (data : List α) (h : data.length ≤ 12) :
    Slice less data =
      some (data.foldl (fun acc x => List.orderedInsert (notLess less) x acc) []).reverse := by
  unfold Slice
  rw [show 2 * data.length + 2 = (2 * data.length + 1) + 1 from rfl, pdqsortLoop]
  simp only [Nat.sub_zero, h, if_true, insertionSort_func_eq]

theorem foldl_orderedInsert {α : Type} (r : α → α → Prop) [DecidableRel r] (l : List α) :
    l.foldl (fun acc x => List.orderedInsert r x acc) [] = List.insertionSort r l.reverse := by
  induction l using List.reverseRecOn with
  | nil => rfl
  | append_singleton l x ih =>
    rw [List.foldl_append, List.reverse_append, List.reverse_singleton, List.singleton_append,
      List.insertionSort, ← ih]
    rfl

theorem orderedInsert_append_last {α : Type} (r : α → α → Prop) [DecidableRel r] (x q : α)
    (m : List α) (h : r x q) :
    List.orderedInsert r x (m ++ [q]) = List.orderedInsert r x m ++ [q] := by
  induction m with
  | nil => simp [List.orderedInsert, h]
  | cons y m ih =>
    rw [List.cons_append, List.orderedInsert, List.orderedInsert]
    split
    · rfl
    · rw [ih, List.cons_append]

theorem orderedInsert_after_all {α : Type} (r : α → α → Prop) [DecidableRel r] (x : α)
    (l : List α) (h : ∀ y ∈ l, ¬ r x y) : List.orderedInsert r x l = l ++ [x] := by
  induction l with
  | nil => rfl
  | cons y l ih =>
    simp only [List.orderedInsert, h y (List.mem_cons_self _ _), if_false, List.cons_append]
    rw [ih (fun z hz => h z (List.mem_cons_of_mem _ hz))]

theorem orderedInsert_reverse {α : Type} (less : α → α → Bool)
    (htrans : ∀ a b c, less a b = false → less b c = false → less a c = false)
    (x : α) (s : List α) (hs : s.Pairwise (fun a b => less b a = false)) :
    (List.orderedInsert (notLess less) x s.reverse).reverse = insertBehind less x s := by
  induction s with
  | nil => rfl
  | cons q s ih =>
    rw [List.pairwise_cons] at hs
    rw [List.reverse_cons, insertBehind]
    by_cases hxq : less x q = true
    · rw [if_pos hxq, orderedInsert_after_all]
      · simp
      · intro y hy hxy
        simp only [List.mem_append, List.mem_reverse, List.mem_singleton] at hy
        rcases hy with hy | rfl
        · have := htrans x y q hxy (hs.1 y hy)
          rw [hxq] at this
          exact absurd this (by simp)
        · rw [notLess, hxq] at hxy
          exact absurd hxy (by simp)
    · rw [if_neg hxq, orderedInsert_append_last _ _ _ _ (by simpa [notLess] using hxq)]
      simp only [List.reverse_append, List.reverse_singleton, List.singleton_append]
      rw [ih hs.2]

theorem foldl_eq_stableSort {α : Type} (less : α → α → Bool)
    (htrans : ∀ a b c, less a b = false → less b c = false → less a c = false)
    (htotal : ∀ a b, less a b = false ∨ less b a = false) (l : List α) :
    (l.foldl (fun acc x => List.orderedInsert (notLess less) x acc) []).reverse =
      stableSort less l := by
  haveI : IsTotal α (notLess less) := ⟨htotal⟩
  haveI : IsTrans α (notLess less) := ⟨htrans⟩
  induction l using List.reverseRecOn with
  | nil => rfl
  | append_singleton l x ih =>
    have hsorted : (l.foldl (fun acc x => List.orderedInsert (notLess less) x acc) []).Pairwise
        (notLess less) := by
      rw [foldl_orderedInsert]
      exact List.sorted_insertionSort (notLess less) l.reverse
    have hrev : (l.foldl (fun acc x => List.orderedInsert (notLess less) x acc) []).reverse.Pairwise
        (fun a b => less b a = false) := List.pairwise_reverse.mpr hsorted
    have := orderedInsert_reverse less htrans x _ hrev
    rw [List.reverse_reverse] at this
    rw [List.foldl_append, List.foldl_cons, List.foldl_nil, this, ih, stableSort, stableSort,
      List.foldl_append, List.foldl_cons, List.foldl_nil]

theorem stableSort_eq_insertionSort {α : Type} (less : α → α → Bool)
    (htrans : ∀ a b c, less a b = false → less b c = false → less a c = false)
    (htotal : ∀ a b, less a b = false ∨ less b a = false) (l : List α) :
    stableSort less l = (List.insertionSort (notLess less) l.reverse).reverse := by
  rw [← foldl_eq_stableSort less htrans htotal, foldl_orderedInsert]

theorem stableSort_perm {α : Type} (less : α → α → Bool)
    (htrans : ∀ a b c, less a b = false → less b c = false → less a c = false)
    (htotal : ∀ a b, less a b = false ∨ less b a = false) (l : List α) :
    (stableSort less l).Perm l := by
  rw [stableSort_eq_insertionSort less htrans htotal]
  exact (List.reverse_perm _).trans
    ((List.perm_insertionSort (notLess less) l.reverse).trans (List.reverse_perm l))

theorem stableSort_sorted {α : Type} (less : α → α → Bool)
    (htrans : ∀ a b c, less a b = false → less b c = false → less a c = false)
    (htotal : ∀ a b, less a b = false ∨ less b a = false) (l : List α) :
    (stableSort less l).Pairwise (fun a b => less b a = false) := by
  haveI : IsTotal α (notLess less) := ⟨htotal⟩
  haveI : IsTrans α (notLess less) := ⟨htrans⟩
  rw [stableSort_eq_insertionSort less htrans htotal]
  exact List.pairwise_reverse.mpr (List.sorted_insertionSort (notLess less) l.reverse)

theorem stableSort_stable {α : Type} (less : α → α → Bool)
    (htrans : ∀ a b c, less a b = false → less b c = false → less a c = false)
    (htotal : ∀ a b, less a b = false ∨ less b a = false) (l : List α) (a b : α)
    (hab : List.Sublist [a, b] l) (hless : less b a = false) :
    List.Sublist [a, b] (stableSort less l) := by
  rw [stableSort_eq_insertionSort less htrans htotal]
  have h1 : List.Sublist [b, a] l.reverse := by
    have := List.reverse_sublist.mpr hab
    simpa using this
  have h2 := List.pair_sublist_insertionSort (r := notLess less) hless h1
  have := List.reverse_sublist.mpr h2
  simpa using this

theorem Slice_short_eq_stableSort {α : Type} (less : α → α → Bool)
    (htrans : ∀ a b c, less a b = false → less b c = false → less a c = false)
    (htotal : ∀ a b, less a b = false ∨ less b a = false) (data : List α)
    (h : data.length ≤ 12) : Slice less data = some (stableSort less data) := by
  rw [Slice_of_short less data h, foldl_eq_stableSort less htrans htotal]

theorem less_trans_false (a b c : Post) (hab : less a b = false) (hbc : less b c = false) :
    less a c = false := by
  simp only [less, decide_eq_false_iff_not, gt_iff_lt, not_lt] at *
  omega

theorem less_total_false (a b : Post) : less a b = false ∨ less b a = false := by
  simp only [less, decide_eq_false_iff_not, gt_iff_lt, not_lt]
  omega

/-! ## Facts about the ranker -/

theorem topPosts_eq_take (posts : List Post) : topPosts posts = posts.take 5 := by
  unfold topPosts
  split
  · rfl
  · exact (List.take_of_length_le (by omega)).symm

theorem less_eq_false_iff (x y : Post) : less y x = false ↔ engagement x ≥ engagement y := by
  simp [less]

theorem scores_sorted (posts sorted : List Post) (h : SliceContract posts sorted) :
    (sorted.map engagement).Sorted (· ≥ ·) := by
  unfold List.Sorted
  rw [List.pairwise_map]
  exact h.2.imp (fun {x y} hxy => (less_eq_false_iff x y).mp hxy)

theorem scores_perm (posts sorted : List Post) (h : SliceContract posts sorted) :
    (sorted.map engagement).Perm (posts.map engagement) :=
  h.1.map engagement

theorem stableSorted_contract (posts : List Post) : SliceContract posts (stableSorted posts) :=
  ⟨stableSort_perm less less_trans_false less_total_false posts,
    stableSort_sorted less less_trans_false less_total_false posts⟩

theorem scores_unique (posts s1 s2 : List Post) (h1 : SliceContract posts s1)
    (h2 : SliceContract posts s2) : s1.map engagement = s2.map engagement :=
  List.eq_of_perm_of_sorted ((scores_perm posts s1 h1).trans (scores_perm posts s2 h2).symm)
    (scores_sorted posts s1 h1) (scores_sorted posts s2 h2)

theorem less_strictWeak : StrictWeak less :=
  ⟨less_trans_false, less_total_false⟩

theorem Slice_eq_sortSlice (posts : List Post) : Slice less posts = some (sortSlice less posts) := by
  obtain ⟨out, h, _⟩ := Slice_spec less less_strictWeak posts
  rw [sortSlice, h]
  rfl

/-- What `sort.Slice` leaves of the loaded Records meets the contract of `sort.Slice`. -/
theorem sortSlice_contract (posts : List Post) : SliceContract posts (sortSlice less posts) := by
  obtain ⟨out, h, hperm, hsorted⟩ := Slice_spec less less_strictWeak posts
  have : sortSlice less posts = out := by
    rw [sortSlice, h]
    rfl
  rw [this]
  exact ⟨hperm, hsorted⟩

theorem ranker_of_contract (posts sorted : List Post) (h : SliceContract posts sorted) :
    (∀ A B : Post, A ∈ posts → B ∈ posts → engagement A > engagement B →
      ∀ j : Nat, (topPosts sorted)[j]? = some B →
        ∃ i : Nat, i < j ∧ (topPosts sorted)[i]? = some A) ∧
    (posts.map engagement = [50, 200, 10, 300, 75, 5, 120] →
      (topPosts sorted).map engagement = [300, 200, 120, 75, 50]) := by
  constructor
  · intro A B hA hB hgt j hj
    rw [topPosts_eq_take] at hj ⊢
    have hj5 : j < 5 := by
      by_contra hge
      rw [List.getElem?_take_eq_none (by omega)] at hj
      exact absurd hj (by simp)
    rw [List.getElem?_take_of_lt hj5] at hj
    obtain ⟨i, hi⟩ := List.mem_iff_getElem?.mp (h.1.mem_iff.mpr hA)
    have hjl : j < sorted.length := (List.getElem?_eq_some.mp hj).1
    have hil : i < sorted.length := (List.getElem?_eq_some.mp hi).1
    have hjv : sorted[j] = B := (List.getElem?_eq_some.mp hj).2
    have hiv : sorted[i] = A := (List.getElem?_eq_some.mp hi).2
    have hij : i < j := by
      by_contra hnot
      rcases Nat.lt_or_ge j i with hlt | hge
      · have := List.pairwise_iff_getElem.mp h.2 j i hjl hil hlt
        rw [hjv, hiv, less_eq_false_iff] at this
        omega
      · have hEq : i = j := by omega
        subst hEq
        rw [hiv] at hjv
        subst hjv
        omega
    exact ⟨i, hij, by rw [List.getElem?_take_of_lt (by omega)]; exact hi⟩
  · intro hscores
    have hs := scores_sorted posts sorted h
    have hp := scores_perm posts sorted h
    rw [hscores] at hp
    have hp2 : (sorted.map engagement).Perm [300, 200, 120, 75, 50, 10, 5] :=
      hp.trans (by decide)
    have heq : sorted.map engagement = [300, 200, 120, 75, 50, 10, 5] :=
      List.eq_of_perm_of_sorted hp2 hs (by decide)
    rw [topPosts_eq_take, List.map_take, heq]
    rfl

/-- C1.  The score the comparator computes for a Record is the sum `Views + Likes +
Comments + Collects` reduced into the signed 64-bit range, the sum itself when it
lies in that range; it does not depend on the follower-growth and shares values.
For every sequence `posts` of Records and Records `A` and `B` in it with the score
of `A` strictly greater than that of `B`: wherever `B` stands in the Top-N output
(the first five of what `sort.Slice` leaves), `A` stands in it at an earlier
position.  Seven rows with the scores 50, 200, 10, 300, 75, 5, 120 give a Top-N
output with the scores 300, 200, 120, 75, 50.  The same holds of every result that
the contract of `sort.Slice` allows (the same Records, none put by the comparator
before an earlier one). -/
theorem ranker_score_monotone (posts : List Post) :
    (∀ p : Post, engagement p = wrap64 (p.Views + p.Likes + p.Comments + p.Collects)) ∧
    (∀ p : Post, -9223372036854775808 ≤ p.Views + p.Likes + p.Comments + p.Collects →
      p.Views + p.Likes + p.Comments + p.Collects ≤ 9223372036854775807 →
      engagement p = p.Views + p.Likes + p.Comments + p.Collects) ∧
    (∀ A B : Post, A ∈ posts → B ∈ posts → engagement A > engagement B →
      ∀ j : Nat, (topPosts (sortSlice less posts))[j]? = some B →
        ∃ i : Nat, i < j ∧ (topPosts (sortSlice less posts))[i]? = some A) ∧
    (∀ (A : Post) (g s : Int),
      engagement { A with GrowFollowers := g, Shared := s } = engagement A) ∧
    (posts.map engagement = [50, 200, 10, 300, 75, 5, 120] →
      (topPosts (sortSlice less posts)).map engagement = [300, 200, 120, 75, 50]) ∧
    (∀ sorted : List Post, SliceContract posts sorted →
      (∀ A B : Post, A ∈ posts → B ∈ posts → engagement A > engagement B →
        ∀ j : Nat, (topPosts sorted)[j]? = some B →
          ∃ i : Nat, i < j ∧ (topPosts sorted)[i]? = some A) ∧
      (posts.map engagement = [50, 200, 10, 300, 75, 5, 120] →
        (topPosts sorted).map engagement = [300, 200, 120, 75, 50])) :=
  ⟨fun p => engagement_eq_wrap64 p,
    fun p h1 h2 => by
      rw [engagement_eq_wrap64]
      exact wrap64_of_range _ (by simpa [minInt, exactScore] using h1)
        (by simpa [maxInt, exactScore] using h2),
    (ranker_of_contract posts _ (sortSlice_contract posts)).1, fun _ _ _ => rfl,
    (ranker_of_contract posts _ (sortSlice_contract posts)).2,
    fun sorted h => ranker_of_contract posts sorted h⟩

set_option maxRecDepth 100000 in
theorem posts7_sliced : sortSlice less posts7 = sorted7 := by
  decide

theorem posts7_contract : SliceContract posts7 sorted7 :=
  ⟨by decide, by decide⟩

set_option maxRecDepth 100000 in
theorem ranked7_sliced : sortSlice less ranked7 = rankedSorted7 := by
  decide

theorem ranked7_contract : SliceContract ranked7 rankedSorted7 :=
  ⟨by decide, by decide⟩

/-- Witness of C1: the seven posts `ranked7`, whose scores 50, 200, 10, 300, 75, 5, 120
are each the sum of four counters that are not zero.  The Top-N output is `d`, `b`,
`g`, `e`, `a` with the scores 300, 200, 120, 75, 50; `c` and `f`, with the scores 10
and 5, are left out; `b` with score 200 stands before `a` with score 50. -/
theorem ranker_score_monotone_witness :
    ranked7.map (fun p => (p.PostTitle, p.Views, p.Likes, p.Comments, p.Collects)) =
      [("a", 20, 15, 10, 5), ("b", 100, 50, 30, 20), ("c", 4, 3, 2, 1), ("d", 10, 90, 100, 100),
        ("e", 70, 2, 2, 1), ("f", 2, 1, 1, 1), ("g", 30, 30, 30, 30)] ∧
    ranked7.map engagement = [50, 200, 10, 300, 75, 5, 120] ∧
    (topPosts (sortSlice less ranked7)).map Post.PostTitle = ["d", "b", "g", "e", "a"] ∧
    (topPosts (sortSlice less ranked7)).map engagement = [300, 200, 120, 75, 50] ∧
    (∃ i : Nat, i < 4 ∧
      (topPosts (sortSlice less ranked7))[i]? = some (scoredPost "b" 100 50 30 20 0 2)) ∧
    (topPosts rankedSorted7).map engagement = [300, 200, 120, 75, 50] :=
  ⟨by decide, by decide, by rw [ranked7_sliced]; decide,
    (ranker_score_monotone ranked7).2.2.2.2.1 (by decide),
    (ranker_score_monotone ranked7).2.2.1 (scoredPost "b" 100 50 30 20 0 2)
      (scoredPost "a" 20 15 10 5 900 1) (by decide) (by decide) (by decide) 4
      (by rw [ranked7_sliced]; decide),
    ((ranker_score_monotone ranked7).2.2.2.2.2 rankedSorted7 ranked7_contract).2 (by decide)⟩

theorem topPosts_of_contract (posts sorted : List Post) (h : SliceContract posts sorted) :
    (topPosts sorted).length = min posts.length 5 ∧
    (posts.length ≤ 5 → topPosts sorted = sorted ∧ (topPosts sorted).Perm posts) := by
  have hlen : sorted.length = posts.length := h.1.length_eq
  constructor
  · rw [topPosts_eq_take, List.length_take, hlen, Nat.min_comm]
  · intro h5
    have : topPosts sorted = sorted := by
      rw [topPosts_eq_take]
      exact List.take_of_length_le (by omega)
    exact ⟨this, by rw [this]; exact h.1⟩

/-- C3.  For `n` loaded Records the Top-N selection has length `min n 5`; with at most
5 Records it is the whole of what `sort.Slice` leaves, a permutation of the loaded
Records, so all of them are returned.  The same holds of every result that the
contract of `sort.Slice` allows. -/
theorem topPosts_length (posts : List Post) :
    (topPosts (sortSlice less posts)).length = min posts.length 5 ∧
    (posts.length ≤ 5 →
      topPosts (sortSlice less posts) = sortSlice less posts ∧
      (topPosts (sortSlice less posts)).Perm posts) ∧
    (∀ sorted : List Post, SliceContract posts sorted →
      (topPosts sorted).length = min posts.length 5 ∧
      (posts.length ≤ 5 → topPosts sorted = sorted ∧ (topPosts sorted).Perm posts)) :=
  ⟨(topPosts_of_contract posts _ (sortSlice_contract posts)).1,
    (topPosts_of_contract posts _ (sortSlice_contract posts)).2,
    fun sorted h => topPosts_of_contract posts sorted h⟩

/-- Witness of C3: three posts, all of which are returned, and the seven posts of the
scenario. -/
theorem topPosts_length_witness :
    (topPosts (sortSlice less (posts7.take 3))).Perm (posts7.take 3) ∧
    (topPosts (sortSlice less posts7)).length = min posts7.length 5 ∧
    (topPosts sorted7).length = min posts7.length 5 :=
  ⟨((topPosts_length (posts7.take 3)).2.1 (by decide)).2, (topPosts_length posts7).1,
    ((topPosts_length posts7).2.2 sorted7 posts7_contract).1⟩

set_option maxRecDepth 100000 in
theorem posts13_sliced : sortSlice less posts13 = sorted13 := by
  decide

set_option maxRecDepth 100000 in
theorem posts13_contract : SliceContract posts13 sorted13 :=
  ⟨by decide, by decide⟩

/-- C2 as stated fails.  Of thirteen posts `p0`, ..., `p12`, `p1` has score 2 and the
others score 1.  `sort.Slice` leaves them in the order `p1, p6, p2, p3, p4, p5, p0,
p7, ..., p12`: `p6` now stands before `p0`, `p2`, ..., `p5`, which have its score and
came before it in the input, and the tie across the cut at 5 keeps `p6` while `p0`,
the first Record of the input, is left out.  The stable sort is `p1, p0, p2, ...,
p12`. -/
theorem ranker_stable_counterexample :
    posts13.map (fun p => (p.PostTitle, engagement p)) =
      [("p0", 1), ("p1", 2), ("p2", 1), ("p3", 1), ("p4", 1), ("p5", 1), ("p6", 1),
        ("p7", 1), ("p8", 1), ("p9", 1), ("p10", 1), ("p11", 1), ("p12", 1)] ∧
    (sortSlice less posts13).map Post.PostTitle =
      ["p1", "p6", "p2", "p3", "p4", "p5", "p0", "p7", "p8", "p9", "p10", "p11", "p12"] ∧
    (topPosts (sortSlice less posts13)).map Post.PostTitle = ["p1", "p6", "p2", "p3", "p4"] ∧
    (stableSorted posts13).map Post.PostTitle =
      ["p1", "p0", "p2", "p3", "p4", "p5", "p6", "p7", "p8", "p9", "p10", "p11", "p12"] := by
  rw [posts13_sliced]
  exact ⟨by decide, by decide, by decide, by decide⟩

theorem ties_of_contract (posts sorted : List Post) (h : SliceContract posts sorted) :
    sorted.Perm (stableSorted posts) ∧
    sorted.map engagement = (stableSorted posts).map engagement ∧
    (topPosts sorted).map engagement = (topPosts (stableSorted posts)).map engagement := by
  have hs := stableSorted_contract posts
  have heq := scores_unique posts sorted (stableSorted posts) h hs
  refine ⟨h.1.trans hs.1.symm, heq, ?_⟩
  rw [topPosts_eq_take, topPosts_eq_take, List.map_take, List.map_take, heq]

/-- C2, as amended.  In the stable sort of the input (descending by score) two Records
of equal score keep the order they have in the input.  For an input of at most 12
Records `sort.Slice` runs an insertion sort and leaves exactly the stable sort, so
ties keep their input order, also across the cut at 5.  For an input of any length,
what `sort.Slice` leaves is a permutation of the stable sort that has, position by
position, its scores, and so has the Top-N output; which of the Records of one score
stands at which of their positions is then not fixed by the order of the input.  The
same holds of every result that the contract of `sort.Slice` allows. -/
theorem ranker_ties (posts : List Post) :
    (∀ a b : Post, List.Sublist [a, b] posts → engagement a = engagement b →
      List.Sublist [a, b] (stableSorted posts)) ∧
    (posts.length ≤ 12 → sortSlice less posts = stableSorted posts) ∧
    ((sortSlice less posts).Perm (stableSorted posts) ∧
      (sortSlice less posts).map engagement = (stableSorted posts).map engagement ∧
      (topPosts (sortSlice less posts)).map engagement =
        (topPosts (stableSorted posts)).map engagement) ∧
    (∀ sorted : List Post, SliceContract posts sorted →
      sorted.Perm (stableSorted posts) ∧
      sorted.map engagement = (stableSorted posts).map engagement ∧
      (topPosts sorted).map engagement = (topPosts (stableSorted posts)).map engagement) := by
  refine ⟨?_, ?_, ties_of_contract posts _ (sortSlice_contract posts),
    fun sorted h => ties_of_contract posts sorted h⟩
  · intro a b hab hscore
    exact stableSort_stable less less_trans_false less_total_false posts a b hab
      (by simp [less, hscore])
  · intro h12
    rw [sortSlice, Slice_short_eq_stableSort less less_trans_false less_total_false posts h12]
    rfl

/-- Witness of C2 as amended: the seven posts of the scenario, which `sort.Slice` leaves
in the order of the stable sort; the thirteen posts, which it leaves in an order with
the scores of the stable sort; and the seven posts `ties7`, six of which tie: `t0`
stays before `t2` in the stable sort, `sort.Slice` leaves the stable sort, and of the
six posts of score 1 the Top-N output keeps the four that come first in the input. -/
theorem ranker_ties_witness :
    sortSlice less posts7 = stableSorted posts7 ∧
    (sorted13.Perm (stableSorted posts13) ∧
      sorted13.map engagement = (stableSorted posts13).map engagement ∧
      (topPosts sorted13).map engagement = (topPosts (stableSorted posts13)).map engagement) ∧
    List.Sublist [samplePost "t0" 1, samplePost "t2" 1] (stableSorted ties7) ∧
    sortSlice less ties7 = stableSorted ties7 ∧
    (topPosts (stableSorted ties7)).map Post.PostTitle = ["t1", "t0", "t2", "t3", "t4"] :=
  ⟨(ranker_ties posts7).2.1 (by decide), (ranker_ties posts13).2.2.2 sorted13 posts13_contract,
    (ranker_ties ties7).1 (samplePost "t0" 1) (samplePost "t2" 1) (by decide) (by decide),
    (ranker_ties ties7).2.1 (by decide), by decide⟩

/-! ## Facts about the prompt builder -/

theorem join_cons (x : String) (xs : List String) :
    String.join (x :: xs) = x ++ String.join xs := by
  apply String.ext
  simp [String.join_eq, String.data_append]

theorem join_nil : String.join [] = "" := rfl

theorem writePost_eq (sb : String) (i : Nat) (post : Post) :
    writePost sb i post = sb ++ promptBlock i post := by
  simp only [writePost, promptBlock, fieldLines, join_cons, join_nil, String.append_assoc,
    String.append_empty]
  rfl

theorem writePosts_eq (sb : String) (i : Nat) (posts : List Post) :
    writePosts sb i posts = sb ++ String.join (promptBlocks i posts) := by
  induction posts generalizing sb i with
  | nil => simp [writePosts, promptBlocks, join_nil]
  | cons post rest ih =>
    rw [writePosts, ih, writePost_eq, promptBlocks, join_cons, String.append_assoc]

theorem promptBlocks_length (i : Nat) (posts : List Post) :
    (promptBlocks i posts).length = posts.length := by
  induction posts generalizing i with
  | nil => rfl
  | cons post rest ih => simp [promptBlocks, ih]

theorem promptBlocks_getElem? (i k : Nat) (posts : List Post) (post : Post)
    (h : posts[k]? = some post) : (promptBlocks i posts)[k]? = some (promptBlock (i + k) post) := by
  induction posts generalizing i k with
  | nil => simp at h
  | cons p rest ih =>
    cases k with
    | zero =>
      simp only [List.getElem?_cons_zero, Option.some.injEq] at h
      subst h
      simp [promptBlocks]
    | succ k =>
      simp only [List.getElem?_cons_succ] at h
      simp only [promptBlocks, List.getElem?_cons_succ]
      rw [ih (i + 1) k h]
      congr 2
      omega

set_option maxRecDepth 100000 in
theorem promptPost_rendered :
    analysisText [promptPost] =
      "Perform post analysis of the following top 5 high engagement posts:\n\nPost #1:\nTitle: Tea \"time\"\nFormat: video\nRelease Time: 2024-01-01 08:00\nTags: #tea,#home\nViews: 1234\nLikes: 56\nComments: 7\nCollects: 8\nGrowth in Followers: -5\nShares: 0\nTraffic Source: search\\feed\nFemale Percentage: 60%\nAge 25-34 Percentage: 40%\nAge 18-24 Percentage: 30%\nOverseas Percentage: 5%\nInterest Distribution: food\ndrink\nGrowth Strategy: post %d daily\n\n" := by
  decide

set_option maxRecDepth 100000 in
theorem promptPost_claimed :
    claimedPrompt [promptPost] =
      "Perform post analysis of the following top 5 high engagement posts:\nTitle: Tea \"time\"\nFormat: video\nRelease Time: 2024-01-01 08:00\nTags: #tea,#home\nViews: 1234\nLikes: 56\nComments: 7\nCollects: 8\nGrowth in Followers: -5\nShares: 0\nTraffic Source: search\\feed\nFemale Percentage: 60%\nAge 25-34 Percentage: 40%\nAge 18-24 Percentage: 30%\nOverseas Percentage: 5%\nInterest Distribution: food\ndrink\nGrowth Strategy: post %d daily\n\n" := by
  decide

set_option maxRecDepth 100000 in
theorem promptPost_differs : analysisText [promptPost] ≠ claimedPrompt [promptPost] := by
  decide

set_option maxRecDepth 100000 in
theorem promptPost_differs_blank :
    analysisText [promptPost] ≠
      "Perform post analysis of the following top 5 high engagement posts:\n\n" ++
        (String.join (fieldLines promptPost) ++ "\n") := by
  decide

/-- C8 as stated fails.  For the selection of the one Record `promptPost` the
rendered prompt holds, between the preamble line and the line of the title, a blank
line and the heading `Post #1:`; neither of them is the preamble line, a labelled
line of a field, or the blank line after a block.  The prompt that the specification
describes has neither; with the blank line after the preamble put in, it still has
no heading. -/
theorem prompt_format_counterexample :
    analysisText [promptPost] =
      "Perform post analysis of the following top 5 high engagement posts:\n\nPost #1:\nTitle: Tea \"time\"\nFormat: video\nRelease Time: 2024-01-01 08:00\nTags: #tea,#home\nViews: 1234\nLikes: 56\nComments: 7\nCollects: 8\nGrowth in Followers: -5\nShares: 0\nTraffic Source: search\\feed\nFemale Percentage: 60%\nAge 25-34 Percentage: 40%\nAge 18-24 Percentage: 30%\nOverseas Percentage: 5%\nInterest Distribution: food\ndrink\nGrowth Strategy: post %d daily\n\n" ∧
    claimedPrompt [promptPost] =
      "Perform post analysis of the following top 5 high engagement posts:\nTitle: Tea \"time\"\nFormat: video\nRelease Time: 2024-01-01 08:00\nTags: #tea,#home\nViews: 1234\nLikes: 56\nComments: 7\nCollects: 8\nGrowth in Followers: -5\nShares: 0\nTraffic Source: search\\feed\nFemale Percentage: 60%\nAge 25-34 Percentage: 40%\nAge 18-24 Percentage: 30%\nOverseas Percentage: 5%\nInterest Distribution: food\ndrink\nGrowth Strategy: post %d daily\n\n" ∧
    analysisText [promptPost] ≠ claimedPrompt [promptPost] ∧
    analysisText [promptPost] ≠
      "Perform post analysis of the following top 5 high engagement posts:\n\n" ++
        (String.join (fieldLines promptPost) ++ "\n") :=
  ⟨promptPost_rendered, promptPost_claimed, promptPost_differs, promptPost_differs_blank⟩

theorem toString_succ_cast (k : Nat) : toString ((k : Int) + 1) = toString (k + 1) := rfl

theorem promptBlock_eq (k : Nat) (post : Post) :
    promptBlock k post =
      "Post #" ++ toString (k + 1) ++ ":\n" ++
        "Title: " ++ post.PostTitle ++ "\n" ++
        "Format: " ++ post.Format ++ "\n" ++
        "Release Time: " ++ post.ReleaseTime ++ "\n" ++
        "Tags: " ++ post.Tags ++ "\n" ++
        "Views: " ++ toString post.Views ++ "\n" ++
        "Likes: " ++ toString post.Likes ++ "\n" ++
        "Comments: " ++ toString post.Comments ++ "\n" ++
        "Collects: " ++ toString post.Collects ++ "\n" ++
        "Growth in Followers: " ++ toString post.GrowFollowers ++ "\n" ++
        "Shares: " ++ toString post.Shared ++ "\n" ++
        "Traffic Source: " ++ post.TrafficSource ++ "\n" ++
        "Female Percentage: " ++ post.FemalePercentage ++ "\n" ++
        "Age 25-34 Percentage: " ++ post.Age2534Percentage ++ "\n" ++
        "Age 18-24 Percentage: " ++ post.Age1824Percentage ++ "\n" ++
        "Overseas Percentage: " ++ post.OverseasPercentage ++ "\n" ++
        "Interest Distribution: " ++ post.InterestDistribution ++ "\n" ++
        "Growth Strategy: " ++ post.GrowthStrategy ++ "\n" ++
        "\n" := by
  simp only [promptBlock, fieldLines, join_cons, join_nil, String.append_assoc,
    String.append_empty, toString_succ_cast, fmtInt]

/-- C8, as amended.  The prompt rendered for a selection is the preamble line `Perform
post analysis of the following top 5 high engagement posts:`, a blank line, and then
the blocks of the Records of the selection and nothing else: there is one block per
Record, in the order of the selection; the block of the Record at position `k`
(counted from 0) is the heading line `Post #k+1:`, the seventeen labelled lines of
the Record in the fixed order (title, format, release time, tags, views, likes,
comments, collects, follower growth, shares, traffic source, female percentage, age
25-34 percentage, age 18-24 percentage, overseas percentage, interest distribution,
growth strategy; counters in decimal, text fields as they are) and a blank line. -/
theorem prompt_format (selection : List Post) :
    ∃ blocks : List String,
      analysisText selection =
        "Perform post analysis of the following top 5 high engagement posts:\n" ++ "\n" ++
          String.join blocks ∧
      blocks.length = selection.length ∧
      ∀ (k : Nat) (post : Post), selection[k]? = some post →
        blocks[k]? = some (
          "Post #" ++ toString (k + 1) ++ ":\n" ++
          "Title: " ++ post.PostTitle ++ "\n" ++
          "Format: " ++ post.Format ++ "\n" ++
          "Release Time: " ++ post.ReleaseTime ++ "\n" ++
          "Tags: " ++ post.Tags ++ "\n" ++
          "Views: " ++ toString post.Views ++ "\n" ++
          "Likes: " ++ toString post.Likes ++ "\n" ++
          "Comments: " ++ toString post.Comments ++ "\n" ++
          "Collects: " ++ toString post.Collects ++ "\n" ++
          "Growth in Followers: " ++ toString post.GrowFollowers ++ "\n" ++
          "Shares: " ++ toString post.Shared ++ "\n" ++
          "Traffic Source: " ++ post.TrafficSource ++ "\n" ++
          "Female Percentage: " ++ post.FemalePercentage ++ "\n" ++
          "Age 25-34 Percentage: " ++ post.Age2534Percentage ++ "\n" ++
          "Age 18-24 Percentage: " ++ post.Age1824Percentage ++ "\n" ++
          "Overseas Percentage: " ++ post.OverseasPercentage ++ "\n" ++
          "Interest Distribution: " ++ post.InterestDistribution ++ "\n" ++
          "Growth Strategy: " ++ post.GrowthStrategy ++ "\n" ++
          "\n") := by
  refine ⟨promptBlocks 0 selection, ?_, promptBlocks_length 0 selection, ?_⟩
  · rw [analysisText, writePosts_eq]
    rfl
  · intro k post hk
    rw [promptBlocks_getElem? 0 k selection post hk, Nat.zero_add, promptBlock_eq]

/-! ## Facts about the credential gate and the completion client -/

/-- C9.  In every run in which `OPENAI_API_KEY` is unset or empty, whatever the input
file holds and whatever the network and the disk would do, `main` hands no request
to `client.Do` and does not call `os.WriteFile`. -/
theorem credential_gate (w : World) (h : w.apiKey = "") :
    (main w).requests = [] ∧ (main w).written = none := by
  unfold main
  split
  · exact ⟨rfl, rfl⟩
  · split
    · exact ⟨rfl, rfl⟩
    · exact ⟨rfl, rfl⟩
    · simp only [h, if_true, and_self]

/-- Witness of C9: a world with a loadable file, an empty credential and a server that
would answer with a well-formed completion. -/
theorem credential_gate_witness :
    (main (sampleWorld "" ⟨200, ⟨some (successBody "analysis"), ""⟩⟩)).requests = [] ∧
    (main (sampleWorld "" ⟨200, ⟨some (successBody "analysis"), ""⟩⟩)).written = none :=
  credential_gate (sampleWorld "" ⟨200, ⟨some (successBody "analysis"), ""⟩⟩) rfl

theorem mapIndex_mapAssign (m : List (String × JSONValue)) (k key : String) (v : JSONValue) :
    mapIndex (mapAssign m k v) key = if k = key then some v else mapIndex m key := by
  induction m with
  | nil => simp [mapAssign, mapIndex]
  | cons e rest ih =>
    obtain ⟨k', v'⟩ := e
    by_cases h1 : k' = k
    · subst h1
      by_cases h2 : k' = key <;> simp [mapAssign, mapIndex, h2]
    · by_cases h2 : k = key
      · subst h2
        simp [mapAssign, mapIndex, h1, ih]
      · by_cases h3 : k' = key
        · subst h3
          simp [mapAssign, mapIndex, h1, h2]
        · simp [mapAssign, mapIndex, h1, h2, h3, ih]

theorem mapIndex_foldl (members m : List (String × JSONValue)) (key : String) :
    mapIndex (members.foldl (fun m kv => mapAssign m kv.1 kv.2) m) key =
      (member members key).orElse (fun _ => mapIndex m key) := by
  induction members generalizing m with
  | nil => simp [member]
  | cons e rest ih =>
    obtain ⟨k, v⟩ := e
    rw [List.foldl_cons, ih, mapIndex_mapAssign, member]
    cases member rest key with
    | some later => simp
    | none => by_cases h : k = key <;> simp [h]

/-- The map built from an object holds at `key` the last member of that name. -/
theorem mapIndex_decodeObject (members : List (String × JSONValue)) (key : String) :
    mapIndex (decodeObject members) key = member members key := by
  rw [decodeObject, mapIndex_foldl]
  cases member members key <;> simp [mapIndex]

theorem handleResponse_ok_iff (resp : Response) (content : String) :
    handleResponse resp = Except.ok content ↔
      resp.StatusCode = 200 ∧ ∃ v, resp.Body.value = some v ∧ successShape v content := by
  constructor
  · intro h
    unfold handleResponse at h
    split at h
    · simp at h
    · rename_i result hdec
      split at h
      · simp at h
      · rename_i hstatus
        split at h
        · rename_i first rest hchoices
          split at h
          · rename_i firstChoice
            split at h
            · rename_i message hmessage
              split at h
              · rename_i content' hcontent
                simp only [Except.ok.injEq] at h
                subst h
                unfold decodeResult at hdec
                split at hdec
                · rename_i members hv
                  simp only [Option.some.injEq] at hdec
                  subst hdec
                  rw [mapIndex_decodeObject] at hchoices hmessage hcontent
                  exact ⟨by simpa using hstatus, _, hv, members, rest, firstChoice, message, rfl,
                    hchoices, hmessage, hcontent⟩
                · simp only [Option.some.injEq] at hdec
                  subst hdec
                  simp [mapIndex] at hchoices
                · simp at hdec
              · simp at h
            · simp at h
          · simp at h
        · simp at h
  · rintro ⟨hstatus, v, hv, members, rest, firstChoice, message, hbody, hchoices, hmessage,
      hcontent⟩
    subst hbody
    unfold handleResponse decodeResult
    rw [hv]
    simp only [hstatus, ne_eq, not_true_eq_false, if_false, mapIndex_decodeObject, hchoices,
      hmessage, hcontent]

theorem handleResponse_status (resp : Response) (h : resp.StatusCode ≠ 200) :
    handleResponse resp = Except.error "Error decoding response:" ∨
    handleResponse resp = Except.error "Error from API:" := by
  unfold handleResponse
  split
  · exact Or.inl rfl
  · rw [if_pos h]
    exact Or.inr rfl

theorem handleResponse_no_choices (resp : Response) (members : List (String × JSONValue))
    (hstatus : resp.StatusCode = 200) (hbody : resp.Body.value = some (JSONValue.object members))
    (hchoices : member members "choices" = some (JSONValue.array [])) :
    handleResponse resp = Except.error "No choices in response" := by
  unfold handleResponse decodeResult
  rw [hbody]
  simp only [hstatus, ne_eq, not_true_eq_false, if_false, mapIndex_decodeObject, hchoices]

theorem decodeResult_eq_none_iff (body : ResponseBody) :
    decodeResult body = none ↔ ∀ v, body.value = some v → storable v = false := by
  unfold decodeResult
  cases hv : body.value with
  | none => simp
  | some v => cases v <;> simp [storable]

theorem handleResponse_decode_error (resp : Response)
    (h : ∀ v, resp.Body.value = some v → storable v = false) :
    handleResponse resp = Except.error "Error decoding response:" := by
  unfold handleResponse
  rw [(decodeResult_eq_none_iff resp.Body).mpr h]

theorem handleResponse_api_error (resp : Response) (v : JSONValue)
    (hstatus : resp.StatusCode ≠ 200) (hv : resp.Body.value = some v) (hs : storable v = true) :
    handleResponse resp = Except.error "Error from API:" := by
  unfold handleResponse
  cases hd : decodeResult resp.Body with
  | none =>
    have := (decodeResult_eq_none_iff resp.Body).mp hd v hv
    rw [hs] at this
    exact absurd this (by decide)
  | some result => simp only [hstatus, ne_eq, not_false_eq_true, if_true]

theorem handleResponse_null (resp : Response) (hstatus : resp.StatusCode = 200)
    (hv : resp.Body.value = some JSONValue.null) :
    handleResponse resp = Except.error "No choices in response" := by
  unfold handleResponse decodeResult
  rw [hv]
  simp only [hstatus, ne_eq, not_true_eq_false, if_false, mapIndex]

theorem handleResponse_shape_error (resp : Response) (v : JSONValue) (msg : String)
    (hstatus : resp.StatusCode = 200) (hv : resp.Body.value = some v) (hs : storable v = true)
    (h : handleResponse resp = Except.error msg) :
    msg = "No choices in response" ∨ msg = "Invalid choice format" ∨
      msg = "Invalid message format" ∨ msg = "Invalid content format" := by
  unfold handleResponse at h
  cases hd : decodeResult resp.Body with
  | none =>
    have := (decodeResult_eq_none_iff resp.Body).mp hd v hv
    rw [hs] at this
    exact absurd this (by decide)
  | some result =>
    rw [hd] at h
    simp only [hstatus, ne_eq, not_true_eq_false, if_false] at h
    split at h
    · split at h
      · split at h
        · split at h
          · simp at h
          · simp only [Except.error.injEq] at h
            exact Or.inr (Or.inr (Or.inr h.symm))
        · simp only [Except.error.injEq] at h
          exact Or.inr (Or.inr (Or.inl h.symm))
      · simp only [Except.error.injEq] at h
        exact Or.inr (Or.inl h.symm)
    · simp only [Except.error.injEq] at h
      exact Or.inl h.symm

theorem main_after_response (w : World) (file : List RawRecord) (posts : List Post) (resp : Response)
    (hfile : w.file = some file) (hload : loadPosts file = LoadResult.loaded posts)
    (hkey : w.apiKey ≠ "")
    (hdo : w.Do (newRequest w.apiKey (analysisText (topPosts (sortSlice less posts)))) =
      some resp) :
    (∀ content, handleResponse resp = Except.ok content →
      (main w).written = some content) ∧
    (∀ msg, handleResponse resp = Except.error msg →
      (main w).written = none ∧ (main w).message = msg) := by
  unfold main
  simp only [hfile, hload, hkey, if_false, hdo]
  constructor
  · intro content hc
    rw [hc]
    simp only []
    split <;> rfl
  · intro msg hm
    rw [hm]
    exact ⟨rfl, rfl⟩

/-- C7 as stated fails.  The server answers with status 200 and the body
`{"id":"chatcmpl-1","choices":[{"index":0,"message":{"role":"assistant",
"content":"analysis","refusal":null},"finish_reason":"stop"}],
"usage":{"total_tokens":9}}garbage`.  This body is not a JSON object: after the
object it holds text that is not white space.  `Decode` reads the object, does not
look at what follows it, and the run hands `analysis` to `os.WriteFile`. -/
theorem response_handling_counterexample :
    (main (sampleWorld "sk-1" ⟨200, ⟨some (successBody "analysis"), "garbage"⟩⟩)).written =
      some "analysis" ∧
    isBlank "garbage" = false ∧
    ¬ ∃ content, claimedSuccess ⟨200, ⟨some (successBody "analysis"), "garbage"⟩⟩ content := by
  refine ⟨by decide, by decide, ?_⟩
  rintro ⟨content, -, v, ⟨-, hblank⟩, -⟩
  exact absurd hblank (by decide)

/-- C7, as amended.  Take a run that reaches the network call and gets the response
`resp`.  The run hands a text to `os.WriteFile` if and only if the status is 200 and
`Decode` returns without an error after reading, as the first JSON value of the
body, an object whose `choices` is a non-empty array whose element 0 is an object
whose `message` is an object whose `content` is a string (of members with one name
the last one counts); the text is that string, and what the body holds after its
first value plays no part.  In particular a body that is a JSON object of this shape
and that `encoding/json` can store is written.  In every other case nothing is
written: with a status other than 200 the run stops on a decoding or an API error,
and with status 200 and `choices: []` it stops on the error `No choices in
response`, which is neither of the two.  The decoding error is the one of a body
without a first JSON value that can be stored or with one that is neither an object
nor `null`, whatever the status; the API error is the one of any other body with a
status other than 200; `null` with status 200 has no choices.  A body that `Decode`
stores and that has not the shape stops a run with status 200 on one of the four
errors of the walk through `choices`, element 0, `message` and `content`. -/
theorem response_handling (w : World) (file : List RawRecord) (posts : List Post) (resp : Response)
    (hfile : w.file = some file) (hload : loadPosts file = LoadResult.loaded posts)
    (hkey : w.apiKey ≠ "")
    (hdo : w.Do (newRequest w.apiKey (analysisText (topPosts (sortSlice less posts)))) =
      some resp) :
    (∀ content, (main w).written = some content ↔
      resp.StatusCode = 200 ∧ ∃ v, resp.Body.value = some v ∧ successShape v content) ∧
    (∀ content, claimedSuccess resp content → (main w).written = some content) ∧
    ((¬ ∃ content v, resp.StatusCode = 200 ∧ resp.Body.value = some v ∧
        successShape v content) →
      (main w).written = none) ∧
    (resp.StatusCode ≠ 200 →
      (main w).written = none ∧
      ((main w).message = "Error decoding response:" ∨
        (main w).message = "Error from API:")) ∧
    (∀ members, resp.StatusCode = 200 →
      resp.Body.value = some (JSONValue.object members) →
      member members "choices" = some (JSONValue.array []) →
      (main w).written = none ∧
      (main w).message = "No choices in response" ∧
      (main w).message ≠ "Error decoding response:" ∧
      (main w).message ≠ "Error from API:") ∧
    ((∀ v, resp.Body.value = some v → storable v = false) →
      (main w).written = none ∧ (main w).message = "Error decoding response:") ∧
    (∀ v, resp.StatusCode ≠ 200 → resp.Body.value = some v → storable v = true →
      (main w).written = none ∧ (main w).message = "Error from API:") ∧
    (resp.StatusCode = 200 → resp.Body.value = some JSONValue.null →
      (main w).written = none ∧ (main w).message = "No choices in response") ∧
    (∀ v, resp.StatusCode = 200 → resp.Body.value = some v → storable v = true →
      (main w).written = none →
      (main w).message = "No choices in response" ∨
        (main w).message = "Invalid choice format" ∨
        (main w).message = "Invalid message format" ∨
        (main w).message = "Invalid content format") := by
  have hm := main_after_response w file posts resp hfile hload hkey hdo
  have hiff : ∀ content, (main w).written = some content ↔
      resp.StatusCode = 200 ∧ ∃ v, resp.Body.value = some v ∧ successShape v content := by
    intro content
    rw [← handleResponse_ok_iff]
    constructor
    · intro hw
      cases hr : handleResponse resp with
      | error msg =>
        rw [(hm.2 msg hr).1] at hw
        simp at hw
      | ok c =>
        rw [hm.1 c hr, Option.some.injEq] at hw
        rw [hw]
    · exact hm.1 content
  refine ⟨hiff, ?_, ?_, ?_, ?_, fun h => hm.2 _ (handleResponse_decode_error resp h),
    fun v hstatus hv hs => hm.2 _ (handleResponse_api_error resp v hstatus hv hs),
    fun hstatus hv => hm.2 _ (handleResponse_null resp hstatus hv), ?_⟩
  · rintro content ⟨hstatus, v, ⟨hv, -⟩, hshape⟩
    exact (hiff content).mpr ⟨hstatus, v, hv, hshape⟩
  · intro hnot
    cases hw : (main w).written with
    | none => rfl
    | some c =>
      obtain ⟨hstatus, v, hv, hshape⟩ := (hiff c).mp hw
      exact absurd ⟨c, v, hstatus, hv, hshape⟩ hnot
  · intro hstatus
    rcases handleResponse_status resp hstatus with h | h
    · exact ⟨(hm.2 _ h).1, Or.inl (hm.2 _ h).2⟩
    · exact ⟨(hm.2 _ h).1, Or.inr (hm.2 _ h).2⟩
  · intro members hstatus hbody hchoices
    have h := hm.2 _ (handleResponse_no_choices resp members hstatus hbody hchoices)
    refine ⟨h.1, h.2, ?_, ?_⟩ <;> rw [h.2] <;> decide
  · intro v hstatus hv hs hw
    cases hr : handleResponse resp with
    | error msg =>
      rw [(hm.2 msg hr).2]
      exact handleResponse_shape_error resp v msg hstatus hv hs hr
    | ok c =>
      rw [hm.1 c hr] at hw
      simp at hw

theorem sampleWorld_loads :
    loadPosts [RawRecord.fields headerRow, RawRecord.fields naRow] =
      LoadResult.loaded [postOfRecord naRow] := by
  decide

/-- Witness of C7 as amended: runs with a credential whose server answers with a
completion followed by further text, with a completion and a line break after it,
with status 401 and an error object, with status 200 and `choices: []`, with status
200 and a completion that stands under the name `data`, with status 200 and an
empty body, and with status 200 and the body `null`. -/
theorem response_handling_witness :
    (main (sampleWorld "sk-1" ⟨200, ⟨some (successBody "analysis"), "garbage"⟩⟩)).written =
      some "analysis" ∧
    (main (sampleWorld "sk-1" ⟨200, ⟨some (successBody "analysis"), "\n"⟩⟩)).written =
      some "analysis" ∧
    ((main (sampleWorld "sk-1" ⟨401, ⟨some errorBody, ""⟩⟩)).written = none ∧
      (main (sampleWorld "sk-1" ⟨401, ⟨some errorBody, ""⟩⟩)).message = "Error from API:") ∧
    ((main (sampleWorld "sk-1" ⟨200, ⟨some emptyChoicesBody, ""⟩⟩)).written = none ∧
      (main (sampleWorld "sk-1" ⟨200, ⟨some emptyChoicesBody, ""⟩⟩)).message =
        "No choices in response") ∧
    (main (sampleWorld "sk-1" ⟨200, ⟨some (misnamedBody "analysis"), ""⟩⟩)).written = none ∧
    ((main (sampleWorld "sk-1" ⟨200, ⟨none, ""⟩⟩)).written = none ∧
      (main (sampleWorld "sk-1" ⟨200, ⟨none, ""⟩⟩)).message = "Error decoding response:") ∧
    ((main (sampleWorld "sk-1" ⟨200, ⟨some JSONValue.null, ""⟩⟩)).written = none ∧
      (main (sampleWorld "sk-1" ⟨200, ⟨some JSONValue.null, ""⟩⟩)).message =
        "No choices in response") :=
  ⟨((response_handling (sampleWorld "sk-1" ⟨200, ⟨some (successBody "analysis"), "garbage"⟩⟩)
        _ _ ⟨200, ⟨some (successBody "analysis"), "garbage"⟩⟩ rfl sampleWorld_loads (by decide)
        rfl).1 "analysis").mpr ⟨rfl, _, rfl, _, _, _, _, rfl, rfl, rfl, rfl⟩,
    (response_handling (sampleWorld "sk-1" ⟨200, ⟨some (successBody "analysis"), "\n"⟩⟩)
        _ _ ⟨200, ⟨some (successBody "analysis"), "\n"⟩⟩ rfl sampleWorld_loads (by decide)
        rfl).2.1 "analysis" ⟨rfl, _, ⟨rfl, by decide⟩, _, _, _, _, rfl, rfl, rfl, rfl⟩,
    (response_handling (sampleWorld "sk-1" ⟨401, ⟨some errorBody, ""⟩⟩) _ _
      ⟨401, ⟨some errorBody, ""⟩⟩ rfl sampleWorld_loads (by decide) rfl).2.2.2.2.2.2.1
      _ (by decide) rfl rfl,
    (fun h => ⟨h.1, h.2.1⟩)
      ((response_handling (sampleWorld "sk-1" ⟨200, ⟨some emptyChoicesBody, ""⟩⟩) _ _
        ⟨200, ⟨some emptyChoicesBody, ""⟩⟩ rfl sampleWorld_loads (by decide) rfl).2.2.2.2.1
        _ rfl rfl rfl),
    (response_handling (sampleWorld "sk-1" ⟨200, ⟨some (misnamedBody "analysis"), ""⟩⟩) _ _
      ⟨200, ⟨some (misnamedBody "analysis"), ""⟩⟩ rfl sampleWorld_loads (by decide) rfl).2.2.1
      (by
        rintro ⟨content, v, -, hv, members, rest, firstChoice, message, hobj, hchoices, -⟩
        simp only [Option.some.injEq] at hv
        subst hv
        simp only [misnamedBody, JSONValue.object.injEq] at hobj
        subst hobj
        simp [member] at hchoices),
    (response_handling (sampleWorld "sk-1" ⟨200, ⟨none, ""⟩⟩) _ _
      ⟨200, ⟨none, ""⟩⟩ rfl sampleWorld_loads (by decide) rfl).2.2.2.2.2.1
      (fun v hv => by simp at hv),
    (response_handling (sampleWorld "sk-1" ⟨200, ⟨some JSONValue.null, ""⟩⟩) _ _
      ⟨200, ⟨some JSONValue.null, ""⟩⟩ rfl sampleWorld_loads (by decide) rfl).2.2.2.2.2.2.2.1
      rfl rfl⟩

/-! ## Where the loader does not panic -/

theorem readRows_wide (r : Reader) (posts : List Post) (rows : List RawRecord)
    (h : 18 ≤ r.FieldsPerRecord) : ∃ out, readRows r posts rows = some out := by
  induction rows generalizing posts with
  | nil => exact ⟨posts, rfl⟩
  | cons raw rest ih =>
    rw [readRows]
    cases raw with
    | parseError => exact ih posts
    | fields fs =>
      simp only [Reader.Read, show r.FieldsPerRecord > 0 by omega, if_true]
      by_cases hlen : fs.length = r.FieldsPerRecord
      · simp only [hlen, ne_eq, not_true_eq_false, if_false]
        rw [mkPost_of_length fs (by omega)]
        exact ih _
      · simp only [hlen, ne_eq, not_false_eq_true, if_true]
        exact ih posts

/-- With a header of at least 18 fields the loader does not panic: `Read` returns a
row of another width with `ErrFieldCount`, the row is skipped, and the rows after it
are loaded. -/
theorem loadPosts_wide_header (header : List String) (rows : List RawRecord)
    (h : 18 ≤ header.length) :
    (∃ posts, loadPosts (RawRecord.fields header :: rows) = LoadResult.loaded posts) ∧
    (∀ (short : List String) (rest : List RawRecord) (posts : List Post),
      short.length ≠ header.length →
      readRows (Reader.mk header.length) posts (RawRecord.fields short :: rest) =
        readRows (Reader.mk header.length) posts rest) := by
  constructor
  · obtain ⟨out, hout⟩ := readRows_wide (Reader.mk header.length) [] rows h
    refine ⟨out, ?_⟩
    simp [loadPosts, Reader.Read, hout]
  · intro short rest posts hne
    rw [readRows]
    simp [Reader.Read, show header.length > 0 by omega, hne]

end XhsCreator
